import Mathlib

/-!
# Verification of the `robt` read-only B-tree index

A shallow embedding, in Lean 4, of the core of the `robt` crate: the
bottom-up packed builder (`src/build.rs`), the build-time scan adapter
(`src/scans.rs`), the meta-block trailer (`src/robt.rs`), the reader
(`src/reader.rs`), the file-name recognizers (`src/files.rs`) and the
`validate` routine (`src/robt.rs`).

Conventions of the embedding:

* Keys, values and deltas are `Nat` (the crate is generic; `Nat` carries the
  required `Ord` structure).
* Machine integers (`u64`, `usize`) are modelled as `Nat`; the byte-level
  trailer arithmetic keeps the `2^64` bounds explicit where they matter.
* Byte strings are `List Nat`.
* The external serialization crate (`mkit`'s CBOR codec) is out of scope of
  the repository; the definitions are parameterized by a `Codec` bundle of
  entry/value/delta encoders.  The fixed one-byte CBOR framing markers that
  the repository itself emits (indefinite-array begin `0x9f`, break `0xff`)
  are kept concrete.
* Rust `Result` is `Except RErr`; a Rust panic (`unwrap` failure,
  `unreachable!`) is the explicit `RErr.Panic` value.  Loops that the Rust
  code runs unboundedly are given explicit fuel; `RErr.FuelOut` marks fuel
  exhaustion and theorems show it is not reached (or, for the defective
  input of claim C4, that no progress is made).
-/

namespace Robt

/-- Error taxonomy of `src/lib.rs` (`enum Error`), extended with the two
model-level artifacts `Panic` (a Rust panic such as `unreachable!()` or a
failed `unwrap`) and `FuelOut` (fuel exhaustion of a loop the Rust source
runs unboundedly). -/
inductive RErr where
  | FailConvert
  | FailCbor
  | IOError
  | Fatal
  | Invalid
  | IPCFail
  | ThreadFail
  | InvalidFile
  | KeyNotFound
  | Panic
  | FuelOut
deriving DecidableEq, Repr

instance {e a : Type _} [DecidableEq e] [DecidableEq a] : DecidableEq (Except e a)
  | .ok x, .ok y => decidable_of_iff (x = y) (by simp)
  | .error x, .error y => decidable_of_iff (x = y) (by simp)
  | .ok _, .error _ => isFalse (by intro h; cases h)
  | .error _, .ok _ => isFalse (by intro h; cases h)

/-- `mkit::db::Value` as consumed by this crate: the current value of an
entry with its sequence number and deletion flag (spec section 6, runtime
contract of the source iterator). -/
structure DbValue where
  value : Nat
  seqno : Nat
  deleted : Bool
deriving DecidableEq, Repr

/-- One historical version (`mkit::db::Delta`): a reverse-diff with its
sequence number and deletion flag. -/
structure DbDelta where
  diff : Nat
  seqno : Nat
  deleted : Bool
deriving DecidableEq, Repr

/-- `mkit::db::Entry`: the logical record produced by the source iterator
and returned to callers. -/
structure DbEntry where
  key : Nat
  value : DbValue
  deltas : List DbDelta
deriving DecidableEq, Repr

namespace DbEntry

/-- `mkit::db::Entry::to_seqno` — seqno of the current value. -/
def to_seqno (e : DbEntry) : Nat := e.value.seqno

/-- `mkit::db::Entry::is_deleted` — deletion flag of the current value. -/
def is_deleted (e : DbEntry) : Bool := e.value.deleted

/-- Modelled from the spec: `mkit::db::Entry::drain_deltas` (the `mkit`
crate is an external collaborator; spec section 4.5: "If `delta_ok` is
false, drop all deltas from the entry"). -/
def drain_deltas (e : DbEntry) : DbEntry := { e with deltas := [] }

end DbEntry

/-- `vlog::Value` (src/vlog.rs): a value either native (inline payload) or
a reference `{fpos, length}` into the value-log file. -/
inductive VValue where
  | N (value : Nat) (seqno : Nat) (deleted : Bool)
  | R (seqno : Nat) (deleted : Bool) (fpos : Nat) (length : Nat)
deriving DecidableEq, Repr

/-- `vlog::Delta` (src/vlog.rs): a delta either native or a reference into
the value-log file. -/
inductive VDelta where
  | N (diff : Nat) (seqno : Nat) (deleted : Bool)
  | R (seqno : Nat) (deleted : Bool) (fpos : Nat) (length : Nat)
deriving DecidableEq, Repr

/-- `entry::Entry` (src/entry.rs): the unit stored inside a block. -/
inductive Entry where
  | MM (key : Nat) (fpos : Nat)
  | MZ (key : Nat) (fpos : Nat)
  | ZZ (key : Nat) (value : VValue) (deltas : List VDelta)
deriving DecidableEq, Repr

namespace Entry

/-- `Entry::as_key` / `to_key` (src/entry.rs). -/
def key : Entry → Nat
  | .MM k _ => k
  | .MZ k _ => k
  | .ZZ k _ _ => k

/-- `Entry::is_zblock` (src/entry.rs). -/
def is_zblock : Entry → Bool
  | .MM _ _ => false
  | .MZ _ _ => false
  | .ZZ _ _ _ => true

/-- `From<db::Entry> for Entry` (src/entry.rs): a logical record becomes a
`ZZ` leaf entry with native value and native deltas. -/
def ofDb (e : DbEntry) : Entry :=
  .ZZ e.key (.N e.value.value e.value.seqno e.value.deleted)
    (e.deltas.map fun d => .N d.diff d.seqno d.deleted)

/-- Modelled from the spec: `Entry::drain_deltas` on the stored entry (the
method is called at src/reader.rs:103,362,366 but its definition is not in
the source tree; spec section 4.7: "else drop deltas"). -/
def drain_deltas : Entry → Entry
  | .ZZ k v _ => .ZZ k v []
  | e => e

end Entry

/-- `From<Entry> for db::Entry` (src/entry.rs): only a `ZZ` entry with a
native value converts back; reference forms and `MM`/`MZ` entries are
`unreachable!()` in the source.  The partiality is kept explicit. -/
def Entry.toDb : Entry → Option DbEntry
  | .ZZ k (.N v s d) ds =>
    let nds := ds.mapM fun
      | .N df s' d' => some (DbDelta.mk df s' d')
      | .R _ _ _ _ => none
    nds.map fun l => DbEntry.mk k (DbValue.mk v s d) l
  | _ => none

/-! ## BuildScan (src/scans.rs)

`BuildScan` wraps the source iterator, tracking `seqno`, `n_count` and
`n_deleted`, with a one-slot push-back (`push`).  The statistics update
happens only in the branch that pulls from the inner iterator
(src/scans.rs lines 148-163); a pushed-back entry is re-delivered without
touching them. -/

/-- The state of a `BuildScan`: the one-slot look-aside (`entry`), the
remaining inner iterator (as a list) and the running statistics. -/
structure BuildScan where
  entry : Option DbEntry
  src : List DbEntry
  seqno : Nat
  n_count : Nat
  n_deleted : Nat
deriving DecidableEq, Repr

namespace BuildScan

/-- `BuildScan::new(iter, seqno)` (src/scans.rs). -/
def new (src : List DbEntry) (seqno : Nat) : BuildScan :=
  { entry := none, src := src, seqno := seqno, n_count := 0, n_deleted := 0 }

/-- `BuildScan::push` (src/scans.rs lines 115-117): store one entry in the
look-aside slot. -/
def push (st : BuildScan) (e : DbEntry) : BuildScan := { st with entry := some e }

/-- `BuildScan::next` (src/scans.rs lines 148-163): deliver the pushed-back
entry if present (without updating statistics), otherwise pull from the
inner iterator, updating `seqno`, `n_count` and `n_deleted`. -/
def next (st : BuildScan) : Option (DbEntry × BuildScan) :=
  match st.entry with
  | some e => some (e, { st with entry := none })
  | none =>
    match st.src with
    | [] => none
    | e :: rest =>
      some (e, { st with
        src := rest
        seqno := max st.seqno e.to_seqno
        n_count := st.n_count + 1
        n_deleted := if e.is_deleted then st.n_deleted + 1 else st.n_deleted })

/-- Number of items still to be delivered (look-aside slot plus inner
iterator); the termination measure of the builder loops. -/
def measure (st : BuildScan) : Nat :=
  st.src.length + (if st.entry.isSome then 1 else 0)

/-- One driver step for a `BuildScan`: `none` performs a `next` (dropping
the delivered item), `some e` performs a `push e`.  This models an
arbitrary interleaving of the two operations by a client such as
`BuildZZ`. -/
def step (st : BuildScan) : Option DbEntry → BuildScan
  | none => match st.next with
    | some (_, st') => st'
    | none => st
  | some e => st.push e

/-- A sequence of driver steps. -/
def run (st : BuildScan) : List (Option DbEntry) → BuildScan
  | [] => st
  | op :: ops => (st.step op).run ops

theorem measure_next_lt {st st' : BuildScan} {e : DbEntry}
    (h : st.next = some (e, st')) : st'.measure < st.measure := by
  unfold next at h
  cases hs : st.entry with
  | some e0 =>
    rw [hs] at h
    cases h
    simp [measure, hs]
  | none =>
    rw [hs] at h
    cases hsrc : st.src with
    | nil => rw [hsrc] at h; cases h
    | cons a rest =>
      rw [hsrc] at h
      cases h
      simp [measure, hs, hsrc]

theorem next_none_iff {st : BuildScan} :
    st.next = none ↔ st.entry = none ∧ st.src = [] := by
  unfold next
  cases st.entry <;> cases hsrc : st.src <;> simp

/-- A `next` that delivers a pushed-back entry leaves `seqno`, `n_count`
and `n_deleted` untouched and delivers exactly the pushed entry. -/
theorem next_pushback (st : BuildScan) (e : DbEntry) :
    (st.push e).next = some (e, { st with entry := none }) := by
  simp [push, next]

/-- Invariant of driver runs: entries are counted exactly when they are
pulled from the inner iterator, so `n_count` plus the number of remaining
inner entries is constant, whatever pushes are interleaved. -/
theorem run_count_invariant (ops : List (Option DbEntry)) (st : BuildScan) :
    (st.run ops).n_count + (st.run ops).src.length = st.n_count + st.src.length := by
  induction ops generalizing st with
  | nil => rfl
  | cons op ops ih =>
    rw [run]
    rw [ih]
    cases op with
    | some e => simp [step, push]
    | none =>
      show (st.step none).n_count + (st.step none).src.length = _
      unfold step next
      cases he : st.entry with
      | some e0 => simp [he]
      | none =>
        cases hs : st.src with
        | nil => simp [he, hs]
        | cons a rest => simp [he, hs]; omega

end BuildScan

/-! ## File names (src/files.rs)

Logical names and file names are `List Char` (the crate uses `OsString`;
only valid-unicode names are modelled, which is the regime of the crate's
own tests).  `Path::file_name` and `Path::file_stem` are methods of the
external standard library; they are modelled after their documented
behaviour. -/

/-- `str::strip_suffix` of the external standard library: remove `suf`
from the end of `s` if present. -/
def stripSuffix (s suf : List Char) : Option (List Char) :=
  if suf.isSuffixOf s then some (s.take (s.length - suf.length)) else none

/-- `Path::file_name` of the external standard library: the last non-empty
path component, unless it is `.` or `..`. -/
def rustFileName (s : List Char) : Option (List Char) :=
  let comps := (s.splitOn '/').filter fun c => c ≠ [] ∧ c ≠ ['.']
  match comps.getLast? with
  | none => none
  | some c => if c = ['.', '.'] then none else some c

/-- `Path::file_stem` of the external standard library, applied to a plain
file name: the portion before the final `.`; the whole name when it has no
`.`, or when it begins with `.` and has no other `.`. -/
def rustFileStem (name : List Char) : List Char :=
  match name with
  | [] => []
  | c :: rest =>
    if c = '.' ∧ ¬ rest.contains '.' then name
    else if name.contains '.' then
      name.take (name.length - 1 - List.indexOf '.' name.reverse)
    else name

/-- `From<String> for IndexFileName` (src/files.rs):
`format!("{}-robt.indx", name)`. -/
def IndexFileName.ofName (name : List Char) : List Char :=
  name ++ "-robt.indx".toList

/-- `From<String> for VlogFileName` (src/files.rs):
`format!("{}-robt.vlog", name)`. -/
def VlogFileName.ofName (name : List Char) : List Char :=
  name ++ "-robt.vlog".toList

/-- `TryFrom<IndexFileName> for String` (src/files.rs lines 16-35): take the
file name, require the `-robt.indx` suffix, take the file stem, then
`strip_suffix("-robt.indx").unwrap()` — the failed `unwrap` is the explicit
`RErr.Panic`. -/
def IndexFileName.toName (f : List Char) : Except RErr (List Char) :=
  let fname : Option (List Char) :=
    match rustFileName f with
    | none => none
    | some fn =>
      if "-robt.indx".toList.isSuffixOf fn then some (rustFileStem fn) else none
  match fname with
  | some fname =>
    match stripSuffix fname "-robt.indx".toList with
    | some s => .ok s
    | none => .error .Panic
  | none => .error .InvalidFile

/-- `TryFrom<VlogFileName> for String` (src/files.rs lines 69-89); same
shape as the index recognizer with the `-robt.vlog` suffix. -/
def VlogFileName.toName (f : List Char) : Except RErr (List Char) :=
  let fname : Option (List Char) :=
    match rustFileName f with
    | none => none
    | some fn =>
      if "-robt.vlog".toList.isSuffixOf fn then some (rustFileStem fn) else none
  match fname with
  | some fname =>
    match stripSuffix fname "-robt.vlog".toList with
    | some s => .ok s
    | none => .error .Panic
  | none => .error .InvalidFile

/-! ## Stats (src/config.rs) and `Index::validate` (src/robt.rs) -/

/-- `config::Stats` (src/config.rs). -/
structure Stats where
  name : List Char
  z_blocksize : Nat
  m_blocksize : Nat
  v_blocksize : Nat
  delta_ok : Bool
  value_in_vlog : Bool
  vlog_file : Option (List Char)
  n_count : Nat
  n_deleted : Nat
  seqno : Nat
  n_abytes : Nat
  build_time : Nat
  epoch : Nat
deriving DecidableEq, Repr

namespace Index

/-- The loop of `Index::validate` (src/robt.rs lines 647-672) over the
entries yielded by `self.iter(..)`, with the accumulators `prev_key`,
`n_count`, `n_deleted`, `seqno` and the trailing statistics comparison
(lines 674-683).  Every failure is an `err_at!(Fatal, ..)`. -/
def validateGo (s : Stats) :
    List DbEntry → Option Nat → Nat → Nat → Nat → Except RErr Stats
  | [], _, n_count, n_deleted, seqno =>
    if n_count ≠ s.n_count then .error .Fatal
    else if n_deleted ≠ s.n_deleted then .error .Fatal
    else if seqno > 0 ∧ seqno > s.seqno then .error .Fatal
    else .ok s
  | e :: rest, prev_key, n_count, n_deleted, seqno =>
    let n_count := n_count + 1
    let n_deleted := if e.is_deleted then n_deleted + 1 else n_deleted
    let seqno := max seqno e.to_seqno
    if (match prev_key with | some pk => decide (¬ pk < e.key) | none => false) then
      .error .Fatal
    else if e.deltas.any fun d => decide (d.seqno ≥ seqno) then
      .error .Fatal
    else
      validateGo s rest (some e.key) n_count n_deleted seqno

/-- `Index::validate` (src/robt.rs lines 639-684), as a function of the
list of entries yielded by the full non-versioned iteration and of the
persisted statistics. -/
def validate (es : List DbEntry) (s : Stats) : Except RErr Stats :=
  validateGo s es none 0 0 0

end Index

/-- Running-maximum delta condition actually enforced by the loop of
`Index::validate`: each delta's seqno is strictly below the running
maximum seqno seen so far (which includes the current entry's own value
seqno). -/
def runningDeltaOk : Nat → List DbEntry → Bool
  | _, [] => true
  | seqno, e :: rest =>
    let s := max seqno e.to_seqno
    (e.deltas.all fun d => decide (d.seqno < s)) && runningDeltaOk s rest

/-- Keys strictly ascending, continuing from an optional previous key. -/
def ascendingFrom : Option Nat → List DbEntry → Bool
  | _, [] => true
  | none, e :: rest => ascendingFrom (some e.key) rest
  | some pk, e :: rest => decide (pk < e.key) && ascendingFrom (some e.key) rest

/-- Maximum value-seqno over a list of entries, from a starting value. -/
def maxSeqFrom (s : Nat) (es : List DbEntry) : Nat :=
  es.foldl (fun a e => max a e.to_seqno) s

/-- Number of deleted entries. -/
def countDeleted (es : List DbEntry) : Nat :=
  (es.filter fun e => e.is_deleted).length

theorem Index.validateGo_ok_iff (s : Stats) (es : List DbEntry)
    (prev : Option Nat) (nc nd sq : Nat) :
    Index.validateGo s es prev nc nd sq = .ok s ↔
      (ascendingFrom prev es = true ∧ runningDeltaOk sq es = true ∧
        nc + es.length = s.n_count ∧ nd + countDeleted es = s.n_deleted ∧
        (maxSeqFrom sq es = 0 ∨ maxSeqFrom sq es ≤ s.seqno)) := by
  induction es generalizing prev nc nd sq with
  | nil =>
    simp only [Index.validateGo, ascendingFrom, runningDeltaOk, maxSeqFrom,
      countDeleted, List.foldl_nil, List.filter_nil, List.length_nil]
    by_cases h1 : nc = s.n_count <;> by_cases h2 : nd = s.n_deleted <;>
      by_cases h3 : sq > 0 ∧ sq > s.seqno <;>
      simp [h1, h2, h3] <;> omega
  | cons e rest ih =>
    simp only [Index.validateGo]
    by_cases hk : (match prev with
        | some pk => decide (¬ pk < e.key)
        | none => false) = true
    · rw [if_pos hk]
      cases prev with
      | none => simp at hk
      | some pk =>
        simp only [decide_eq_true_eq] at hk
        simp [ascendingFrom, hk]
    · rw [if_neg hk]
      by_cases hd : (e.deltas.any fun d => decide (d.seqno ≥ max sq e.to_seqno)) = true
      · rw [if_pos hd]
        have hnall : ¬ (e.deltas.all fun d => decide (d.seqno < max sq e.to_seqno)) = true := by
          simp only [List.any_eq_true, decide_eq_true_eq] at hd
          simp only [List.all_eq_true, decide_eq_true_eq]
          obtain ⟨d, hdmem, hdge⟩ := hd
          intro hall
          exact absurd (hall d hdmem) (by omega)
        apply iff_of_false
        · simp
        · rintro ⟨-, h2, -⟩
          simp only [runningDeltaOk, Bool.and_eq_true] at h2
          exact hnall h2.1
      · rw [if_neg hd]
        rw [ih]
        have hall : (e.deltas.all fun d => decide (d.seqno < max sq e.to_seqno)) = true := by
          simp only [List.any_eq_true, decide_eq_true_eq] at hd
          simp only [List.all_eq_true, decide_eq_true_eq]
          intro d hdm
          by_contra hc
          exact hd ⟨d, hdm, by omega⟩
        constructor
        · rintro ⟨a1, a2, a3, a4, a5⟩
          refine ⟨?_, ?_, ?_, ?_, ?_⟩
          · cases prev with
            | none => simpa [ascendingFrom] using a1
            | some pk =>
              simp only [decide_eq_true_eq] at hk
              simp only [ascendingFrom, Bool.and_eq_true, decide_eq_true_eq]
              exact ⟨by simpa using hk, a1⟩
          · simp only [runningDeltaOk, Bool.and_eq_true]
            exact ⟨hall, a2⟩
          · simpa [List.length_cons] using by omega
          · simp only [countDeleted, List.filter_cons] at a4 ⊢
            cases hdel : e.is_deleted <;> simp [hdel] at a4 ⊢ <;> omega
          · simpa [maxSeqFrom] using a5
        · rintro ⟨a1, a2, a3, a4, a5⟩
          refine ⟨?_, ?_, ?_, ?_, ?_⟩
          · cases prev with
            | none => simpa [ascendingFrom] using a1
            | some pk =>
              simp only [ascendingFrom, Bool.and_eq_true, decide_eq_true_eq] at a1
              exact a1.2
          · simp only [runningDeltaOk, Bool.and_eq_true] at a2
            exact a2.2
          · simp only [List.length_cons] at a3; omega
          · simp only [countDeleted, List.filter_cons] at a4 ⊢
            cases hdel : e.is_deleted <;> simp [hdel] at a4 ⊢ <;> omega
          · simpa [maxSeqFrom] using a5

/-! ## Meta blocks (src/robt.rs)

`Builder::meta_blocks` appends the five meta items at the tail of the index
file, padded to a multiple of `MARKER_BLOCK_SIZE` bytes, with the final 16
bytes holding two big-endian `u64`s; `Index::open_file` reads them back.
The CBOR serialization of the item list (derive `Cborize` of the external
`mkit` crate) is a parameter `encM`/`decM`. -/

/-- `MARKER_BLOCK_SIZE` (src/robt.rs line 37): `1024 * 4`. -/
def MARKER_BLOCK_SIZE : Nat := 1024 * 4

/-- Modelled from the spec: `marker::ROOT_MARKER` — the module `marker` is
declared in src/lib.rs but its file is not in the source tree.  Spec
section 6: the marker is a fixed byte sequence (a versioned magic string);
any fixed value serves the embedding. -/
def ROOT_MARKER : List Nat := [82, 79, 66, 84]

/-- `robt::MetaItem` (src/robt.rs lines 277-289). -/
inductive MetaItem where
  | AppMetadata (bytes : List Nat)
  | Stats (bytes : List Nat)
  | Bitmap (bytes : List Nat)
  | Root (fpos : Nat)
  | Marker (bytes : List Nat)
deriving DecidableEq, Repr

/-- `u64::to_be_bytes`: eight big-endian bytes of `n % 2^64`. -/
def be64 (n : Nat) : List Nat :=
  [n / 2 ^ 56 % 256, n / 2 ^ 48 % 256, n / 2 ^ 40 % 256, n / 2 ^ 32 % 256,
    n / 2 ^ 24 % 256, n / 2 ^ 16 % 256, n / 2 ^ 8 % 256, n % 256]

/-- `u64::from_be_bytes` on an 8-byte list. -/
def fromBe64 (bs : List Nat) : Nat :=
  bs.foldl (fun a b => a * 256 + b) 0

/-- `Vec::resize(n, 0)`: truncate to `n` elements or pad with zeros up to
`n` elements. -/
def resizeVec (v : List Nat) (n : Nat) : List Nat :=
  v.take n ++ List.replicate (n - v.length) 0

/-- `Builder::compute_root_block` (src/robt.rs lines 263-268): round up to
a multiple of `MARKER_BLOCK_SIZE`. -/
def computeRootBlock (n : Nat) : Nat :=
  if n % MARKER_BLOCK_SIZE = 0 then n
  else (n / MARKER_BLOCK_SIZE + 1) * MARKER_BLOCK_SIZE

/-- The five meta items written by `Builder::meta_blocks` (src/robt.rs
lines 242-248); `statsBytes` is the already-CBOR-encoded `Stats` record. -/
def metaItems (appMeta statsBytes bitmap : List Nat) (root : Nat) : List MetaItem :=
  [.AppMetadata appMeta, .Stats statsBytes, .Bitmap bitmap, .Root root,
    .Marker ROOT_MARKER]

/-- `Builder::meta_blocks` (src/robt.rs lines 238-261): encode the item
array, pad `len + 16` up to a multiple of `MARKER_BLOCK_SIZE`, and
overwrite the last 16 bytes with big-endian `m` (total block length, which
is the block's offset from the end of the file) and `len` (unpadded
payload length). -/
def metaBlocks (encM : List MetaItem → List Nat)
    (appMeta statsBytes bitmap : List Nat) (root : Nat) : List Nat :=
  let block := encM (metaItems appMeta statsBytes bitmap root)
  let len := block.length
  let m := computeRootBlock (len + 16)
  let block := resizeVec block m
  block.take (m - 16) ++ be64 m ++ be64 len

/-- `read_file!` (src/lib.rs) on an in-memory byte file: seek to `off`
and read exactly `n` bytes; a short read is `Fatal`. -/
def readFileBytes (file : List Nat) (off n : Nat) : Except RErr (List Nat) :=
  if off + n ≤ file.length then .ok ((file.drop off).take n) else .error .Fatal

/-- The meta-handling prefix of `Index::open_file` (src/robt.rs lines
338-373): read the two big-endian `u64`s from the last 16 bytes, seek back
`off` bytes from the end, read `len` bytes, decode the item array
(decoder `decM`), extract `Stats` bytes, bitmap bytes and root position
(`unreachable!()` on a wrong variant is `Panic`), and validate the marker:
a mismatching `Marker` is `err_at!(Invalid, ..)`.  The `off` value is read
as an `i64`; a value at or above `2^63` is negative and the corresponding
seek fails with `IOError`. -/
def openFileMeta (decM : List Nat → Option (List MetaItem)) (file : List Nat) :
    Except RErr (List MetaItem × List Nat × List Nat × Nat) :=
  match readFileBytes file (file.length - 16) 8 with
  | .error e => .error e
  | .ok offBytes =>
  match readFileBytes file (file.length - 8) 8 with
  | .error e => .error e
  | .ok lenBytes =>
  let off := fromBe64 offBytes
  let len := fromBe64 lenBytes
  if off ≥ 2 ^ 63 ∨ off > file.length then .error .IOError
  else
    match readFileBytes file (file.length - off) len with
    | .error e => .error e
    | .ok block =>
    match decM block with
    | none => .error .FailCbor
    | some metas =>
      match metas[1]? with
      | some (MetaItem.Stats statsBytes) =>
        match metas[2]? with
        | some (MetaItem.Bitmap bitmapBytes) =>
          match metas[3]? with
          | some (MetaItem.Root root) =>
            match metas[4]? with
            | some (MetaItem.Marker mrkr) =>
              if mrkr ≠ ROOT_MARKER then .error .Invalid
              else .ok (metas, statsBytes, bitmapBytes, root)
            | _ => .ok (metas, statsBytes, bitmapBytes, root)
          | _ => .error .Panic
        | _ => .error .Panic
      | _ => .error .Panic

theorem computeRootBlock_mod (n : Nat) : computeRootBlock n % MARKER_BLOCK_SIZE = 0 := by
  unfold computeRootBlock
  by_cases h : n % MARKER_BLOCK_SIZE = 0
  · simp [h]
  · simp [h, Nat.mul_mod_left]

theorem computeRootBlock_ge (n : Nat) : n ≤ computeRootBlock n := by
  unfold computeRootBlock
  by_cases h : n % MARKER_BLOCK_SIZE = 0
  · simp [h]
  · rw [if_neg h]
    have h1 : n % MARKER_BLOCK_SIZE < MARKER_BLOCK_SIZE :=
      Nat.mod_lt _ (by decide)
    have h2 : MARKER_BLOCK_SIZE * (n / MARKER_BLOCK_SIZE) + n % MARKER_BLOCK_SIZE = n :=
      Nat.div_add_mod n MARKER_BLOCK_SIZE
    have h3 : (n / MARKER_BLOCK_SIZE + 1) * MARKER_BLOCK_SIZE =
        MARKER_BLOCK_SIZE * (n / MARKER_BLOCK_SIZE) + MARKER_BLOCK_SIZE := by ring
    omega

theorem resizeVec_length (v : List Nat) (n : Nat) : (resizeVec v n).length = n := by
  simp [resizeVec]
  omega

theorem be64_length (n : Nat) : (be64 n).length = 8 := rfl

theorem fromBe64_be64 (n : Nat) (h : n < 2 ^ 64) : fromBe64 (be64 n) = n := by
  simp only [be64, fromBe64, List.foldl_cons, List.foldl_nil]
  omega

theorem drop_append_add (a b : List Nat) (k : Nat) :
    (a ++ b).drop (a.length + k) = b.drop k := by
  rw [List.drop_append_eq_append_drop]
  simp

theorem metaBlocks_length (encM : List MetaItem → List Nat)
    (appMeta statsBytes bitmap : List Nat) (root : Nat) :
    (metaBlocks encM appMeta statsBytes bitmap root).length =
      computeRootBlock ((encM (metaItems appMeta statsBytes bitmap root)).length + 16) := by
  simp only [metaBlocks, List.length_append, be64_length]
  set len := (encM (metaItems appMeta statsBytes bitmap root)).length with hlen
  have hge := computeRootBlock_ge (len + 16)
  set m := computeRootBlock (len + 16) with hm
  have hr := resizeVec_length (encM (metaItems appMeta statsBytes bitmap root)) m
  rw [List.length_take, hr]
  omega

theorem computeRootBlock_lt (n : Nat) : computeRootBlock n < n + MARKER_BLOCK_SIZE := by
  unfold computeRootBlock
  by_cases h : n % MARKER_BLOCK_SIZE = 0
  · simp [h]; decide
  · rw [if_neg h]
    have h1 : n % MARKER_BLOCK_SIZE < MARKER_BLOCK_SIZE := Nat.mod_lt _ (by decide)
    have h2 : MARKER_BLOCK_SIZE * (n / MARKER_BLOCK_SIZE) + n % MARKER_BLOCK_SIZE = n :=
      Nat.div_add_mod n MARKER_BLOCK_SIZE
    have h3 : (n / MARKER_BLOCK_SIZE + 1) * MARKER_BLOCK_SIZE =
        MARKER_BLOCK_SIZE * (n / MARKER_BLOCK_SIZE) + MARKER_BLOCK_SIZE := by ring
    omega

/-- Claim C2 — For every app-metadata blob, encoded Stats record, bitmap
bytes and root position, the meta block written by `Builder::meta_blocks`
has total length a multiple of 4096 bytes; its last 16 bytes are two
big-endian `u64`s — the meta block's total length (its offset from the end
of the file) followed by the unpadded payload length; and the open
procedure of `Index::open_file` (seek `-16`, read both integers, seek back
by the offset, read payload-length bytes, decode) recovers exactly the
five meta items `[AppMetadata, Stats, Bitmap, Root, Marker]` that were
written, whatever index bytes `body` precede the meta block.  The CBOR
array codec of the external `mkit` crate is abstracted as the
`encM`/`decM` pair with its round-trip contract as hypothesis. -/
theorem meta_block_roundtrip
    (encM : List MetaItem → List Nat) (decM : List Nat → Option (List MetaItem))
    (appMeta statsBytes bitmap : List Nat) (root : Nat) (body : List Nat)
    (hdec : decM (encM (metaItems appMeta statsBytes bitmap root)) =
      some (metaItems appMeta statsBytes bitmap root))
    (hsize : (encM (metaItems appMeta statsBytes bitmap root)).length + 4112 ≤ 2 ^ 63) :
    (metaBlocks encM appMeta statsBytes bitmap root).length % 4096 = 0 ∧
    (metaBlocks encM appMeta statsBytes bitmap root).drop
        ((metaBlocks encM appMeta statsBytes bitmap root).length - 16) =
      be64 (metaBlocks encM appMeta statsBytes bitmap root).length ++
        be64 (encM (metaItems appMeta statsBytes bitmap root)).length ∧
    openFileMeta decM (body ++ metaBlocks encM appMeta statsBytes bitmap root) =
      .ok (metaItems appMeta statsBytes bitmap root, statsBytes, bitmap, root) := by
  set payload := encM (metaItems appMeta statsBytes bitmap root) with hpayload
  set len := payload.length with hlenDef
  set m := computeRootBlock (len + 16) with hmDef
  have hm16 : len + 16 ≤ m := computeRootBlock_ge _
  have hmmod : m % MARKER_BLOCK_SIZE = 0 := computeRootBlock_mod _
  have hmlt : m < len + 16 + MARKER_BLOCK_SIZE := computeRootBlock_lt _
  have hm63 : m < 2 ^ 63 := by
    have : MARKER_BLOCK_SIZE = 4096 := rfl
    omega
  set A := (resizeVec payload m).take (m - 16) with hADef
  have hmbEq : metaBlocks encM appMeta statsBytes bitmap root =
      A ++ (be64 m ++ be64 len) := by
    simp only [metaBlocks, hADef, ← hpayload, ← hlenDef, ← hmDef, List.append_assoc]
  have hAlen : A.length = m - 16 := by
    rw [hADef, List.length_take, resizeVec_length]
    omega
  have hmbLen : (metaBlocks encM appMeta statsBytes bitmap root).length = m := by
    rw [hmbEq]
    simp only [List.length_append, hAlen, be64_length]
    omega
  have hdrop16 : (metaBlocks encM appMeta statsBytes bitmap root).drop (m - 16) =
      be64 m ++ be64 len := by
    rw [hmbEq, ← hAlen, List.drop_left]
  refine ⟨?_, ?_, ?_⟩
  · rw [hmbLen]
    have h4096 : MARKER_BLOCK_SIZE = 4096 := rfl
    rw [← h4096]
    exact hmmod
  · rw [hmbLen, hdrop16]
  · set mb := metaBlocks encM appMeta statsBytes bitmap root with hmbDef
    have hfl : (body ++ mb).length = body.length + m := by
      rw [List.length_append, hmbLen]
    have h1 : readFileBytes (body ++ mb) ((body ++ mb).length - 16) 8 = .ok (be64 m) := by
      unfold readFileBytes
      rw [hfl, if_pos (by omega)]
      have hsplit : body.length + m - 16 = body.length + (m - 16) := by omega
      rw [hsplit, drop_append_add, hdrop16]
      have : (be64 m ++ be64 len).take 8 = (be64 m ++ be64 len).take (be64 m).length := by
        rw [be64_length]
      rw [this, List.take_left]
    have h2 : readFileBytes (body ++ mb) ((body ++ mb).length - 8) 8 = .ok (be64 len) := by
      unfold readFileBytes
      rw [hfl, if_pos (by omega)]
      have hsplit : body.length + m - 8 = body.length + (m - 8) := by omega
      rw [hsplit, drop_append_add]
      have hsplit2 : m - 8 = (m - 16) + 8 := by omega
      rw [hsplit2, ← List.drop_drop, hdrop16]
      have h8 : (be64 m ++ be64 len).drop 8 = (be64 m ++ be64 len).drop (be64 m).length := by
        rw [be64_length]
      rw [h8, List.drop_left]
      have : (be64 len).take 8 = (be64 len).take (be64 len).length := by rw [be64_length]
      rw [this, List.take_length]
    have h3 : readFileBytes (body ++ mb) ((body ++ mb).length - m) len = .ok payload := by
      unfold readFileBytes
      rw [hfl, if_pos (by omega)]
      have hsplit : body.length + m - m = body.length + 0 := by omega
      rw [hsplit, drop_append_add, List.drop_zero, hmbEq]
      have htk : (A ++ (be64 m ++ be64 len)).take len = A.take len := by
        apply List.take_append_of_le_length
        omega
      rw [htk, hADef, List.take_take]
      have hmin : min len (m - 16) = len := by omega
      rw [hmin]
      unfold resizeVec
      have hpl : payload.take m = payload := List.take_of_length_le (by omega)
      rw [hpl]
      have : (payload ++ List.replicate (m - payload.length) 0).take len = payload.take len := by
        apply List.take_append_of_le_length
        omega
      rw [this, hlenDef, List.take_length]
    unfold openFileMeta
    simp only [h1, h2]
    simp only [fromBe64_be64 m (by omega), fromBe64_be64 len (by omega)]
    rw [if_neg (by push_neg; omega)]
    simp only [h3, hdec]
    simp [metaItems]

/-! ### A concrete meta-item codec

A concrete, executable, self-describing codec for meta-item lists (tag
byte, 8-byte big-endian length, payload), standing in for the external
`mkit` CBOR codec when theorems parameterized by `encM`/`decM` are applied
to concrete inputs. -/

/-- Encode one meta item: tag byte, then the 8-byte big-endian length and
payload (or the 8-byte root position). -/
def encMetaOne : MetaItem → List Nat
  | .AppMetadata bs => 0 :: (be64 bs.length ++ bs)
  | .Stats bs => 1 :: (be64 bs.length ++ bs)
  | .Bitmap bs => 2 :: (be64 bs.length ++ bs)
  | .Root n => 3 :: be64 n
  | .Marker bs => 4 :: (be64 bs.length ++ bs)

/-- Encode a meta-item list: 8-byte big-endian count, then the items. -/
def encMetaList (ms : List MetaItem) : List Nat :=
  be64 ms.length ++ (ms.map encMetaOne).flatten

/-- Decode one meta item, returning the remaining bytes. -/
def decMetaOne : List Nat → Option (MetaItem × List Nat)
  | 0 :: rest =>
    let n := fromBe64 (rest.take 8)
    let rest := rest.drop 8
    if 8 ≤ (0 :: rest).length ∧ n ≤ rest.length then
      some (.AppMetadata (rest.take n), rest.drop n)
    else none
  | 1 :: rest =>
    let n := fromBe64 (rest.take 8)
    let rest := rest.drop 8
    if n ≤ rest.length then some (.Stats (rest.take n), rest.drop n) else none
  | 2 :: rest =>
    let n := fromBe64 (rest.take 8)
    let rest := rest.drop 8
    if n ≤ rest.length then some (.Bitmap (rest.take n), rest.drop n) else none
  | 3 :: rest =>
    if 8 ≤ rest.length then some (.Root (fromBe64 (rest.take 8)), rest.drop 8) else none
  | 4 :: rest =>
    let n := fromBe64 (rest.take 8)
    let rest := rest.drop 8
    if n ≤ rest.length then some (.Marker (rest.take n), rest.drop n) else none
  | _ => none

/-- Decode `k` meta items. -/
def decMetaGo : Nat → List Nat → List MetaItem → Option (List MetaItem)
  | 0, _, acc => some acc.reverse
  | k + 1, bs, acc =>
    match decMetaOne bs with
    | some (it, rest) => decMetaGo k rest (it :: acc)
    | none => none

/-- Decode a meta-item list (count prefix, then the items). -/
def decMetaList (bs : List Nat) : Option (List MetaItem) :=
  decMetaGo (fromBe64 (bs.take 8)) (bs.drop 8) []

/-- Witness for `meta_block_roundtrip`: a concrete build/open round-trip
through the concrete codec. -/
theorem meta_block_roundtrip_witness :
    openFileMeta decMetaList ([9] ++ metaBlocks encMetaList [1] [2, 3] [] 5) =
      .ok (metaItems [1] [2, 3] [] 5, [2, 3], [], 5) :=
  (meta_block_roundtrip encMetaList decMetaList [1] [2, 3] [] 5 [9]
    (by decide) (by decide)).2.2

/-! ### Marker validation (claim C5) -/

/-- Claim C5, counterexample — a file whose meta block decodes but whose
marker item differs from `ROOT_MARKER` makes the open procedure fail with
`Invalid` (src/robt.rs line 371, `err_at!(Invalid, ..)`), which is a
different error variant than the `InvalidFile` stated by the claim. -/
theorem open_bad_marker_counterexample :
    (openFileMeta decMetaList
        (encMetaList [.AppMetadata [], .Stats [7], .Bitmap [], .Root 0, .Marker [9, 9]] ++
          be64 ((encMetaList [.AppMetadata [], .Stats [7], .Bitmap [], .Root 0,
            .Marker [9, 9]]).length + 16) ++
          be64 (encMetaList [.AppMetadata [], .Stats [7], .Bitmap [], .Root 0,
            .Marker [9, 9]]).length) =
      .error .Invalid) ∧
    RErr.Invalid ≠ RErr.InvalidFile := by
  decide

/-- Claim C5 (amended) — for every file whose meta block decodes to five
items whose fifth is a `Marker` different from `ROOT_MARKER`,
`Index::open_file` fails with an `Invalid` error (not `InvalidFile`): the
file is `body` followed by the decodable payload and the 16-byte trailer. -/
theorem open_bad_marker_invalid
    (decM : List Nat → Option (List MetaItem)) (metas : List MetaItem)
    (payload body : List Nat) (sb bb mk : List Nat) (r : Nat)
    (hdec : decM payload = some metas)
    (h1 : metas[1]? = some (MetaItem.Stats sb))
    (h2 : metas[2]? = some (MetaItem.Bitmap bb))
    (h3 : metas[3]? = some (MetaItem.Root r))
    (h4 : metas[4]? = some (MetaItem.Marker mk))
    (hmk : mk ≠ ROOT_MARKER)
    (hsize : payload.length + 16 < 2 ^ 63) :
    openFileMeta decM (body ++ (payload ++ be64 (payload.length + 16) ++
        be64 payload.length)) =
      .error .Invalid := by
  set len := payload.length with hlenDef
  set mbb := payload ++ be64 (len + 16) ++ be64 len with hmbbDef
  have hmbbAssoc : mbb = payload ++ (be64 (len + 16) ++ be64 len) := by
    rw [hmbbDef, List.append_assoc]
  have hmbbLen : mbb.length = len + 16 := by
    rw [hmbbDef]
    simp [be64_length]
  have hfl : (body ++ mbb).length = body.length + (len + 16) := by
    rw [List.length_append, hmbbLen]
  have hdropLen : mbb.drop len = be64 (len + 16) ++ be64 len := by
    rw [hmbbAssoc, hlenDef]
    exact List.drop_left payload _
  have hr1 : readFileBytes (body ++ mbb) ((body ++ mbb).length - 16) 8 =
      .ok (be64 (len + 16)) := by
    unfold readFileBytes
    rw [hfl, if_pos (by omega)]
    have hsplit : body.length + (len + 16) - 16 = body.length + len := by omega
    rw [hsplit, drop_append_add, hdropLen]
    have h8 : (be64 (len + 16) ++ be64 len).take 8 =
        (be64 (len + 16) ++ be64 len).take (be64 (len + 16)).length := by
      rw [be64_length]
    rw [h8, List.take_left]
  have hr2 : readFileBytes (body ++ mbb) ((body ++ mbb).length - 8) 8 =
      .ok (be64 len) := by
    unfold readFileBytes
    rw [hfl, if_pos (by omega)]
    have hsplit : body.length + (len + 16) - 8 = body.length + (len + 8) := by omega
    rw [hsplit, drop_append_add]
    rw [show len + 8 = len + 8 from rfl, ← List.drop_drop, hdropLen]
    have h8 : (be64 (len + 16) ++ be64 len).drop 8 =
        (be64 (len + 16) ++ be64 len).drop (be64 (len + 16)).length := by
      rw [be64_length]
    rw [h8, List.drop_left]
    have : (be64 len).take 8 = (be64 len).take (be64 len).length := by rw [be64_length]
    rw [this, List.take_length]
  have hr3 : readFileBytes (body ++ mbb) ((body ++ mbb).length - (len + 16)) len =
      .ok payload := by
    unfold readFileBytes
    rw [hfl, if_pos (by omega)]
    have hsplit : body.length + (len + 16) - (len + 16) = body.length + 0 := by omega
    rw [hsplit, drop_append_add, List.drop_zero, hmbbAssoc]
    have htk : (payload ++ (be64 (len + 16) ++ be64 len)).take len = payload.take len := by
      apply List.take_append_of_le_length
      omega
    rw [htk, hlenDef, List.take_length]
  unfold openFileMeta
  simp only [hr1, hr2]
  simp only [fromBe64_be64 (len + 16) (by omega), fromBe64_be64 len (by omega)]
  rw [if_neg (by push_neg; omega)]
  simp only [hr3, hdec, h1, h2, h3, h4]
  rw [if_pos hmk]

/-- Witness for `open_bad_marker_invalid` at a concrete corrupted file. -/
theorem open_bad_marker_invalid_witness :
    openFileMeta decMetaList
        ([] ++ (encMetaList [.AppMetadata [], .Stats [7], .Bitmap [], .Root 0,
            .Marker [9, 9]] ++
          be64 ((encMetaList [.AppMetadata [], .Stats [7], .Bitmap [], .Root 0,
            .Marker [9, 9]]).length + 16) ++
          be64 (encMetaList [.AppMetadata [], .Stats [7], .Bitmap [], .Root 0,
            .Marker [9, 9]]).length)) =
      .error .Invalid :=
  open_bad_marker_invalid decMetaList
    [.AppMetadata [], .Stats [7], .Bitmap [], .Root 0, .Marker [9, 9]]
    (encMetaList [.AppMetadata [], .Stats [7], .Bitmap [], .Root 0, .Marker [9, 9]])
    [] [7] [] [9, 9] 0 (by decide) (by decide) (by decide) (by decide) (by decide)
    (by decide) (by decide)

/-! ### `Index::validate` (claim C6) -/

/-- The scan of the C6 counterexample: `Index::validate` checks each
delta's seqno against the RUNNING maximum seqno of the scan (src/robt.rs
lines 658, 666), not against the entry's own value seqno; the entry
`(key 2, value seqno 3)` carries a delta with seqno `5 ≥ 3`, which the
claim says must be an error, yet `validate` accepts the scan because the
running maximum is already 10. -/
def validateCexEntries : List DbEntry :=
  [⟨1, ⟨10, 10, false⟩, []⟩, ⟨2, ⟨3, 3, false⟩, [⟨0, 5, false⟩]⟩]

/-- The persisted statistics matching `validateCexEntries`. -/
def validateCexStats : Stats :=
  ⟨[], 4096, 4096, 4096, true, false, none, 2, 0, 10, 0, 0, 0⟩

/-- Claim C6, counterexample (see `validateCexEntries`): the second entry
carries a delta with seqno 5, not strictly below its value seqno 3, yet
`Index::validate` succeeds. -/
theorem validate_counterexample :
    (Index.validate validateCexEntries validateCexStats = .ok validateCexStats) ∧
    ¬ (∀ e ∈ validateCexEntries, ∀ d ∈ e.deltas, d.seqno < e.value.seqno) := by
  decide

/-- Claim C6 (amended) — `Index::validate`, run over the entries yielded by
the full non-versioned iteration, succeeds (returning the Stats) exactly
when: keys are strictly ascending; every delta's seqno is strictly below
the RUNNING maximum seqno seen so far (which includes the current entry's
value seqno — and is in fact vacuous on real iterations, which drop
deltas); the number of entries equals `stats.n_count`; the number of
deleted entries equals `stats.n_deleted`; and the maximum value-seqno is
either 0 or at most `stats.seqno` (deltas are not included in the
maximum). -/
theorem validate_ok_iff (es : List DbEntry) (s : Stats) :
    Index.validate es s = .ok s ↔
      (ascendingFrom none es = true ∧ runningDeltaOk 0 es = true ∧
        es.length = s.n_count ∧ countDeleted es = s.n_deleted ∧
        (maxSeqFrom 0 es = 0 ∨ maxSeqFrom 0 es ≤ s.seqno)) := by
  have h := Index.validateGo_ok_iff s es none 0 0 0
  simpa using h

/-! ## The builder pipeline (src/build.rs)

`BuildZZ` packs leaf (z) blocks, `BuildMZ` the first intermediate level,
`BuildMM` the higher levels, stacked 28 deep (src/robt.rs line 213).  The
external CBOR codec is a `Codec` parameter; the one-byte framing markers
emitted by the repository itself (indefinite-array begin `0x9f = 159`,
break `0xff = 255`) are concrete. -/

/-- `config::Config` (src/config.rs), the fields the builder reads. -/
structure Config where
  z_blocksize : Nat
  m_blocksize : Nat
  v_blocksize : Nat
  delta_ok : Bool
  value_in_vlog : Bool
deriving DecidableEq, Repr

/-- The external `mkit` CBOR codec: entry encoding (for block packing) and
value/delta payload encoding and decoding (for the value-log). -/
structure Codec where
  encEntry : Entry → List Nat
  encVal : Nat → List Nat
  encDelta : Nat → List Nat
  decVal : List Nat → Option Nat
  decDelta : List Nat → Option Nat

/-- Block kind: leaf (z) or intermediate (m). -/
inductive BKind where
  | z
  | m
deriving DecidableEq, Repr

/-- One block handed to the index flusher: its file position, kind, the
`resize` target (`z_blocksize` or `m_blocksize`) and the entries encoded
into it before the break marker. -/
structure FBlock where
  fpos : Nat
  kind : BKind
  bsize : Nat
  entries : List Entry
deriving DecidableEq, Repr

/-- The raw (unpadded) byte length of a block: the indefinite-array header,
the encoded entries and the break marker. -/
def FBlock.used (c : Codec) (b : FBlock) : Nat :=
  1 + ((b.entries.map c.encEntry).map List.length).sum + 1

/-- The bytes of a block as flushed: header, encoded entries, break, then
`Vec::resize(bsize, 0)` (src/build.rs lines 243-245, 156-158, 80-82). -/
def FBlock.bytes (c : Codec) (b : FBlock) : List Nat :=
  resizeVec (159 :: ((b.entries.map c.encEntry).flatten ++ [255])) b.bsize

/-- `flush::Flusher` for the index file (src/flush.rs): `fpos` is the
producer-side position (bytes handed to the worker so far, starting from 0
for a fresh build); the worker appends the posted blocks in FIFO order. -/
structure Flusher where
  fpos : Nat
  blocks : List FBlock
deriving DecidableEq, Repr

/-- `Flusher::flush` (src/flush.rs lines 78-86): append the block's bytes,
advancing `fpos` by their length. -/
def Flusher.flush (c : Codec) (fl : Flusher) (b : FBlock) : Flusher :=
  { fpos := fl.fpos + (b.bytes c).length, blocks := fl.blocks ++ [b] }

/-- The value-log flusher: position and appended bytes. -/
structure VFlusher where
  fpos : Nat
  bytes : List Nat
deriving DecidableEq, Repr

/-- `Flusher::flush` on the value-log file. -/
def VFlusher.flush (vf : VFlusher) (data : List Nat) : VFlusher :=
  { fpos := vf.fpos + data.length, bytes := vf.bytes ++ data }

/-- Modelled from the spec: `vlog::Value::into_reference` (called at
src/entry.rs line 77; the method is not in the source tree).  Spec section
4.2: serialize the payload, return the descriptor `{fpos, length}` and the
exact bytes to append; a pre-existing reference is passed through with no
bytes. -/
def VValue.into_reference (c : Codec) (vfpos : Nat) : VValue → VValue × List Nat
  | .N v s d => (.R s d vfpos (c.encVal v).length, c.encVal v)
  | .R s d f l => (.R s d f l, [])

/-- Modelled from the spec: `vlog::Delta::into_reference` (called at
src/entry.rs line 88); same contract as for values. -/
def VDelta.into_reference (c : Codec) (vfpos : Nat) : VDelta → VDelta × List Nat
  | .N df s d => (.R s d vfpos (c.encDelta df).length, c.encDelta df)
  | .R s d f l => (.R s d f l, [])

/-- `Entry::into_reference` (src/entry.rs lines 67-106): optionally convert
the value to reference form, append the indefinite-array header, convert
every delta to reference form accumulating the value-log bytes, and close
with the break marker. -/
def Entry.into_reference (c : Codec) (vfpos0 : Nat) (vlog : Bool) :
    Entry → Entry × List Nat
  | .MM k f => (.MM k f, [])
  | .MZ k f => (.MZ k f, [])
  | .ZZ k value deltas =>
    let vv := if vlog then value.into_reference c vfpos0 else (value, [])
    let vblock := vv.2 ++ [159]
    let vfpos := vfpos0 + vblock.length
    let folded := deltas.foldl
      (fun (acc : List VDelta × List Nat × Nat) delta =>
        let dd := delta.into_reference c acc.2.2
        (acc.1 ++ [dd.1], acc.2.1 ++ dd.2, acc.2.2 + dd.2.length))
      ([], vblock, vfpos)
    (.ZZ k vv.1 folded.1, folded.2.1 ++ [255])

/-- `vlog::Value::fetch` (src/vlog.rs lines 70-91), the `into_native` call
of the reader: resolve a reference by reading `length` bytes at `fpos`
from the value-log file and decoding the payload. -/
def VValue.into_native (c : Codec) (vf : List Nat) : VValue → Except RErr VValue
  | .N v s d => .ok (.N v s d)
  | .R s d f l =>
    match readFileBytes vf f l with
    | .error e => .error e
    | .ok bs =>
      match c.decVal bs with
      | some v => .ok (.N v s d)
      | none => .error .FailCbor

/-- `vlog::Delta::fetch` (src/vlog.rs lines 160-181). -/
def VDelta.into_native (c : Codec) (vf : List Nat) : VDelta → Except RErr VDelta
  | .N v s d => .ok (.N v s d)
  | .R s d f l =>
    match readFileBytes vf f l with
    | .error e => .error e
    | .ok bs =>
      match c.decDelta bs with
      | some v => .ok (.N v s d)
      | none => .error .FailCbor

/-- `Entry::into_native` (src/entry.rs lines 108-141): with `versions` the
value and every delta are resolved; without, only the value is resolved
and the deltas are dropped. -/
def Entry.into_native (c : Codec) (vf : List Nat) (versions : Bool) :
    Entry → Except RErr Entry
  | .MM k f => .ok (.MM k f)
  | .MZ k f => .ok (.MZ k f)
  | .ZZ k value deltas =>
    if versions then
      match value.into_native c vf with
      | .error e => .error e
      | .ok value' =>
        match deltas.mapM (VDelta.into_native c vf) with
        | .error e => .error e
        | .ok deltas' => .ok (.ZZ k value' deltas')
    else
      match value.into_native c vf with
      | .error e => .error e
      | .ok value' => .ok (.ZZ k value' [])

/-- The shared pipeline state: the build scan, the index flusher and the
optional value-log flusher (`Flusher::None` is `none`). -/
structure BState where
  scan : BuildScan
  iflush : Flusher
  vflush : Option VFlusher
deriving DecidableEq, Repr

/-- The pull loop of `BuildZZ::next` (src/build.rs lines 217-241):
repeatedly pull an entry from the build scan, drain its deltas unless
`delta_ok`, record the first key, convert to reference form, and append it
unless the z-block would overflow `z_blocksize - 1` bytes (in which case
the entry is pushed back).  `zlen` is the block length so far (header
included), `vbytes` the pending v-block, `vfpos` the running value-log
position. -/
def zzLoopBody (c : Codec) (cfg : Config)
    (rec : BuildScan → Option Nat → List Entry → Nat → List Nat → Nat →
      Except RErr (Option (Nat × List Entry × Nat × List Nat × BuildScan)))
    (scan : BuildScan) (pulled : Option (DbEntry × BuildScan))
    (firstKey : Option Nat) (zentries : List Entry) (zlen : Nat)
    (vbytes : List Nat) (vfpos : Nat) :
    Except RErr (Option (Nat × List Entry × Nat × List Nat × BuildScan)) :=
  match pulled with
  | some (entry0, scan1) =>
    let entry := if ¬ cfg.delta_ok then entry0.drain_deltas else entry0
    let fk := firstKey.getD entry.key
    let ev := (Entry.ofDb entry).into_reference c vfpos cfg.value_in_vlog
    let ibytes := c.encEntry ev.1
    if zlen + ibytes.length > cfg.z_blocksize - 1 then
      .ok (some (fk, zentries, zlen, vbytes, scan1.push entry))
    else
      rec scan1 (some fk) (zentries ++ [ev.1]) (zlen + ibytes.length)
        (vbytes ++ ev.2) (vfpos + ev.2.length)
  | none =>
    match firstKey with
    | some fk => .ok (some (fk, zentries, zlen, vbytes, scan))
    | none => .ok none

/-- The fuel-recursion wrapper of the `BuildZZ` pull loop: one step pulls
`scan.next` and hands it to `zzLoopBody`. -/
def zzLoop (c : Codec) (cfg : Config) :
    Nat → BuildScan → Option Nat → List Entry → Nat → List Nat → Nat →
    Except RErr (Option (Nat × List Entry × Nat × List Nat × BuildScan))
  | 0, _, _, _, _, _, _ => .error .FuelOut
  | fuel + 1, scan, firstKey, zentries, zlen, vbytes, vfpos =>
    zzLoopBody c cfg (zzLoop c cfg fuel) scan scan.next firstKey zentries zlen
      vbytes vfpos

/-- `BuildZZ::next` (src/build.rs lines 205-252): run the pull loop, then
flush the v-block and the z-block (in this order) and yield
`(first_key, fpos)` where `fpos` was queried from the index flusher before
the flush.  `Flusher::None::flush` is `unreachable!()`, hence `Panic` when
no value-log flusher exists. -/
def zzNext (c : Codec) (cfg : Config) (fuel : Nat) (st : BState) :
    Except RErr (Option ((Nat × Nat) × BState)) :=
  let vfpos := (st.vflush.map (·.fpos)).getD 0
  match zzLoop c cfg fuel st.scan none [] 1 [] vfpos with
  | .error e => .error e
  | .ok none => .ok none
  | .ok (some (fk, zentries, _, vbytes, scan')) =>
    let fpos := st.iflush.fpos
    match st.vflush with
    | some vf =>
      let vf' := vf.flush vbytes
      let ifl' := st.iflush.flush c ⟨fpos, .z, cfg.z_blocksize, zentries⟩
      .ok (some ((fk, fpos), ⟨scan', ifl', some vf'⟩))
    | none => .error .Panic

/-- The pull loop of `BuildMZ::next` (src/build.rs lines 132-154): pull
`(key, fpos)` pairs (from the push-back slot first), pack them as `MZ`
entries until the m-block would overflow `m_blocksize - 1` bytes. -/
def mzPull (c : Codec) (cfg : Config) (fuel : Nat) (slot : Option (Nat × Nat))
    (st : BState) : Except RErr (Option ((Nat × Nat) × BState)) :=
  match slot with
  | some p => .ok (some (p, st))
  | none =>
    match zzNext c cfg fuel st with
    | .error e => .error e
    | .ok none => .ok none
    | .ok (some (p, st')) => .ok (some (p, st'))

/-- One step of the `BuildMZ` pull loop on an already-performed pull. -/
def mzLoopBody (c : Codec) (cfg : Config)
    (rec : BState → Option Nat → List Entry → Nat →
      Except RErr (Option (Nat × List Entry × Option (Nat × Nat) × BState)))
    (st : BState) (pulled : Except RErr (Option ((Nat × Nat) × BState)))
    (firstKey : Option Nat) (mentries : List Entry) (mlen : Nat) :
    Except RErr (Option (Nat × List Entry × Option (Nat × Nat) × BState)) :=
  match pulled with
  | .error e => .error e
  | .ok none =>
    match firstKey with
    | some fk => .ok (some (fk, mentries, none, st))
    | none => .ok none
  | .ok (some ((key, fpos), st')) =>
    let fk := firstKey.getD key
    let ibytes := c.encEntry (.MZ key fpos)
    if mlen + ibytes.length > cfg.m_blocksize - 1 then
      .ok (some (fk, mentries, some (key, fpos), st'))
    else
      rec st' (some fk) (mentries ++ [.MZ key fpos]) (mlen + ibytes.length)

/-- The fuel-recursion wrapper of the `BuildMZ` pull loop (the push-back
slot is consumed by the first pull; continuations pull from `BuildZZ`). -/
def mzLoop (c : Codec) (cfg : Config) :
    Nat → Option (Nat × Nat) → BState → Option Nat → List Entry → Nat →
    Except RErr (Option (Nat × List Entry × Option (Nat × Nat) × BState))
  | 0, _, _, _, _, _ => .error .FuelOut
  | fuel + 1, slot, st, firstKey, mentries, mlen =>
    mzLoopBody c cfg (mzLoop c cfg fuel none) st (mzPull c cfg fuel slot st)
      firstKey mentries mlen

/-- `BuildMZ::next` (src/build.rs lines 124-164): run the pull loop, then
always flush the m-block (there is no single-entry optimization at this
level) and yield `(first_key, fpos)`. -/
def mzNext (c : Codec) (cfg : Config) (fuel : Nat) (slot : Option (Nat × Nat))
    (st : BState) :
    Except RErr (Option ((Nat × Nat) × Option (Nat × Nat) × BState)) :=
  match mzLoop c cfg fuel slot st none [] 1 with
  | .error e => .error e
  | .ok none => .ok none
  | .ok (some (fk, mentries, slot', st')) =>
    let fpos := st'.iflush.fpos
    let ifl' := st'.iflush.flush c ⟨fpos, .m, cfg.m_blocksize, mentries⟩
    .ok (some ((fk, fpos), slot', ⟨st'.scan, ifl', st'.vflush⟩))

/-- The tower of builder iterators (`BuildIter`, src/build.rs lines
255-287): `BuildMZ` at the base, each `BuildMM` level owning its push-back
slot. -/
inductive BIter where
  | mz (slot : Option (Nat × Nat))
  | mm (slot : Option (Nat × Nat)) (below : BIter)
deriving DecidableEq, Repr

/-- The pull loop of `BuildMM::next` (src/build.rs lines 53-78),
parameterized by the `next` of the level below: pull pairs, count them
(`n`), remember the last child position (`curr_fpos`), pack them as `MM`
entries until the m-block would overflow. -/
def mmPull
    (nextB : BIter → BState → Except RErr (Option ((Nat × Nat) × BIter × BState)))
    (slot : Option (Nat × Nat)) (below : BIter) (st : BState) :
    Except RErr (Option ((Nat × Nat) × BIter × BState)) :=
  match slot with
  | some p => .ok (some (p, below, st))
  | none => nextB below st

/-- One step of the `BuildMM` pull loop on an already-performed pull:
`curr_fpos` and `n` are updated before the overflow check (src/build.rs
lines 59-71). -/
def mmLoopBody (c : Codec) (cfg : Config)
    (rec : BIter → BState → Option Nat → Option Nat → Nat → List Entry → Nat →
      Except RErr
        (Option (Nat × Option Nat × Nat × List Entry × Option (Nat × Nat) × BIter × BState)))
    (below : BIter) (st : BState)
    (pulled : Except RErr (Option ((Nat × Nat) × BIter × BState)))
    (firstKey : Option Nat) (currFpos : Option Nat) (n : Nat)
    (mentries : List Entry) (mlen : Nat) :
    Except RErr
      (Option (Nat × Option Nat × Nat × List Entry × Option (Nat × Nat) × BIter × BState)) :=
  match pulled with
  | .error e => .error e
  | .ok none =>
    match firstKey with
    | some fk => .ok (some (fk, currFpos, n, mentries, none, below, st))
    | none => .ok none
  | .ok (some ((key, fpos), below', st')) =>
    let fk := firstKey.getD key
    let ibytes := c.encEntry (.MM key fpos)
    if mlen + ibytes.length > cfg.m_blocksize - 1 then
      .ok (some (fk, some fpos, n + 1, mentries, some (key, fpos), below', st'))
    else
      rec below' st' (some fk) (some fpos) (n + 1) (mentries ++ [.MM key fpos])
        (mlen + ibytes.length)

/-- The fuel-recursion wrapper of the `BuildMM` pull loop. -/
def mmLoop (c : Codec) (cfg : Config)
    (nextB : BIter → BState → Except RErr (Option ((Nat × Nat) × BIter × BState))) :
    Nat → Option (Nat × Nat) → BIter → BState → Option Nat → Option Nat → Nat →
    List Entry → Nat →
    Except RErr
      (Option (Nat × Option Nat × Nat × List Entry × Option (Nat × Nat) × BIter × BState))
  | 0, _, _, _, _, _, _, _, _ => .error .FuelOut
  | fuel + 1, slot, below, st, firstKey, currFpos, n, mentries, mlen =>
    mmLoopBody c cfg (fun b s => mmLoop c cfg nextB fuel none b s) below st
      (mmPull nextB slot below st) firstKey currFpos n mentries mlen

/-- The dispatch of one `next` of the builder tower on one level, with the
level below's `next` as a parameter. -/
def biterNextBody (c : Codec) (cfg : Config)
    (nextLower : BIter → BState → Except RErr (Option ((Nat × Nat) × BIter × BState)))
    (fuel : Nat) :
    BIter → BState → Except RErr (Option ((Nat × Nat) × BIter × BState))
  | .mz slot, st =>
    (match mzNext c cfg fuel slot st with
      | .error e => .error e
      | .ok none => .ok none
      | .ok (some (p, slot', st')) => .ok (some (p, .mz slot', st')))
  | .mm slot below, st =>
    match mmLoop c cfg nextLower fuel slot below st none none 0 [] 1 with
    | .error e => .error e
    | .ok none => .ok none
    | .ok (some (fk, currFpos, n, mentries, slot', below', st')) =>
      if n > 1 then
        let fpos := st'.iflush.fpos
        .ok (some ((fk, fpos), .mm slot' below',
          ⟨st'.scan, st'.iflush.flush c ⟨fpos, .m, cfg.m_blocksize, mentries⟩,
            st'.vflush⟩))
      else
        match currFpos with
        | some fp => .ok (some ((fk, fp), .mm slot' below', st'))
        | none => .error .Panic

/-- `Iterator::next` of the builder tower: `BuildIter::next` dispatching to
`BuildMZ` (base) or `BuildMM` (src/build.rs lines 34-90, 272-287).  A
`BuildMM` level flushes its block only when it pulled more than one pair
(`n > 1`, lines 84-87); with a single pulled pair it forwards the child's
`(key, fpos)` upward unflushed. -/
def biterNext (c : Codec) (cfg : Config) :
    Nat → BIter → BState → Except RErr (Option ((Nat × Nat) × BIter × BState))
  | 0, _, _ => .error .FuelOut
  | fuel + 1, it, st => biterNextBody c cfg (biterNext c cfg fuel) (fuel + 1) it st

/-- The initial tower: `BuildMZ` wrapped by `n` fresh `BuildMM` levels
(the fold at src/robt.rs lines 213-215 uses `n = 28`). -/
def initialTower : Nat → BIter
  | 0 => .mz none
  | k + 1 => .mm none (initialTower k)

/-- `Builder::build_tree` (src/robt.rs lines 196-225) for an initial
build: fresh index flusher at position 0, a value-log flusher exactly when
`value_in_vlog || delta_ok` (src/robt.rs lines 67-75), the 28-level tower
driven once; the yielded pair's position is the root; an empty iterator is
`err_at!(Invalid, ..)`. -/
def buildTree (c : Codec) (cfg : Config) (src : List DbEntry) :
    Except RErr (Nat × BState) :=
  let st0 : BState :=
    ⟨BuildScan.new src 0, ⟨0, []⟩,
      if cfg.value_in_vlog || cfg.delta_ok then some ⟨0, []⟩ else none⟩
  match biterNext c cfg (src.length + 31) (initialTower 28) st0 with
  | .error e => .error e
  | .ok none => .error .Invalid
  | .ok (some ((_, root), _, st')) => .ok (root, st')

/-! ## The reader (src/reader.rs)

Blocks are read back with `read_file!` and decoded with
`util::from_cbor_bytes::<Vec<Entry>>`.  The read model: a read of `rsize`
bytes at `fpos` errors `Fatal` past the end of the file (short read);
otherwise it decodes to a block's entries exactly when a block starts at
`fpos` and the read covers its content up to the break marker (the CBOR
array decoder stops at the break and tolerates trailing padding), and
fails `FailCbor` otherwise (a truncated block or an unaligned position). -/

/-- Decoded block read at `fpos` with `rsize` bytes from the index file of
total length `flen` whose flushed blocks are `fl.blocks`. -/
def readBlockAt (c : Codec) (fl : Flusher) (flen fpos rsize : Nat) :
    Except RErr (List Entry) :=
  if fpos + rsize ≤ flen then
    match fl.blocks.find? (fun b => b.fpos == fpos) with
    | some b => if b.used c ≤ rsize then .ok b.entries else .error .FailCbor
    | none => .error .FailCbor
  else .error .Fatal

/-- `reader::Reader` (src/reader.rs lines 13-20): block sizes, the decoded
root block, the open index file (its decoded view and total length) and
the optional value-log file. -/
structure Reader where
  m_blocksize : Nat
  z_blocksize : Nat
  root : List Entry
  iflush : Flusher
  flen : Nat
  vlog : Option (List Nat)

/-- `Reader::from_root` (src/reader.rs lines 41-66): read the root block
with `stats.m_blocksize` bytes and keep it decoded in memory. -/
def Reader.from_root (c : Codec) (root : Nat) (s : Stats) (fl : Flusher)
    (flen : Nat) (vlog : Option (List Nat)) : Except RErr Reader :=
  match readBlockAt c fl flen root s.m_blocksize with
  | .error e => .error e
  | .ok es => .ok ⟨s.m_blocksize, s.z_blocksize, es, fl, flen, vlog⟩

/-- The documented result of the external `slice::binary_search_by` with
comparator `e.borrow_key().cmp(ukey)` on the sorted blocks the reader
loads: `(true, i)` when the key is found at index `i`, `(false, i)` with
the insertion index otherwise. -/
def binarySearchKey (es : List Entry) (q : Nat) : Bool × Nat :=
  let i := es.countP fun e => decide (e.key < q)
  match es.get? i with
  | some e => (decide (e.key = q), i)
  | none => (false, i)

/-- The loop of `Reader::get` (src/reader.rs lines 79-111): binary-search
the current block for the greatest entry at most the target (`Err(0)` is
`KeyNotFound`), descend through `MM` (read with `m_blocksize`) and `MZ`
(read with `z_blocksize`) children, and resolve an exactly-matching `ZZ`
entry — dropping deltas unless `versions`, dereferencing through the
value-log when one is open and draining deltas otherwise. -/
def Reader.getLoop (c : Codec) (rd : Reader) (q : Nat) (versions : Bool) :
    Nat → List Entry → Except RErr Entry
  | 0, _ => .error .FuelOut
  | fuel + 1, es =>
    let bs := binarySearchKey es q
    match (if bs.1 then some bs.2
      else if bs.2 = 0 then none
      else some (bs.2 - 1) : Option Nat) with
    | none => .error .KeyNotFound
    | some off =>
      match es.get? off with
      | none => .error .Panic
      | some (.MM _ fpos) =>
        match readBlockAt c rd.iflush rd.flen fpos rd.m_blocksize with
        | .error e => .error e
        | .ok es' => Reader.getLoop c rd q versions fuel es'
      | some (.MZ _ fpos) =>
        match readBlockAt c rd.iflush rd.flen fpos rd.z_blocksize with
        | .error e => .error e
        | .ok es' => Reader.getLoop c rd q versions fuel es'
      | some (.ZZ k v ds) =>
        if k = q then
          let entry := Entry.ZZ k v (if versions then ds else [])
          match rd.vlog with
          | some vf => entry.into_native c vf versions
          | none => .ok entry.drain_deltas
        else .error .KeyNotFound

/-- `Reader::get` (src/reader.rs lines 68-112), starting from the
in-memory root block; the unbounded Rust loop is given fuel one more than
the number of blocks in the file (a descent visits each block at most
once). -/
def Reader.get (c : Codec) (rd : Reader) (q : Nat) (versions : Bool) :
    Except RErr Entry :=
  Reader.getLoop c rd q versions (rd.iflush.blocks.length + 1) rd.root

/-- `Index::get` (src/robt.rs lines 569-578): a non-versioned
`Reader::get`, converted into a logical record (the `unreachable!()` arms
of `From<Entry> for db::Entry` are `Panic`). -/
def Index.get (c : Codec) (rd : Reader) (q : Nat) : Except RErr DbEntry :=
  match Reader.get c rd q false with
  | .error e => .error e
  | .ok e =>
    match e.toDb with
    | some de => .ok de
    | none => .error .Panic

/-! ## Claim C4: oversize entries (src/build.rs lines 217-252) -/

/-- Claim C4 — when the source yields an entry whose encoded form exceeds
`z_blocksize - 2` bytes (so it can never fit after the one-byte header),
`BuildZZ::next` does NOT fail with an `Invalid` error: it pushes the entry
back into the scan, flushes a leaf block containing zero entries, and
yields `(key, fpos)` — leaving the scan state exactly as before, so every
subsequent call repeats this forever and the oversized entry is never
consumed.  The claim's stated behaviour (a build-time `Invalid` error,
with no blocks written) does not hold: this theorem exhibits the yielded
empty block and the unchanged scan. -/
theorem zz_oversize_no_progress (c : Codec) (z m v : Nat) (vlogflag : Bool)
    (e : DbEntry) (sq nc nd : Nat) (ifl : Flusher) (vf : VFlusher) (fuel : Nat)
    (hover : 1 + (c.encEntry
        (((Entry.ofDb e).into_reference c vf.fpos vlogflag).1)).length > z - 1) :
    zzNext c ⟨z, m, v, true, vlogflag⟩ (fuel + 1)
        ⟨⟨some e, [], sq, nc, nd⟩, ifl, some vf⟩ =
      .ok (some ((e.key, ifl.fpos),
        ⟨⟨some e, [], sq, nc, nd⟩,
          ifl.flush c ⟨ifl.fpos, .z, z, []⟩,
          some (vf.flush [])⟩)) := by
  have key : zzLoop c ⟨z, m, v, true, vlogflag⟩ (fuel + 1)
      ⟨some e, [], sq, nc, nd⟩ none [] 1 [] vf.fpos =
      if 1 + (c.encEntry
          (((Entry.ofDb e).into_reference c vf.fpos vlogflag).1)).length > z - 1 then
        Except.ok (some (e.key, ([] : List Entry), 1, ([] : List Nat),
          BuildScan.push ⟨none, [], sq, nc, nd⟩ e))
      else
        zzLoop c ⟨z, m, v, true, vlogflag⟩ fuel ⟨none, [], sq, nc, nd⟩ (some e.key)
          ([] ++ [((Entry.ofDb e).into_reference c vf.fpos vlogflag).1])
          (1 + (c.encEntry
            (((Entry.ofDb e).into_reference c vf.fpos vlogflag).1)).length)
          ([] ++ ((Entry.ofDb e).into_reference c vf.fpos vlogflag).2)
          (vf.fpos + ((Entry.ofDb e).into_reference c vf.fpos vlogflag).2.length) := rfl
  show ((match zzLoop c ⟨z, m, v, true, vlogflag⟩ (fuel + 1)
      ⟨some e, [], sq, nc, nd⟩ none [] 1 [] vf.fpos with
    | .error e => .error e
    | .ok none => .ok none
    | .ok (some (fk, zentries, _, vbytes, scan')) =>
      Except.ok (some ((fk, ifl.fpos),
        ⟨scan', ifl.flush c ⟨ifl.fpos, .z, z, zentries⟩, some (vf.flush vbytes)⟩))) :
    Except RErr (Option ((Nat × Nat) × BState))) = _
  rw [key, if_pos hover]
  rfl

/-- Witness for `zz_oversize_no_progress`: a concrete oversized entry
(z-block size 4, every entry encoding to 10 bytes). -/
theorem zz_oversize_no_progress_witness :
    zzNext ⟨fun _ => List.replicate 10 7, fun v => [v], fun d => [d],
        fun bs => bs.head?, fun bs => bs.head?⟩
      ⟨4, 4096, 4096, true, false⟩ 1
      ⟨⟨some ⟨5, ⟨1, 1, false⟩, []⟩, [], 0, 1, 0⟩, ⟨0, []⟩, some ⟨0, []⟩⟩ =
      .ok (some ((5, 0),
        ⟨⟨some ⟨5, ⟨1, 1, false⟩, []⟩, [], 0, 1, 0⟩,
          Flusher.flush ⟨fun _ => List.replicate 10 7, fun v => [v], fun d => [d],
            fun bs => bs.head?, fun bs => bs.head?⟩ ⟨0, []⟩ ⟨0, .z, 4, []⟩,
          some (VFlusher.flush ⟨0, []⟩ [])⟩)) :=
  zz_oversize_no_progress _ 4 4096 4096 false _ 0 1 0 ⟨0, []⟩ ⟨0, []⟩ 0 (by decide)

/-! ## Claim C9: build-scan statistics -/

/-- Claim C9 — `BuildScan` updates its statistics only when an entry is
pulled from the inner iterator, never when a pushed-back entry is
re-delivered: `push` followed by `next` re-delivers exactly the pushed
entry with `seqno`, `n_count` and `n_deleted` untouched; and over any
interleaving of `next` and `push` driver steps (in particular the
one-push-per-block-boundary discipline of `BuildZZ`), `n_count` plus the
number of entries still in the source equals the source length, so a run
that exhausts the source counts every source entry exactly once. -/
theorem buildscan_counts_exact :
    (∀ (st : BuildScan) (e : DbEntry),
      (st.push e).next = some (e, { st with entry := none })) ∧
    (∀ (src : List DbEntry) (ops : List (Option DbEntry)),
      ((BuildScan.new src 0).run ops).n_count +
        ((BuildScan.new src 0).run ops).src.length = src.length) := by
  constructor
  · exact BuildScan.next_pushback
  · intro src ops
    have h := BuildScan.run_count_invariant ops (BuildScan.new src 0)
    simpa [BuildScan.new] using h

/-! ## Claim C7: file-name round-trip (src/files.rs) -/

/-- Claim C7 — the round-trip asserted by the crate's own test
(src/files_test.rs, `assert_eq!(String::try_from(index_file).unwrap(),
name)`) panics instead of succeeding: `TryFrom<IndexFileName> for String`
takes the file STEM (which has already lost the `.indx` extension) and
then unwraps `strip_suffix("-robt.indx")` on it, which is `None`; the same
for the vlog recognizer.  Only the rejection of non-suffixed names with
`InvalidFile` behaves as the claim states. -/
theorem file_name_roundtrip_panics :
    (IndexFileName.toName (IndexFileName.ofName "test-index".toList) =
      .error .Panic) ∧
    (VlogFileName.toName (VlogFileName.ofName "test-index".toList) =
      .error .Panic) ∧
    (IndexFileName.toName "foo.txt".toList = .error .InvalidFile) ∧
    (VlogFileName.toName "foo.txt".toList = .error .InvalidFile) := by
  decide

/-! ## Build correctness: basic invariants

The remainder of the development proves the block-packing invariant
(claim C3) and the build/lookup round-trip (claim C1). -/

namespace BuildScan

/-- The payload still to be delivered by a scan: the look-aside slot
followed by the inner iterator. -/
def pending (st : BuildScan) : List DbEntry := st.entry.toList ++ st.src

theorem measure_eq (st : BuildScan) : st.measure = st.pending.length := by
  cases h : st.entry <;> simp [measure, pending, h]

theorem next_of_pending {st : BuildScan} {e : DbEntry} {r : List DbEntry}
    (h : st.pending = e :: r) :
    ∃ st', st.next = some (e, st') ∧ st'.pending = r ∧ st'.entry = none := by
  unfold pending at h
  cases he : st.entry with
  | some e0 =>
    rw [he] at h
    simp only [Option.toList_some, List.cons_append, List.cons.injEq] at h
    refine ⟨{ st with entry := none }, ?_, ?_, rfl⟩
    · rw [next, he, h.1]
    · simp [pending, h.2]
  | none =>
    rw [he] at h
    simp only [Option.toList_none, List.nil_append] at h
    refine ⟨{ st with
        src := r
        seqno := max st.seqno e.to_seqno
        n_count := st.n_count + 1
        n_deleted := if e.is_deleted then st.n_deleted + 1 else st.n_deleted },
      ?_, ?_, ?_⟩
    · rw [next, he, h]
    · simp [pending, he]
    · simp [he]

theorem next_none_of_pending {st : BuildScan} (h : st.pending = []) :
    st.next = none := by
  unfold pending at h
  cases he : st.entry with
  | some e0 => rw [he] at h; simp at h
  | none =>
    rw [he] at h
    simp only [Option.toList_none, List.nil_append] at h
    rw [next, he, h]

theorem push_pending {st : BuildScan} (h : st.entry = none) (e : DbEntry) :
    (st.push e).pending = e :: st.pending := by
  simp [push, pending, h]

end BuildScan

/-- Total encoded length of a list of entries. -/
def encLen (c : Codec) (zs : List Entry) : Nat :=
  ((zs.map c.encEntry).map List.length).sum

theorem encLen_nil (c : Codec) : encLen c [] = 0 := rfl

theorem encLen_append (c : Codec) (a b : List Entry) :
    encLen c (a ++ b) = encLen c a + encLen c b := by
  simp [encLen]

theorem encLen_cons (c : Codec) (e : Entry) (l : List Entry) :
    encLen c (e :: l) = (c.encEntry e).length + encLen c l := by
  simp [encLen]

theorem FBlock.used_eq (c : Codec) (b : FBlock) :
    b.used c = 1 + encLen c b.entries + 1 := rfl

theorem FBlock.bytes_length (c : Codec) (b : FBlock) :
    (b.bytes c).length = b.bsize := by
  unfold FBlock.bytes
  exact resizeVec_length _ _

theorem Flusher.flush_fpos (c : Codec) (fl : Flusher) (b : FBlock) :
    (fl.flush c b).fpos = fl.fpos + b.bsize := by
  unfold Flusher.flush
  rw [FBlock.bytes_length]

theorem Flusher.flush_blocks (c : Codec) (fl : Flusher) (b : FBlock) :
    (fl.flush c b).blocks = fl.blocks ++ [b] := rfl

/-- Lookup of the block flushed at a given file position. -/
def storeAt (fl : Flusher) (fpos : Nat) : Option FBlock :=
  fl.blocks.find? fun b => b.fpos == fpos

/-- Well-formed store: every flushed block lies within the file prefix
`fl.fpos`, its raw content fits its resize target, and its resize target
is the configured size for its kind. -/
def FlWF (c : Codec) (cfg : Config) (fl : Flusher) : Prop :=
  ∀ b ∈ fl.blocks, b.fpos + b.bsize ≤ fl.fpos ∧ b.used c ≤ b.bsize ∧
    1 ≤ b.bsize ∧ (b.kind = .z → b.bsize = cfg.z_blocksize) ∧
    (b.kind = .m → b.bsize = cfg.m_blocksize)

theorem storeAt_fpos {fl : Flusher} {fp : Nat} {b : FBlock}
    (h : storeAt fl fp = some b) : b.fpos = fp := by
  have := List.find?_some h
  simpa using this

theorem storeAt_mem {fl : Flusher} {fp : Nat} {b : FBlock}
    (h : storeAt fl fp = some b) : b ∈ fl.blocks :=
  List.mem_of_find?_eq_some h

theorem storeAt_flush_old {c : Codec} {fl : Flusher} {fp : Nat} {b0 : FBlock}
    (b : FBlock) (h : storeAt fl fp = some b0) :
    storeAt (fl.flush c b) fp = some b0 := by
  unfold storeAt at h ⊢
  rw [Flusher.flush_blocks, List.find?_append, h]
  rfl

theorem storeAt_flush_new {c : Codec} {cfg : Config} {fl : Flusher} (b : FBlock)
    (hwf : FlWF c cfg fl) (hfp : b.fpos = fl.fpos) :
    storeAt (fl.flush c b) fl.fpos = some b := by
  unfold storeAt
  rw [Flusher.flush_blocks, List.find?_append]
  have hnone : fl.blocks.find? (fun b' => b'.fpos == fl.fpos) = none := by
    rw [List.find?_eq_none]
    intro b0 hb0
    have := (hwf b0 hb0).1
    have h1 := (hwf b0 hb0).2.2.1
    simp only [beq_iff_eq]
    omega
  rw [hnone]
  simp [hfp]

theorem FlWF_flush {c : Codec} {cfg : Config} {fl : Flusher} {b : FBlock}
    (hwf : FlWF c cfg fl) (hfp : b.fpos = fl.fpos) (hused : b.used c ≤ b.bsize)
    (h1 : 1 ≤ b.bsize) (hz : b.kind = .z → b.bsize = cfg.z_blocksize)
    (hm : b.kind = .m → b.bsize = cfg.m_blocksize) :
    FlWF c cfg (fl.flush c b) := by
  intro b0 hb0
  rw [Flusher.flush_blocks] at hb0
  rw [Flusher.flush_fpos]
  rcases List.mem_append.mp hb0 with hmem | hmem
  · have := hwf b0 hmem
    exact ⟨by omega, this.2.1, this.2.2.1, this.2.2.2.1, this.2.2.2.2⟩
  · simp only [List.mem_singleton] at hmem
    subst hmem
    exact ⟨by omega, hused, h1, hz, hm⟩

/-- Store extension: later flushes only append blocks. -/
def Flusher.Ext (fl fl' : Flusher) : Prop :=
  ∃ tl, fl'.blocks = fl.blocks ++ tl

theorem Flusher.Ext.refl (fl : Flusher) : fl.Ext fl := ⟨[], by simp⟩

theorem Flusher.Ext.trans {a b c : Flusher} (h1 : a.Ext b) (h2 : b.Ext c) :
    a.Ext c := by
  obtain ⟨t1, h1⟩ := h1
  obtain ⟨t2, h2⟩ := h2
  exact ⟨t1 ++ t2, by rw [h2, h1, List.append_assoc]⟩

theorem Flusher.Ext.flush (c : Codec) (fl : Flusher) (b : FBlock) :
    fl.Ext (fl.flush c b) := ⟨[b], rfl⟩

theorem storeAt_ext {fl fl' : Flusher} {fp : Nat} {b : FBlock}
    (hext : fl.Ext fl') (h : storeAt fl fp = some b) :
    storeAt fl' fp = some b := by
  obtain ⟨tl, htl⟩ := hext
  unfold storeAt at h ⊢
  rw [htl, List.find?_append, h]
  rfl

/-- The entry stored in a leaf block for a source entry: its
delta-drained-if-needed, reference-converted form at some value-log
position (the positions vary with the run; with `value_in_vlog = false`
the value itself stays native). -/
def LeafEntryFor (cfg : Config) (c : Codec) (e : DbEntry) (z : Entry) : Prop :=
  ∃ p, z = ((Entry.ofDb (if ¬ cfg.delta_ok then e.drain_deltas else e)).into_reference
    c p cfg.value_in_vlog).1

theorem LeafEntryFor.key_eq {cfg : Config} {c : Codec} {e : DbEntry} {z : Entry}
    (h : LeafEntryFor cfg c e z) : z.key = e.key := by
  obtain ⟨p, hp⟩ := h
  subst hp
  cases hd : cfg.delta_ok <;>
    simp [Entry.into_reference, Entry.ofDb, DbEntry.drain_deltas, Entry.key, hd]

theorem LeafEntryFor.shape {cfg : Config} {c : Codec} {e : DbEntry} {z : Entry}
    (hvv : cfg.value_in_vlog = false) (h : LeafEntryFor cfg c e z) :
    ∃ ds, z = .ZZ e.key (.N e.value.value e.value.seqno e.value.deleted) ds := by
  obtain ⟨p, hp⟩ := h
  subst hp
  cases hd : cfg.delta_ok <;>
    simp [Entry.into_reference, Entry.ofDb, DbEntry.drain_deltas, hvv, hd]

/-- File position referenced by a pointer entry. -/
def Entry.fposOf : Entry → Nat
  | .MM _ f => f
  | .MZ _ f => f
  | .ZZ _ _ _ => 0

/-- A leaf pointer: an `MZ` entry covering a group of source entries
through a flushed z-block that holds their transformed forms. -/
def IsLeafFor (c : Codec) (cfg : Config) (fl : Flusher) (e : Entry)
    (grp : List DbEntry) : Prop :=
  ∃ k fp b, e = .MZ k fp ∧ storeAt fl fp = some b ∧ b.kind = .z ∧ grp ≠ [] ∧
    grp.head?.map DbEntry.key = some k ∧
    List.Forall₂ (LeafEntryFor cfg c) grp b.entries

/-- The subtree invariant, by height: the pointer entry stored in a parent
block covers exactly the group `grp` of source entries.  At height `h + 1`
an `MM` entry may point to a flushed m-block whose entries cover the
concatenation of their groups, with every child at a strictly smaller file
position (children are flushed before their parent). -/
def MTree (c : Codec) (cfg : Config) (fl : Flusher) :
    Nat → Entry → List DbEntry → Prop
  | 0, e, grp => IsLeafFor c cfg fl e grp
  | h + 1, e, grp =>
    IsLeafFor c cfg fl e grp ∨
    ∃ k fp b grps, e = .MM k fp ∧ storeAt fl fp = some b ∧ b.kind = .m ∧
      b.entries ≠ [] ∧ b.entries.head?.map Entry.key = some k ∧
      grp = grps.flatten ∧ List.Forall₂ (MTree c cfg fl h) b.entries grps ∧
      ∀ e' ∈ b.entries, e'.fposOf < fp

theorem IsLeafFor.leaf_ext {c : Codec} {cfg : Config} {fl fl' : Flusher} {e : Entry}
    {grp : List DbEntry} (h : IsLeafFor c cfg fl e grp) (hext : fl.Ext fl') :
    IsLeafFor c cfg fl' e grp := by
  obtain ⟨k, fp, b, he, hfind, hkind, hne, hkey, hents⟩ := h
  exact ⟨k, fp, b, he, storeAt_ext hext hfind, hkind, hne, hkey, hents⟩

theorem MTree.tree_ext {c : Codec} {cfg : Config} {fl fl' : Flusher} {h : Nat} :
    ∀ {e : Entry} {grp : List DbEntry}, MTree c cfg fl h e grp →
    fl.Ext fl' → MTree c cfg fl' h e grp := by
  induction h with
  | zero =>
    intro e grp ht hext
    simp only [MTree] at ht ⊢
    exact IsLeafFor.leaf_ext ht hext
  | succ h ih =>
    intro e grp ht hext
    simp only [MTree] at ht ⊢
    rcases ht with hleaf | ⟨k, fp, b, grps, he, hfind, hkind, hne, hkey, hflat, hsub, hdesc⟩
    · exact Or.inl (hleaf.leaf_ext hext)
    · exact Or.inr ⟨k, fp, b, grps, he, storeAt_ext hext hfind, hkind, hne, hkey,
        hflat, hsub.imp (fun a b hab => ih hab hext), hdesc⟩

theorem MTree.succ_of {c : Codec} {cfg : Config} {fl : Flusher} {h : Nat} :
    ∀ {e : Entry} {grp : List DbEntry}, MTree c cfg fl h e grp →
    MTree c cfg fl (h + 1) e grp := by
  induction h with
  | zero =>
    intro e grp ht
    simp only [MTree] at ht ⊢
    exact Or.inl ht
  | succ h ih =>
    intro e grp ht
    simp only [MTree] at ht ⊢
    rcases ht with hleaf | ⟨k, fp, b, grps, he, hfind, hkind, hne, hkey, hflat, hsub, hdesc⟩
    · exact Or.inl hleaf
    · exact Or.inr ⟨k, fp, b, grps, he, hfind, hkind, hne, hkey, hflat,
        hsub.imp (fun a b hab => ih hab), hdesc⟩

theorem MTree.mono {c : Codec} {cfg : Config} {fl : Flusher} {h h' : Nat}
    {e : Entry} {grp : List DbEntry} (ht : MTree c cfg fl h e grp)
    (hh : h ≤ h') : MTree c cfg fl h' e grp := by
  induction h' with
  | zero =>
    have : h = 0 := by omega
    subst this
    exact ht
  | succ h' ih =>
    by_cases hc : h = h' + 1
    · subst hc; exact ht
    · exact MTree.succ_of (ih (by omega))

theorem IsLeafFor.leaf_nonempty {c : Codec} {cfg : Config} {fl : Flusher} {e : Entry}
    {grp : List DbEntry} (ht : IsLeafFor c cfg fl e grp) : grp ≠ [] := by
  obtain ⟨k, fp, b, he, hfind, hkind, hne, hkey, hents⟩ := ht
  exact hne

theorem MTree.tree_nonempty {c : Codec} {cfg : Config} {fl : Flusher} {h : Nat} :
    ∀ {e : Entry} {grp : List DbEntry}, MTree c cfg fl h e grp → grp ≠ [] := by
  induction h with
  | zero =>
    intro e grp ht
    simp only [MTree] at ht
    exact IsLeafFor.leaf_nonempty ht
  | succ h ih =>
    intro e grp ht
    simp only [MTree] at ht
    rcases ht with hleaf | ⟨k, fp, b, grps, he, hfind, hkind, hne, hkey, hflat, hsub, hdesc⟩
    · exact hleaf.leaf_nonempty
    · subst hflat
      obtain ⟨e0, es, hes⟩ := List.exists_cons_of_ne_nil hne
      rw [hes] at hsub
      rw [List.forall₂_cons_left_iff] at hsub
      obtain ⟨g0, gs, hrel, hrest, hgs⟩ := hsub
      subst hgs
      have := ih hrel
      simp only [List.flatten_cons]
      intro hcon
      have hsplit : g0 = [] ∧ gs.flatten = [] := by
        rwa [List.append_eq_nil] at hcon
      exact this hsplit.1

theorem IsLeafFor.leaf_head_key {c : Codec} {cfg : Config} {fl : Flusher} {e : Entry}
    {grp : List DbEntry} (ht : IsLeafFor c cfg fl e grp) :
    grp.head?.map DbEntry.key = some e.key := by
  obtain ⟨k, fp, b, he, hfind, hkind, hne, hkey, hents⟩ := ht
  subst he
  simpa [Entry.key] using hkey

/-- The key of a covering entry is the key of the first covered source
entry. -/
theorem MTree.tree_head_key {c : Codec} {cfg : Config} {fl : Flusher} {h : Nat} :
    ∀ {e : Entry} {grp : List DbEntry}, MTree c cfg fl h e grp →
    grp.head?.map DbEntry.key = some e.key := by
  induction h with
  | zero =>
    intro e grp ht
    simp only [MTree] at ht
    exact IsLeafFor.leaf_head_key ht
  | succ h ih =>
    intro e grp ht
    simp only [MTree] at ht
    rcases ht with hleaf | ⟨k, fp, b, grps, he, hfind, hkind, hne, hkey, hflat, hsub, hdesc⟩
    · exact hleaf.leaf_head_key
    · subst hflat
      subst he
      obtain ⟨e0, es, hes⟩ := List.exists_cons_of_ne_nil hne
      rw [hes] at hsub hkey
      rw [List.forall₂_cons_left_iff] at hsub
      obtain ⟨g0, gs, hrel, hrest, hgs⟩ := hsub
      subst hgs
      have h0 := ih hrel
      have hg0 : g0 ≠ [] := MTree.tree_nonempty hrel
      cases g0 with
      | nil => exact absurd rfl hg0
      | cons a g0' =>
        simp only [List.head?_cons, Option.map_some] at h0 hkey
        simp only [List.flatten_cons, List.cons_append, List.head?_cons,
          Option.map_some, Entry.key]
        rw [← hkey]
        simpa using h0

/-! ### The leaf level: `BuildZZ` -/

/-- Every value-log position gives an encoded form of the entry not longer
than `z_blocksize - 2` bytes (so it fits after the one-byte header and
before the one-byte break). -/
def zfit (c : Codec) (cfg : Config) (e : DbEntry) : Prop :=
  ∀ p, (c.encEntry (((Entry.ofDb (if ¬ cfg.delta_ok then e.drain_deltas else e)).into_reference
    c p cfg.value_in_vlog).1)).length ≤ cfg.z_blocksize - 2

/-- Continuation of the `BuildZZ` pull loop once the first key is fixed:
the loop consumes a greedy prefix `grp` of the scan's pending payload,
appends its transformed entries to the block, and stops either on overflow
(pushing the offending entry back) or on exhaustion; the block length
never exceeds `z_blocksize - 1`. -/
theorem zzLoop_cont (c : Codec) (cfg : Config) (hdelta : cfg.delta_ok = true) :
    ∀ (n : Nat) (scan : BuildScan), scan.pending.length = n →
    ∀ (fuel : Nat), n + 1 ≤ fuel →
    ∀ (k : Nat) (zen : List Entry) (zlen : Nat) (vb : List Nat) (vp : Nat),
    zlen ≤ cfg.z_blocksize - 1 →
    ∃ (grp rest : List DbEntry) (zs : List Entry) (vbn : List Nat)
      (scan' : BuildScan),
      scan.pending = grp ++ rest ∧
      List.Forall₂ (LeafEntryFor cfg c) grp zs ∧
      zlen + encLen c zs ≤ cfg.z_blocksize - 1 ∧
      scan'.pending = rest ∧
      zzLoop c cfg fuel scan (some k) zen zlen vb vp =
        .ok (some (k, zen ++ zs, zlen + encLen c zs, vb ++ vbn, scan')) := by
  intro n
  induction n with
  | zero =>
    intro scan hlen fuel hfuel k zen zlen vb vp hzlen
    obtain ⟨f, rfl⟩ : ∃ f, fuel = f + 1 := ⟨fuel - 1, by omega⟩
    have hpend : scan.pending = [] := List.length_eq_zero.mp hlen
    have hnext : scan.next = none := BuildScan.next_none_of_pending hpend
    refine ⟨[], [], [], [], scan, by simp [hpend], .nil, by simp [encLen_nil, hzlen],
      hpend, ?_⟩
    have heq : zzLoop c cfg (f + 1) scan (some k) zen zlen vb vp =
        zzLoopBody c cfg (zzLoop c cfg f) scan scan.next (some k) zen zlen vb vp := rfl
    rw [heq, hnext]
    simp [zzLoopBody, encLen_nil]
  | succ n ih =>
    intro scan hlen fuel hfuel k zen zlen vb vp hzlen
    obtain ⟨f, rfl⟩ : ∃ f, fuel = f + 1 := ⟨fuel - 1, by omega⟩
    obtain ⟨e0, r0, hpend⟩ : ∃ e0 r0, scan.pending = e0 :: r0 := by
      cases hp : scan.pending with
      | nil => rw [hp] at hlen; simp at hlen
      | cons a l => exact ⟨a, l, rfl⟩
    obtain ⟨st1, hnext, hst1p, hst1e⟩ := BuildScan.next_of_pending hpend
    have heq : zzLoop c cfg (f + 1) scan (some k) zen zlen vb vp =
        zzLoopBody c cfg (zzLoop c cfg f) scan scan.next (some k) zen zlen vb vp := rfl
    rw [hnext] at heq
    have hentry : (if ¬ cfg.delta_ok then e0.drain_deltas else e0) = e0 := by
      rw [hdelta]; simp
    by_cases hov : zlen +
        (c.encEntry (((Entry.ofDb e0).into_reference c vp cfg.value_in_vlog).1)).length >
        cfg.z_blocksize - 1
    · refine ⟨[], e0 :: r0, [], [], st1.push e0, by simp [hpend], .nil,
        by simp [encLen_nil, hzlen], ?_, ?_⟩
      · rw [BuildScan.push_pending hst1e, hst1p]
      · rw [heq]
        simp only [zzLoopBody, hdelta, Bool.not_true, Bool.false_eq_true, if_false,
          eq_self_iff_true, not_true, Option.getD_some, encLen_nil,
          List.append_nil, Nat.add_zero]
        rw [if_pos (by simpa [hentry] using hov)]
    · push_neg at hov
      have hrec := ih st1 (by
          rw [hst1p]
          have := congrArg List.length hpend
          rw [hlen] at this
          simp only [List.length_cons] at this
          omega)
        f (by omega) k (zen ++ [((Entry.ofDb e0).into_reference c vp cfg.value_in_vlog).1])
        (zlen + (c.encEntry (((Entry.ofDb e0).into_reference c vp cfg.value_in_vlog).1)).length)
        (vb ++ ((Entry.ofDb e0).into_reference c vp cfg.value_in_vlog).2)
        (vp + ((Entry.ofDb e0).into_reference c vp cfg.value_in_vlog).2.length)
        hov
      obtain ⟨grp', rest, zs', vbn', scan', hpart, hrel, hzlen', hpend', heval⟩ := hrec
      refine ⟨e0 :: grp', rest,
        ((Entry.ofDb e0).into_reference c vp cfg.value_in_vlog).1 :: zs',
        ((Entry.ofDb e0).into_reference c vp cfg.value_in_vlog).2 ++ vbn', scan',
        ?_, ?_, ?_, hpend', ?_⟩
      · have hr0 : r0 = grp' ++ rest := by rw [← hst1p]; exact hpart
        rw [hpend, hr0]
        simp
      · refine List.Forall₂.cons ⟨vp, ?_⟩ hrel
        rw [hentry]
      · rw [encLen_cons]
        omega
      · rw [heq]
        simp only [zzLoopBody, hdelta, eq_self_iff_true, not_true, if_false,
          Bool.not_true, Bool.false_eq_true, Option.getD_some]
        rw [if_neg (by simpa [hentry] using Nat.not_lt.mpr hov)]
        rw [heval]
        simp only [encLen_cons, List.append_assoc, List.singleton_append,
          List.cons_append]
        have harith : zlen +
            (c.encEntry ((Entry.ofDb e0).into_reference c vp cfg.value_in_vlog).1).length +
            encLen c zs' = zlen +
            ((c.encEntry ((Entry.ofDb e0).into_reference c vp cfg.value_in_vlog).1).length +
            encLen c zs') := by omega
        rw [harith]
        simp

/-- Specification of `BuildZZ::next`: on an exhausted scan it yields
nothing; otherwise it packs a non-empty greedy prefix of the pending
payload into one z-block (flushed at the current index position, its raw
content within `z_blocksize`), yields `(first key, fpos)`, and leaves the
rest pending. -/
theorem zzNext_spec (c : Codec) (cfg : Config) (hdelta : cfg.delta_ok = true)
    (hz2 : 2 ≤ cfg.z_blocksize) (st : BState) (vf : VFlusher)
    (hvf : st.vflush = some vf) (fuel : Nat)
    (hfuel : st.scan.pending.length + 1 ≤ fuel)
    (hfit : ∀ e ∈ st.scan.pending, zfit c cfg e) :
    (st.scan.pending = [] → zzNext c cfg fuel st = .ok none) ∧
    (∀ e0 r0, st.scan.pending = e0 :: r0 →
      ∃ (grp rest : List DbEntry) (zs : List Entry) (vbn : List Nat)
        (scan' : BuildScan),
        st.scan.pending = (e0 :: grp) ++ rest ∧
        List.Forall₂ (LeafEntryFor cfg c) (e0 :: grp) zs ∧
        1 + encLen c zs + 1 ≤ cfg.z_blocksize ∧
        scan'.pending = rest ∧
        zzNext c cfg fuel st =
          .ok (some ((e0.key, st.iflush.fpos),
            ⟨scan', st.iflush.flush c ⟨st.iflush.fpos, .z, cfg.z_blocksize, zs⟩,
              some (vf.flush vbn)⟩))) := by
  obtain ⟨f, rfl⟩ : ∃ f, fuel = f + 1 := ⟨fuel - 1, by omega⟩
  constructor
  · intro hpend
    have hnext := BuildScan.next_none_of_pending hpend
    have heq : zzLoop c cfg (f + 1) st.scan none [] 1 [] vf.fpos =
        zzLoopBody c cfg (zzLoop c cfg f) st.scan st.scan.next none [] 1 []
          vf.fpos := rfl
    rw [hnext] at heq
    have heq2 : zzLoop c cfg (f + 1) st.scan none [] 1 [] vf.fpos = .ok none := by
      rw [heq]; rfl
    simp only [zzNext, hvf]
    have hvp : (Option.map (fun x : VFlusher => x.fpos) (some vf)).getD 0 = vf.fpos := rfl
    rw [hvp, heq2]
  · intro e0 r0 hpend
    obtain ⟨st1, hnext, hst1p, hst1e⟩ := BuildScan.next_of_pending hpend
    have hfit0 : zfit c cfg e0 := hfit e0 (by rw [hpend]; simp)
    have hlen0 := hfit0 vf.fpos
    rw [hdelta] at hlen0
    simp only [eq_self_iff_true, not_true, if_false, Bool.not_true,
      Bool.false_eq_true] at hlen0
    have heq : zzLoop c cfg (f + 1) st.scan none [] 1 [] vf.fpos =
        zzLoopBody c cfg (zzLoop c cfg f) st.scan st.scan.next none [] 1 []
          vf.fpos := rfl
    rw [hnext] at heq
    have hnov : ¬ (1 +
        (c.encEntry (((Entry.ofDb e0).into_reference c vf.fpos cfg.value_in_vlog).1)).length >
        cfg.z_blocksize - 1) := by omega
    have hentry : (if ¬ cfg.delta_ok then e0.drain_deltas else e0) = e0 := by
      rw [hdelta]; simp
    have hcont := zzLoop_cont c cfg hdelta r0.length st1 (by rw [hst1p]) f
      (by
        have := congrArg List.length hpend
        simp only [List.length_cons] at this
        omega)
      e0.key [((Entry.ofDb e0).into_reference c vf.fpos cfg.value_in_vlog).1]
      (1 + (c.encEntry (((Entry.ofDb e0).into_reference c vf.fpos cfg.value_in_vlog).1)).length)
      (((Entry.ofDb e0).into_reference c vf.fpos cfg.value_in_vlog).2)
      (vf.fpos + ((Entry.ofDb e0).into_reference c vf.fpos cfg.value_in_vlog).2.length)
      (by omega)
    obtain ⟨grp', rest, zs', vbn', scan', hpart, hrel, hzlen', hpend', heval⟩ := hcont
    have heq2 : zzLoop c cfg (f + 1) st.scan none [] 1 [] vf.fpos =
        .ok (some (e0.key,
          ((Entry.ofDb e0).into_reference c vf.fpos cfg.value_in_vlog).1 :: zs',
          1 + (c.encEntry (((Entry.ofDb e0).into_reference c vf.fpos cfg.value_in_vlog).1)).length +
            encLen c zs',
          ((Entry.ofDb e0).into_reference c vf.fpos cfg.value_in_vlog).2 ++ vbn',
          scan')) := by
      rw [heq]
      simp only [zzLoopBody, hdelta, eq_self_iff_true, not_true, if_false,
        Bool.not_true, Bool.false_eq_true, Option.getD_none, Option.getD_some,
        List.nil_append]
      rw [if_neg hnov]
      rw [heval]
      simp
    refine ⟨grp', rest,
      ((Entry.ofDb e0).into_reference c vf.fpos cfg.value_in_vlog).1 :: zs',
      ((Entry.ofDb e0).into_reference c vf.fpos cfg.value_in_vlog).2 ++ vbn',
      scan', ?_, ?_, ?_, hpend', ?_⟩
    · rw [hpend]
      have hr0 : r0 = grp' ++ rest := by rw [← hst1p]; exact hpart
      rw [hr0]
      simp
    · refine List.Forall₂.cons ⟨vf.fpos, ?_⟩ hrel
      rw [hentry]
    · rw [encLen_cons]
      omega
    · simp only [zzNext, hvf]
      have hvp : (Option.map (fun x : VFlusher => x.fpos) (some vf)).getD 0 = vf.fpos := rfl
      rw [hvp, heq2]


/-- The `BuildZZ` pull loop terminates within `pending + 1` iterations, so
its result does not depend on the fuel once the fuel is sufficient. -/
theorem zzLoop_fuel (c : Codec) (cfg : Config) :
    ∀ (n : Nat) (scan : BuildScan), scan.pending.length = n →
    ∀ (f f' : Nat), n + 1 ≤ f → n + 1 ≤ f' →
    ∀ (fk : Option Nat) (zen : List Entry) (zlen : Nat) (vb : List Nat) (vp : Nat),
    zzLoop c cfg f scan fk zen zlen vb vp = zzLoop c cfg f' scan fk zen zlen vb vp := by
  intro n
  induction n with
  | zero =>
    intro scan hlen f f' hf hf' fk zen zlen vb vp
    obtain ⟨a, rfl⟩ : ∃ a, f = a + 1 := ⟨f - 1, by omega⟩
    obtain ⟨b, rfl⟩ : ∃ b, f' = b + 1 := ⟨f' - 1, by omega⟩
    have hpend : scan.pending = [] := List.length_eq_zero.mp hlen
    have hnext : scan.next = none := BuildScan.next_none_of_pending hpend
    have h1 : zzLoop c cfg (a + 1) scan fk zen zlen vb vp =
        zzLoopBody c cfg (zzLoop c cfg a) scan scan.next fk zen zlen vb vp := rfl
    have h2 : zzLoop c cfg (b + 1) scan fk zen zlen vb vp =
        zzLoopBody c cfg (zzLoop c cfg b) scan scan.next fk zen zlen vb vp := rfl
    rw [h1, h2, hnext]
    simp only [zzLoopBody]
  | succ n ih =>
    intro scan hlen f f' hf hf' fk zen zlen vb vp
    obtain ⟨a, rfl⟩ : ∃ a, f = a + 1 := ⟨f - 1, by omega⟩
    obtain ⟨b, rfl⟩ : ∃ b, f' = b + 1 := ⟨f' - 1, by omega⟩
    obtain ⟨e0, r0, hpend⟩ : ∃ e0 r0, scan.pending = e0 :: r0 := by
      cases hp : scan.pending with
      | nil => rw [hp] at hlen; simp at hlen
      | cons x l => exact ⟨x, l, rfl⟩
    obtain ⟨st1, hnext, hst1p, hst1e⟩ := BuildScan.next_of_pending hpend
    have h1 : zzLoop c cfg (a + 1) scan fk zen zlen vb vp =
        zzLoopBody c cfg (zzLoop c cfg a) scan scan.next fk zen zlen vb vp := rfl
    have h2 : zzLoop c cfg (b + 1) scan fk zen zlen vb vp =
        zzLoopBody c cfg (zzLoop c cfg b) scan scan.next fk zen zlen vb vp := rfl
    rw [h1, h2, hnext]
    simp only [zzLoopBody]
    by_cases hov : zlen + (c.encEntry (((Entry.ofDb
        (if ¬ cfg.delta_ok then e0.drain_deltas else e0)).into_reference c vp
        cfg.value_in_vlog).1)).length > cfg.z_blocksize - 1
    · rw [if_pos hov, if_pos hov]
    · rw [if_neg hov, if_neg hov]
      exact ih st1 (by
          rw [hst1p]
          have := congrArg List.length hpend
          rw [hlen] at this
          simp only [List.length_cons] at this
          omega)
        a b (by omega) (by omega) _ _ _ _ _

/-- `BuildZZ::next` is fuel-irrelevant once the fuel covers the pending
payload. -/
theorem zzNext_fuel (c : Codec) (cfg : Config) (st : BState) (f f' : Nat)
    (hf : st.scan.pending.length + 1 ≤ f)
    (hf' : st.scan.pending.length + 1 ≤ f') :
    zzNext c cfg f st = zzNext c cfg f' st := by
  simp only [zzNext]
  rw [zzLoop_fuel c cfg st.scan.pending.length st.scan rfl f f' hf hf']


/-- Number of pairs held by a push-back slot. -/
def slotCount : Option (Nat × Nat) → Nat
  | none => 0
  | some _ => 1

/-- The pair held by a `BuildMZ` push-back slot covers a pending group. -/
def SlotZ (c : Codec) (cfg : Config) (fl : Flusher) :
    Option (Nat × Nat) → List DbEntry → Prop
  | none, g => g = []
  | some (k, fp), g => g ≠ [] ∧ IsLeafFor c cfg fl (Entry.MZ k fp) g ∧
      fp < fl.fpos

/-- The pair held by a `BuildMM` push-back slot covers a pending group. -/
def SlotM (c : Codec) (cfg : Config) (h : Nat) (fl : Flusher) :
    Option (Nat × Nat) → List DbEntry → Prop
  | none, g => g = []
  | some (k, fp), g => g ≠ [] ∧ MTree c cfg fl h (Entry.MM k fp) g ∧
      fp < fl.fpos


/-- The yield stream of `BuildZZ`, parametric in the index flusher: the
pull loop of `BuildZZ` never reads the index flusher (only the final flush
does), so `n` successive calls from any flusher states yield the same keys,
leaf blocks and value-log bytes, covering consecutive non-empty groups that
partition the pending payload; the `n + 1`-st call yields `None`.
Parametricity is what lets the intermediate levels flush their own blocks
between two leaf yields. -/
def ZStr (c : Codec) (cfg : Config) :
    Nat → BuildScan → VFlusher → List DbEntry → Prop
  | 0, scan, vf, payload => payload = [] ∧
      ∀ (fl : Flusher) (f : Nat), 1 ≤ f →
        zzNext c cfg f ⟨scan, fl, some vf⟩ = .ok none
  | n + 1, scan, vf, payload => ∃ grp rest k zs vbn scan',
      payload = grp ++ rest ∧ grp ≠ [] ∧
      grp.head?.map DbEntry.key = some k ∧
      List.Forall₂ (LeafEntryFor cfg c) grp zs ∧
      1 + encLen c zs + 1 ≤ cfg.z_blocksize ∧
      (∀ (fl : Flusher) (f : Nat), payload.length + 1 ≤ f →
        zzNext c cfg f ⟨scan, fl, some vf⟩ =
          .ok (some ((k, fl.fpos),
            ⟨scan', fl.flush c ⟨fl.fpos, BKind.z, cfg.z_blocksize, zs⟩,
              some (vf.flush vbn)⟩))) ∧
      ZStr c cfg n scan' (vf.flush vbn) rest

/-- Unfolding of `BuildZZ::next` on a literal state. -/
theorem zzNext_eq (c : Codec) (cfg : Config) (f : Nat) (scan : BuildScan)
    (fl : Flusher) (vf : VFlusher) :
    zzNext c cfg f ⟨scan, fl, some vf⟩ =
      match zzLoop c cfg f scan none [] 1 [] vf.fpos with
      | .error e => .error e
      | .ok none => .ok none
      | .ok (some (fk, zentries, _, vbytes, scan')) =>
        .ok (some ((fk, fl.fpos),
          ⟨scan', fl.flush c ⟨fl.fpos, BKind.z, cfg.z_blocksize, zentries⟩,
            some (vf.flush vbytes)⟩)) := rfl

/-- Flusher-parametric specification of one `BuildZZ::next` call: on an
exhausted scan it yields nothing; otherwise it packs a non-empty greedy
prefix of the pending payload into one z-block flushed at the current
index position and yields `(first key, fpos)`. -/
theorem zzNextG (c : Codec) (cfg : Config) (hdelta : cfg.delta_ok = true)
    (hz2 : 2 ≤ cfg.z_blocksize) (scan : BuildScan) (vf : VFlusher)
    (hfit : ∀ e ∈ scan.pending, zfit c cfg e) :
    (scan.pending = [] → ∀ (fl : Flusher) (f : Nat), 1 ≤ f →
      zzNext c cfg f ⟨scan, fl, some vf⟩ = .ok none) ∧
    (∀ e0 r0, scan.pending = e0 :: r0 →
      ∃ (grp rest : List DbEntry) (zs : List Entry) (vbn : List Nat)
        (scan' : BuildScan),
        scan.pending = (e0 :: grp) ++ rest ∧
        List.Forall₂ (LeafEntryFor cfg c) (e0 :: grp) zs ∧
        1 + encLen c zs + 1 ≤ cfg.z_blocksize ∧
        scan'.pending = rest ∧
        ∀ (fl : Flusher) (f : Nat), scan.pending.length + 1 ≤ f →
          zzNext c cfg f ⟨scan, fl, some vf⟩ =
            .ok (some ((e0.key, fl.fpos),
              ⟨scan', fl.flush c ⟨fl.fpos, BKind.z, cfg.z_blocksize, zs⟩,
                some (vf.flush vbn)⟩))) := by
  constructor
  · intro hpend fl f hf
    obtain ⟨f1, rfl⟩ : ∃ f1, f = f1 + 1 := ⟨f - 1, by omega⟩
    have hnext : scan.next = none := BuildScan.next_none_of_pending hpend
    have heq : zzLoop c cfg (f1 + 1) scan none [] 1 [] vf.fpos =
        zzLoopBody c cfg (zzLoop c cfg f1) scan scan.next none [] 1 []
          vf.fpos := rfl
    rw [hnext] at heq
    have heq2 : zzLoop c cfg (f1 + 1) scan none [] 1 [] vf.fpos =
        .ok none := by
      rw [heq]; rfl
    rw [zzNext_eq, heq2]
  · intro e0 r0 hpend
    obtain ⟨st1, hnext, hst1p, hst1e⟩ := BuildScan.next_of_pending hpend
    have hplen : scan.pending.length = r0.length + 1 := by
      rw [hpend]; simp
    have hfit0 : zfit c cfg e0 := hfit e0 (by rw [hpend]; simp)
    have hlen0 := hfit0 vf.fpos
    rw [hdelta] at hlen0
    simp only [eq_self_iff_true, not_true, if_false, Bool.not_true,
      Bool.false_eq_true] at hlen0
    have heq : zzLoop c cfg (scan.pending.length + 1) scan none [] 1 []
        vf.fpos =
        zzLoopBody c cfg (zzLoop c cfg scan.pending.length) scan scan.next
          none [] 1 [] vf.fpos := by
      rw [hplen]
      exact rfl
    rw [hnext] at heq
    have hnov : ¬ (1 + (c.encEntry (((Entry.ofDb e0).into_reference c vf.fpos
        cfg.value_in_vlog).1)).length > cfg.z_blocksize - 1) := by omega
    have hentry : (if ¬ cfg.delta_ok then e0.drain_deltas else e0) = e0 := by
      rw [hdelta]; simp
    have hcont := zzLoop_cont c cfg hdelta r0.length st1 (by rw [hst1p])
      scan.pending.length (by omega)
      e0.key [((Entry.ofDb e0).into_reference c vf.fpos cfg.value_in_vlog).1]
      (1 + (c.encEntry (((Entry.ofDb e0).into_reference c vf.fpos
        cfg.value_in_vlog).1)).length)
      (((Entry.ofDb e0).into_reference c vf.fpos cfg.value_in_vlog).2)
      (vf.fpos + ((Entry.ofDb e0).into_reference c vf.fpos
        cfg.value_in_vlog).2.length)
      (by omega)
    obtain ⟨grp', rest, zs', vbn', scan', hpart, hrel, hzlen', hpend', heval⟩ :=
      hcont
    have heq2 : zzLoop c cfg (scan.pending.length + 1) scan none [] 1 []
        vf.fpos =
        .ok (some (e0.key,
          ((Entry.ofDb e0).into_reference c vf.fpos cfg.value_in_vlog).1 :: zs',
          1 + (c.encEntry (((Entry.ofDb e0).into_reference c vf.fpos
            cfg.value_in_vlog).1)).length + encLen c zs',
          ((Entry.ofDb e0).into_reference c vf.fpos cfg.value_in_vlog).2 ++ vbn',
          scan')) := by
      rw [heq]
      simp only [zzLoopBody, hdelta, eq_self_iff_true, not_true, if_false,
        Bool.not_true, Bool.false_eq_true, Option.getD_none, Option.getD_some,
        List.nil_append]
      rw [if_neg hnov]
      rw [heval]
      simp
    refine ⟨grp', rest,
      ((Entry.ofDb e0).into_reference c vf.fpos cfg.value_in_vlog).1 :: zs',
      ((Entry.ofDb e0).into_reference c vf.fpos cfg.value_in_vlog).2 ++ vbn',
      scan', ?_, ?_, ?_, hpend', ?_⟩
    · rw [hpend]
      have hr0 : r0 = grp' ++ rest := by rw [← hst1p]; exact hpart
      rw [hr0]
      simp
    · refine List.Forall₂.cons ⟨vf.fpos, ?_⟩ hrel
      rw [hentry]
    · rw [encLen_cons]
      omega
    · intro fl f hf
      rw [zzNext_eq,
        zzLoop_fuel c cfg scan.pending.length scan rfl f
          (scan.pending.length + 1) hf (by omega),
        heq2]

/-- Every scan state with fitting pending entries realizes the `BuildZZ`
yield stream, in at most `pending.length` yields, at least one when the
payload is non-empty. -/
theorem zzStream (c : Codec) (cfg : Config) (hdelta : cfg.delta_ok = true)
    (hz2 : 2 ≤ cfg.z_blocksize) :
    ∀ (N : Nat) (scan : BuildScan) (vf : VFlusher),
    scan.pending.length ≤ N →
    (∀ e ∈ scan.pending, zfit c cfg e) →
    ∃ m, m ≤ scan.pending.length ∧ (scan.pending ≠ [] → 1 ≤ m) ∧
      ZStr c cfg m scan vf scan.pending := by
  intro N
  induction N with
  | zero =>
    intro scan vf hlen hfit
    have hpend : scan.pending = [] := List.length_eq_zero.mp (by omega)
    refine ⟨0, by omega, fun h => absurd hpend h, ?_⟩
    simp only [ZStr]
    exact ⟨hpend, (zzNextG c cfg hdelta hz2 scan vf hfit).1 hpend⟩
  | succ N ih =>
    intro scan vf hlen hfit
    by_cases hnil : scan.pending = []
    · refine ⟨0, by omega, fun h => absurd hnil h, ?_⟩
      simp only [ZStr]
      exact ⟨hnil, (zzNextG c cfg hdelta hz2 scan vf hfit).1 hnil⟩
    · obtain ⟨e0, r0, hp⟩ := List.exists_cons_of_ne_nil hnil
      obtain ⟨grp, rest, zs, vbn, scan', hpart, hrel, hsize, hpend', heqz⟩ :=
        (zzNextG c cfg hdelta hz2 scan vf hfit).2 e0 r0 hp
      have hplen : scan.pending.length = grp.length + rest.length + 1 := by
        have := congrArg List.length hpart
        simpa using this
      have hfit2 : ∀ e ∈ scan'.pending, zfit c cfg e := by
        intro e he
        apply hfit
        rw [hpart]
        rw [hpend'] at he
        exact List.mem_append.mpr (Or.inr he)
      have hrest : scan'.pending.length ≤ N := by
        rw [hpend']; omega
      obtain ⟨m', hm'le, hm'pos, hZ⟩ := ih scan' (vf.flush vbn) hrest hfit2
      rw [hpend'] at hm'le hZ
      refine ⟨m' + 1, by omega, fun _ => by omega, ?_⟩
      simp only [ZStr]
      exact ⟨e0 :: grp, rest, e0.key, zs, vbn, scan', hpart, by simp,
        by simp, hrel, hsize, heqz, hZ⟩

/-- The yield stream of a builder-tower level, parametric in the index
flusher: from any well-formed flusher extending the base `fl0` (under
which the push-back slots inside `it` were recorded), at most `n` calls
yield subtree pointers of height `h` over consecutive non-empty groups
partitioning the payload, each call appending flushed blocks only; after
the yields the next call returns `None`.  The first disjunct of the
successor case is count slack. -/
def MStr (c : Codec) (cfg : Config) (h : Nat) :
    Nat → Flusher → BIter → BuildScan → VFlusher → List DbEntry → Prop
  | 0, _, it, scan, vf, payload => payload = [] ∧
      ∀ (fl : Flusher) (f : Nat), 2 + h ≤ f →
        biterNext c cfg f it ⟨scan, fl, some vf⟩ = .ok none
  | n + 1, fl0, it, scan, vf, payload =>
      MStr c cfg h n fl0 it scan vf payload ∨
      ∀ (fl : Flusher), FlWF c cfg fl → fl0.Ext fl → fl0.fpos ≤ fl.fpos →
        ∃ grp rest k fp it' scan' vf' fl',
          payload = grp ++ rest ∧ grp ≠ [] ∧
          (∀ f, payload.length + 2 + h ≤ f →
            biterNext c cfg f it ⟨scan, fl, some vf⟩ =
              .ok (some ((k, fp), it', ⟨scan', fl', some vf'⟩))) ∧
          fl.Ext fl' ∧ fl.fpos ≤ fl'.fpos ∧ FlWF c cfg fl' ∧
          MTree c cfg fl' h (Entry.MM k fp) grp ∧ fp < fl'.fpos ∧
          MStr c cfg h n fl' it' scan' vf' rest

/-- Count slack: a stream of at most `n` yields has at most `n'` yields
for any `n' ≥ n`. -/
theorem MStr.mono_count (c : Codec) (cfg : Config) (h : Nat) :
    ∀ (n' n : Nat), n ≤ n' →
    ∀ (fl0 : Flusher) (it : BIter) (scan : BuildScan) (vf : VFlusher)
      (p : List DbEntry),
    MStr c cfg h n fl0 it scan vf p → MStr c cfg h n' fl0 it scan vf p := by
  intro n'
  induction n' with
  | zero =>
    intro n hle fl0 it scan vf p hM
    have : n = 0 := by omega
    subst this
    exact hM
  | succ n' ih =>
    intro n hle fl0 it scan vf p hM
    by_cases hc : n = n' + 1
    · subst hc; exact hM
    · simp only [MStr]
      exact Or.inl (ih n (by omega) fl0 it scan vf p hM)

/-- Base weakening: a stream valid over extensions of `fl0` is valid over
extensions of any later flusher. -/
theorem MStr.base_ext (c : Codec) (cfg : Config) (h : Nat) :
    ∀ (n : Nat) (fl0 fl1 : Flusher) (it : BIter) (scan : BuildScan)
      (vf : VFlusher) (p : List DbEntry),
    fl0.Ext fl1 → fl0.fpos ≤ fl1.fpos →
    MStr c cfg h n fl0 it scan vf p → MStr c cfg h n fl1 it scan vf p := by
  intro n
  induction n with
  | zero =>
    intro fl0 fl1 it scan vf p hext hfle hM
    exact hM
  | succ n ih =>
    intro fl0 fl1 it scan vf p hext hfle hM
    simp only [MStr] at hM ⊢
    rcases hM with hM | hstep
    · exact Or.inl (ih fl0 fl1 it scan vf p hext hfle hM)
    · refine Or.inr ?_
      intro fl hwf hext1 hfle1
      exact hstep fl hwf (hext.trans hext1) (le_trans hfle hfle1)

/-- A leaf pointer is a subtree of every height. -/
theorem MTree.leaf {c : Codec} {cfg : Config} {fl : Flusher} {e : Entry}
    {g : List DbEntry} (hleaf : IsLeafFor c cfg fl e g) :
    ∀ h : Nat, MTree c cfg fl h e g := by
  intro h
  induction h with
  | zero => simpa only [MTree] using hleaf
  | succ h ih =>
    simp only [MTree]
    exact Or.inl hleaf

/-- An `MM` pointer to a stored m-block over covered groups is a subtree
one level higher. -/
theorem MTree.node {c : Codec} {cfg : Config} {fl : Flusher} {h : Nat}
    {k fp : Nat} {b : FBlock} {grps : List (List DbEntry)}
    (hstore : storeAt fl fp = some b) (hkind : b.kind = .m)
    (hne : b.entries ≠ []) (hhead : b.entries.head?.map Entry.key = some k)
    (hrel : List.Forall₂ (MTree c cfg fl h) b.entries grps)
    (hmem : ∀ e' ∈ b.entries, e'.fposOf < fp) :
    MTree c cfg fl (h + 1) (Entry.MM k fp) grps.flatten := by
  simp only [MTree]
  exact Or.inr ⟨k, fp, b, grps, rfl, hstore, hkind, hne, hhead, rfl, hrel,
    hmem⟩

/-- Continuation of the `BuildMZ` pull loop once the first key is fixed:
the loop drains `BuildZZ` yields into `MZ` entries until the m-block would
overflow (pushing the offending pair into the slot) or the stream is
exhausted; the outcome does not depend on the fuel once it covers the
payload. -/
theorem mzLoop_cont (c : Codec) (cfg : Config) (hz2 : 2 ≤ cfg.z_blocksize) :
    ∀ (n : Nat) (scan : BuildScan) (vf : VFlusher) (payload : List DbEntry),
    ZStr c cfg n scan vf payload →
    ∀ (fl : Flusher), FlWF c cfg fl →
    ∀ (fk : Nat) (ment : List Entry) (mlen : Nat),
    mlen ≤ cfg.m_blocksize - 1 →
    ∃ (ents : List Entry) (grps : List (List DbEntry))
      (slot' : Option (Nat × Nat)) (gS restF : List DbEntry) (n' : Nat)
      (scan' : BuildScan) (vf' : VFlusher) (fl' : Flusher),
      (∀ (fuel : Nat), payload.length + 3 ≤ fuel →
        mzLoop c cfg fuel none ⟨scan, fl, some vf⟩ (some fk) ment mlen =
          .ok (some (fk, ment ++ ents, slot', ⟨scan', fl', some vf'⟩))) ∧
      payload = grps.flatten ++ (gS ++ restF) ∧
      List.Forall₂ (fun (e : Entry) (g : List DbEntry) => ∃ k1 fp1,
        e = Entry.MZ k1 fp1 ∧ IsLeafFor c cfg fl' (Entry.MZ k1 fp1) g ∧
        fp1 < fl'.fpos) ents grps ∧
      (∀ e' ∈ ents, e'.fposOf < fl'.fpos) ∧
      mlen + encLen c ents ≤ cfg.m_blocksize - 1 ∧
      fl.Ext fl' ∧ fl.fpos ≤ fl'.fpos ∧ FlWF c cfg fl' ∧
      n = grps.length + slotCount slot' + n' ∧
      ZStr c cfg n' scan' vf' restF ∧
      (slot' = none → gS = [] ∧ restF = [] ∧ n' = 0) ∧
      SlotZ c cfg fl' slot' gS := by
  intro n
  induction n with
  | zero =>
    intro scan vf payload hZ fl hwf fk ment mlen hmlen
    simp only [ZStr] at hZ
    obtain ⟨hpay, hnone⟩ := hZ
    refine ⟨[], [], none, [], [], 0, scan, vf, fl, ?_, by simp [hpay], .nil,
      by intro e' he'; exact absurd he' (List.not_mem_nil e'),
      by simp [encLen_nil]; omega, Flusher.Ext.refl _, le_refl _, hwf,
      by simp [slotCount], ?_, fun _ => ⟨rfl, rfl, rfl⟩, rfl⟩
    · intro fuel hfuel
      obtain ⟨a, rfl⟩ : ∃ a, fuel = a + 1 := ⟨fuel - 1, by omega⟩
      rw [show mzLoop c cfg (a + 1) none ⟨scan, fl, some vf⟩ (some fk) ment
          mlen =
          mzLoopBody c cfg (mzLoop c cfg a none) ⟨scan, fl, some vf⟩
            (mzPull c cfg a none ⟨scan, fl, some vf⟩) (some fk) ment mlen
          from rfl]
      have hpull : mzPull c cfg a none ⟨scan, fl, some vf⟩ = .ok none := by
        simp only [mzPull]
        rw [hnone fl a (by omega)]
      rw [hpull]
      simp [mzLoopBody]
    · simp only [ZStr]
      exact ⟨by simp, hnone⟩
  | succ n ih =>
    intro scan vf payload hZ fl hwf fk ment mlen hmlen
    simp only [ZStr] at hZ
    obtain ⟨grp, rest, k1, zs, vbn, scan1, hpay, hgrp, hhead, hrel1, hzsz,
      heqz, hZ1⟩ := hZ
    have hwfz : FlWF c cfg
        (fl.flush c ⟨fl.fpos, BKind.z, cfg.z_blocksize, zs⟩) :=
      FlWF_flush hwf rfl (by rw [FBlock.used_eq]; exact hzsz)
        (le_trans (by omega) hz2) (fun _ => rfl)
        (fun hk => absurd (show BKind.z = BKind.m from hk) (by decide))
    have hleaf : IsLeafFor c cfg
        (fl.flush c ⟨fl.fpos, BKind.z, cfg.z_blocksize, zs⟩)
        (Entry.MZ k1 fl.fpos) grp :=
      ⟨k1, fl.fpos, ⟨fl.fpos, BKind.z, cfg.z_blocksize, zs⟩, rfl,
        storeAt_flush_new _ hwf rfl, rfl, hgrp, hhead, hrel1⟩
    have hfpz : fl.fpos <
        (fl.flush c ⟨fl.fpos, BKind.z, cfg.z_blocksize, zs⟩).fpos := by
      rw [Flusher.flush_fpos]
      show fl.fpos < fl.fpos + cfg.z_blocksize
      omega
    have hgl : 1 ≤ grp.length := List.length_pos.mpr hgrp
    have hplen : payload.length = grp.length + rest.length := by
      rw [hpay]; simp
    by_cases hov : mlen + (c.encEntry (Entry.MZ k1 fl.fpos)).length >
        cfg.m_blocksize - 1
    · refine ⟨[], [], some (k1, fl.fpos), grp, rest, n, scan1, vf.flush vbn,
        fl.flush c ⟨fl.fpos, BKind.z, cfg.z_blocksize, zs⟩, ?_,
        by simpa using hpay, .nil,
        by intro e' he'; exact absurd he' (List.not_mem_nil e'),
        by simp [encLen_nil]; omega,
        Flusher.Ext.flush c fl _, le_of_lt hfpz, hwfz,
        by simp [slotCount]; omega, hZ1,
        by intro h; exact absurd h (by simp), ⟨hgrp, hleaf, hfpz⟩⟩
      intro fuel hfuel
      obtain ⟨a, rfl⟩ : ∃ a, fuel = a + 1 := ⟨fuel - 1, by omega⟩
      have hpull : mzPull c cfg a none ⟨scan, fl, some vf⟩ =
          .ok (some ((k1, fl.fpos),
            ⟨scan1, fl.flush c ⟨fl.fpos, BKind.z, cfg.z_blocksize, zs⟩,
              some (vf.flush vbn)⟩)) := by
        simp only [mzPull]
        rw [heqz fl a (by omega)]
      rw [show mzLoop c cfg (a + 1) none ⟨scan, fl, some vf⟩ (some fk) ment
          mlen =
          mzLoopBody c cfg (mzLoop c cfg a none) ⟨scan, fl, some vf⟩
            (mzPull c cfg a none ⟨scan, fl, some vf⟩) (some fk) ment mlen
          from rfl, hpull]
      simp only [mzLoopBody, Option.getD_some]
      rw [if_pos hov]
      simp
    · push_neg at hov
      obtain ⟨ents', grps', slot', gS, restF, n', scan', vf', fl', heqrec,
        hpay', hrelE, hmemE, hszE, hextE, hfleE, hwfE, hcnt, hZ', hnoneC,
        hslotC⟩ :=
        ih scan1 (vf.flush vbn) rest hZ1
          (fl.flush c ⟨fl.fpos, BKind.z, cfg.z_blocksize, zs⟩) hwfz fk
          (ment ++ [Entry.MZ k1 fl.fpos])
          (mlen + (c.encEntry (Entry.MZ k1 fl.fpos)).length) hov
      refine ⟨Entry.MZ k1 fl.fpos :: ents', grp :: grps', slot', gS, restF,
        n', scan', vf', fl', ?_, ?_, ?_, ?_, ?_,
        (Flusher.Ext.flush c fl _).trans hextE,
        le_trans (le_of_lt hfpz) hfleE, hwfE, ?_, hZ', hnoneC, hslotC⟩
      · intro fuel hfuel
        obtain ⟨a, rfl⟩ : ∃ a, fuel = a + 1 := ⟨fuel - 1, by omega⟩
        have hpull : mzPull c cfg a none ⟨scan, fl, some vf⟩ =
            .ok (some ((k1, fl.fpos),
              ⟨scan1, fl.flush c ⟨fl.fpos, BKind.z, cfg.z_blocksize, zs⟩,
                some (vf.flush vbn)⟩)) := by
          simp only [mzPull]
          rw [heqz fl a (by omega)]
        rw [show mzLoop c cfg (a + 1) none ⟨scan, fl, some vf⟩ (some fk) ment
            mlen =
            mzLoopBody c cfg (mzLoop c cfg a none) ⟨scan, fl, some vf⟩
              (mzPull c cfg a none ⟨scan, fl, some vf⟩) (some fk) ment mlen
            from rfl, hpull]
        simp only [mzLoopBody, Option.getD_some]
        rw [if_neg (by omega)]
        rw [heqrec a (by omega)]
        simp
      · rw [hpay, hpay']
        simp
      · exact List.Forall₂.cons
          ⟨k1, fl.fpos, rfl, hleaf.leaf_ext hextE, lt_of_lt_of_le hfpz hfleE⟩ hrelE
      · intro e' he'
        rcases List.mem_cons.mp he' with h | h
        · subst h
          simp only [Entry.fposOf]
          exact lt_of_lt_of_le hfpz hfleE
        · exact hmemE e' h
      · rw [encLen_cons]
        omega
      · simp only [List.length_cons]
        omega

theorem SlotZ.zslot_ext {c : Codec} {cfg : Config} {fl fl' : Flusher}
    {slot : Option (Nat × Nat)} {g : List DbEntry} (h : SlotZ c cfg fl slot g)
    (hext : fl.Ext fl') (hfle : fl.fpos ≤ fl'.fpos) :
    SlotZ c cfg fl' slot g := by
  cases slot with
  | none => exact h
  | some p =>
    obtain ⟨k, fp⟩ := p
    obtain ⟨hne, hleaf, hfp⟩ := h
    exact ⟨hne, hleaf.leaf_ext hext, lt_of_lt_of_le hfp hfle⟩

theorem SlotM.mslot_ext {c : Codec} {cfg : Config} {h : Nat} {fl fl' : Flusher}
    {slot : Option (Nat × Nat)} {g : List DbEntry}
    (hs : SlotM c cfg h fl slot g) (hext : fl.Ext fl')
    (hfle : fl.fpos ≤ fl'.fpos) : SlotM c cfg h fl' slot g := by
  cases slot with
  | none => exact hs
  | some p =>
    obtain ⟨k, fp⟩ := p
    obtain ⟨hne, ht, hfp⟩ := hs
    exact ⟨hne, ht.tree_ext hext, lt_of_lt_of_le hfp hfle⟩

/-- Unfolding of the tower iterator on the base (`BuildMZ`) level. -/
theorem biterNext_mz_eq (c : Codec) (cfg : Config) (f1 : Nat)
    (slot : Option (Nat × Nat)) (st : BState) :
    biterNext c cfg (f1 + 1) (.mz slot) st =
      match mzNext c cfg (f1 + 1) slot st with
      | .error e => .error e
      | .ok none => .ok none
      | .ok (some (p, slot', st')) => .ok (some (p, .mz slot', st')) := rfl

/-- Unfolding of `BuildMZ::next`. -/
theorem mzNext_eq (c : Codec) (cfg : Config) (fuel : Nat)
    (slot : Option (Nat × Nat)) (st : BState) :
    mzNext c cfg fuel slot st =
      match mzLoop c cfg fuel slot st none [] 1 with
      | .error e => .error e
      | .ok none => .ok none
      | .ok (some (fk, mentries, slot', st')) =>
        .ok (some ((fk, st'.iflush.fpos), slot',
          ⟨st'.scan, st'.iflush.flush c
            ⟨st'.iflush.fpos, BKind.m, cfg.m_blocksize, mentries⟩,
            st'.vflush⟩)) := rfl

/-- First unfolding of the `BuildMZ` pull loop. -/
theorem mzLoop_first (c : Codec) (cfg : Config) (a : Nat)
    (slot : Option (Nat × Nat)) (st : BState) :
    mzLoop c cfg (a + 1) slot st none [] 1 =
      mzLoopBody c cfg (mzLoop c cfg a none) st (mzPull c cfg a slot st)
        none [] 1 := rfl

/-- After `BuildMZ` accepts a first pair `(k0, fp0)` covering `g0`, the
loop continuation packs a further greedy prefix and `BuildMZ::next` will
flush an m-block whose `MM` pointer covers `g0` and the drained groups. -/
theorem mzAccept (c : Codec) (cfg : Config) (hz2 : 2 ≤ cfg.z_blocksize)
    (hm2 : 2 ≤ cfg.m_blocksize)
    (hmzfit : ∀ k fp, (c.encEntry (Entry.MZ k fp)).length ≤
      (cfg.m_blocksize - 2) / 2) :
    ∀ (nC : Nat) (scanC : BuildScan) (vfC : VFlusher)
      (payC g0 : List DbEntry) (k0 fp0 : Nat) (flC : Flusher),
    ZStr c cfg nC scanC vfC payC → FlWF c cfg flC → g0 ≠ [] →
    IsLeafFor c cfg flC (Entry.MZ k0 fp0) g0 → fp0 < flC.fpos →
    ∃ (ments : List Entry) (grpsF : List DbEntry)
      (slot' : Option (Nat × Nat)) (gS' restF : List DbEntry) (n' : Nat)
      (scan' : BuildScan) (vf' : VFlusher) (fl' flF : Flusher),
      flF = fl'.flush c ⟨fl'.fpos, BKind.m, cfg.m_blocksize,
        Entry.MZ k0 fp0 :: ments⟩ ∧
      (∀ (fuel : Nat), payC.length + 3 ≤ fuel →
        mzLoop c cfg fuel none ⟨scanC, flC, some vfC⟩ (some k0)
            [Entry.MZ k0 fp0] (1 + (c.encEntry (Entry.MZ k0 fp0)).length) =
          .ok (some (k0, Entry.MZ k0 fp0 :: ments, slot',
            ⟨scan', fl', some vf'⟩))) ∧
      payC = grpsF ++ (gS' ++ restF) ∧
      MTree c cfg flF 1 (Entry.MM k0 fl'.fpos) (g0 ++ grpsF) ∧
      FlWF c cfg flF ∧ flC.Ext flF ∧ flC.fpos ≤ flF.fpos ∧
      fl'.fpos < flF.fpos ∧
      SlotZ c cfg flF slot' gS' ∧ ZStr c cfg n' scan' vf' restF ∧
      n' + slotCount slot' ≤ nC ∧
      (slot' = none → gS' = [] ∧ restF = [] ∧ n' = 0) := by
  intro nC scanC vfC payC g0 k0 fp0 flC hZ hwf hg0 hleaf0 hfp0
  have he0 : (c.encEntry (Entry.MZ k0 fp0)).length ≤ cfg.m_blocksize - 2 :=
    le_trans (hmzfit k0 fp0) (Nat.div_le_self _ _)
  obtain ⟨ents, grps, slot', gS', restF, n', scan', vf', fl', heqL, hpayL,
    hrelL, hmemL, hszL, hextL, hfleL, hwfL, hcntL, hZ', hnoneC, hslotC⟩ :=
    mzLoop_cont c cfg hz2 nC scanC vfC payC hZ flC hwf k0 [Entry.MZ k0 fp0]
      (1 + (c.encEntry (Entry.MZ k0 fp0)).length) (by omega)
  have hused : (⟨fl'.fpos, BKind.m, cfg.m_blocksize,
      Entry.MZ k0 fp0 :: ents⟩ : FBlock).used c ≤ cfg.m_blocksize := by
    rw [FBlock.used_eq, encLen_cons]
    omega
  have hwfF : FlWF c cfg (fl'.flush c ⟨fl'.fpos, BKind.m, cfg.m_blocksize,
      Entry.MZ k0 fp0 :: ents⟩) :=
    FlWF_flush hwfL rfl hused (by show 1 ≤ cfg.m_blocksize; omega)
      (fun hk => absurd (show BKind.m = BKind.z from hk) (by decide))
      (fun _ => rfl)
  have hextF : fl'.Ext (fl'.flush c ⟨fl'.fpos, BKind.m, cfg.m_blocksize,
      Entry.MZ k0 fp0 :: ents⟩) := Flusher.Ext.flush c fl' _
  have hfleF : fl'.fpos < (fl'.flush c ⟨fl'.fpos, BKind.m, cfg.m_blocksize,
      Entry.MZ k0 fp0 :: ents⟩).fpos := by
    rw [Flusher.flush_fpos]
    show fl'.fpos < fl'.fpos + cfg.m_blocksize
    omega
  have hstore : storeAt (fl'.flush c ⟨fl'.fpos, BKind.m, cfg.m_blocksize,
      Entry.MZ k0 fp0 :: ents⟩) fl'.fpos =
      some ⟨fl'.fpos, BKind.m, cfg.m_blocksize, Entry.MZ k0 fp0 :: ents⟩ :=
    storeAt_flush_new _ hwfL rfl
  refine ⟨ents, grps.flatten, slot', gS', restF, n', scan', vf', fl', _,
    rfl, by intro fuel hfuel; simpa using heqL fuel hfuel, hpayL, ?_, hwfF,
    hextL.trans hextF,
    le_trans hfleL (le_of_lt hfleF), hfleF,
    hslotC.zslot_ext hextF (le_of_lt hfleF), hZ', by omega, hnoneC⟩
  have hforall : List.Forall₂ (MTree c cfg (fl'.flush c ⟨fl'.fpos, BKind.m,
      cfg.m_blocksize, Entry.MZ k0 fp0 :: ents⟩) 0)
      (Entry.MZ k0 fp0 :: ents) (g0 :: grps) := by
    refine List.Forall₂.cons ?_ ?_
    · exact MTree.leaf (hleaf0.leaf_ext (hextL.trans hextF)) 0
    · refine hrelL.imp ?_
      rintro a b ⟨kx, fpx, rfl, hl, hlt⟩
      exact MTree.leaf (hl.leaf_ext hextF) 0
  have hmem : ∀ e' ∈ (Entry.MZ k0 fp0 :: ents), e'.fposOf < fl'.fpos := by
    intro e' he'
    rcases List.mem_cons.mp he' with h | h
    · subst h
      simp only [Entry.fposOf]
      exact lt_of_lt_of_le hfp0 hfleL
    · exact hmemL e' h
  have htree := MTree.node (h := 0) (k := k0) hstore rfl (by simp)
    (by simp [Entry.key]) hforall hmem
  simpa using htree

/-- One full call of the tower iterator at the `BuildMZ` level: on an
exhausted stream with an empty slot it yields nothing; otherwise it flushes
an m-block of `MZ` pointers covering the slot group and a greedy prefix of
the stream, yielding a height-1 subtree pointer. -/
theorem mzNext_call (c : Codec) (cfg : Config) (hz2 : 2 ≤ cfg.z_blocksize)
    (hm2 : 2 ≤ cfg.m_blocksize)
    (hmzfit : ∀ k fp, (c.encEntry (Entry.MZ k fp)).length ≤
      (cfg.m_blocksize - 2) / 2) :
    ∀ (n : Nat) (scan : BuildScan) (vf : VFlusher)
      (payload gS0 : List DbEntry) (slot : Option (Nat × Nat)) (fl : Flusher),
    ZStr c cfg n scan vf payload → SlotZ c cfg fl slot gS0 → FlWF c cfg fl →
    (gS0 ++ payload = [] → ∀ (flA : Flusher) (f : Nat), 3 ≤ f →
      biterNext c cfg f (.mz slot) ⟨scan, flA, some vf⟩ = .ok none) ∧
    (gS0 ++ payload ≠ [] →
      ∃ (k fp : Nat) (grpU : List DbEntry) (slot' : Option (Nat × Nat))
        (gS' restF : List DbEntry) (n' : Nat) (scan' : BuildScan)
        (vf' : VFlusher) (flF : Flusher),
        gS0 ++ payload = grpU ++ (gS' ++ restF) ∧ grpU ≠ [] ∧
        (∀ f, (gS0 ++ payload).length + 3 ≤ f →
          biterNext c cfg f (.mz slot) ⟨scan, fl, some vf⟩ =
            .ok (some ((k, fp), .mz slot', ⟨scan', flF, some vf'⟩))) ∧
        fl.Ext flF ∧ fl.fpos ≤ flF.fpos ∧ FlWF c cfg flF ∧
        MTree c cfg flF 1 (Entry.MM k fp) grpU ∧ fp < flF.fpos ∧
        SlotZ c cfg flF slot' gS' ∧ ZStr c cfg n' scan' vf' restF ∧
        n' + slotCount slot' + 1 ≤ n + slotCount slot ∧
        (slot' = none → gS' = [] ∧ restF = [] ∧ n' = 0)) := by
  intro n scan vf payload gS0 slot fl hZ hslot hwf
  constructor
  · intro hemp flA f hf
    rw [List.append_eq_nil] at hemp
    obtain ⟨hg0, hpay0⟩ := hemp
    cases slot with
    | some p =>
      obtain ⟨k0, fp0⟩ := p
      exact absurd hg0 hslot.1
    | none =>
      have hnone : ∀ (flB : Flusher) (f2 : Nat), 1 ≤ f2 →
          zzNext c cfg f2 ⟨scan, flB, some vf⟩ = .ok none := by
        cases n with
        | zero =>
          simp only [ZStr] at hZ
          exact hZ.2
        | succ n0 =>
          simp only [ZStr] at hZ
          obtain ⟨grp, rest, k1, zs, vbn, scan1, hpay, hgrp, hrest⟩ := hZ
          rw [hpay0] at hpay
          exact absurd (List.append_eq_nil.mp hpay.symm).1 hgrp
      obtain ⟨f1, rfl⟩ : ∃ f1, f = f1 + 1 := ⟨f - 1, by omega⟩
      rw [biterNext_mz_eq, mzNext_eq, mzLoop_first]
      have hpull : mzPull c cfg f1 none ⟨scan, flA, some vf⟩ = .ok none := by
        simp only [mzPull]
        rw [hnone flA f1 (by omega)]
      rw [hpull]
      rfl
  · intro hne
    cases slot with
    | some p =>
      obtain ⟨k0, fp0⟩ := p
      obtain ⟨hg0ne, hleaf0, hfp0⟩ := hslot
      obtain ⟨ments, grpsF, slot', gS', restF, n', scan', vf', fl', flF,
        hflF, heqA, hpayA, htree, hwfF, hextF, hfleF, hfpF, hslotF, hZ',
        hmeas, hnoneC⟩ :=
        mzAccept c cfg hz2 hm2 hmzfit n scan vf payload gS0 k0 fp0 fl hZ hwf
          hg0ne hleaf0 hfp0
      have hg0l : 1 ≤ gS0.length := List.length_pos.mpr hg0ne
      have hlenU : (gS0 ++ payload).length = gS0.length + payload.length :=
        List.length_append _ _
      refine ⟨k0, fl'.fpos, gS0 ++ grpsF, slot', gS', restF, n', scan', vf',
        flF, ?_, fun h => hg0ne (List.append_eq_nil.mp h).1, ?_, hextF,
        hfleF, hwfF, htree, hfpF, hslotF, hZ',
        by show n' + slotCount slot' + 1 ≤ n + 1; omega, hnoneC⟩
      · rw [hpayA]
        exact (List.append_assoc _ _ _).symm
      · intro f hf
        obtain ⟨f1, rfl⟩ : ∃ f1, f = f1 + 1 := ⟨f - 1, by omega⟩
        rw [biterNext_mz_eq, mzNext_eq, mzLoop_first]
        have hpull : mzPull c cfg f1 (some (k0, fp0)) ⟨scan, fl, some vf⟩ =
            .ok (some ((k0, fp0), ⟨scan, fl, some vf⟩)) := rfl
        rw [hpull]
        simp only [mzLoopBody, Option.getD_none, List.nil_append]
        have hnov : ¬ (1 + (c.encEntry (Entry.MZ k0 fp0)).length >
            cfg.m_blocksize - 1) := by
          have h1 := hmzfit k0 fp0
          have h2 := Nat.div_le_self (cfg.m_blocksize - 2) 2
          omega
        rw [if_neg hnov]
        rw [heqA f1 (by omega)]
        rw [hflF]
    | none =>
      have hg0 : gS0 = [] := hslot
      subst hg0
      simp only [List.nil_append] at hne ⊢
      cases n with
      | zero =>
        simp only [ZStr] at hZ
        exact absurd hZ.1 hne
      | succ n0 =>
      simp only [ZStr] at hZ
      obtain ⟨grp, rest, k1, zs, vbn, scan1, hpay, hgrp, hhead, hrel1, hzsz,
        heqz, hZ1⟩ := hZ
      have hgl : 1 ≤ grp.length := List.length_pos.mpr hgrp
      have hplen : payload.length = grp.length + rest.length := by
        rw [hpay]; simp
      have hwfz : FlWF c cfg
          (fl.flush c ⟨fl.fpos, BKind.z, cfg.z_blocksize, zs⟩) :=
        FlWF_flush hwf rfl (by rw [FBlock.used_eq]; exact hzsz)
          (le_trans (by omega) hz2) (fun _ => rfl)
          (fun hk => absurd (show BKind.z = BKind.m from hk) (by decide))
      have hleaf1 : IsLeafFor c cfg
          (fl.flush c ⟨fl.fpos, BKind.z, cfg.z_blocksize, zs⟩)
          (Entry.MZ k1 fl.fpos) grp :=
        ⟨k1, fl.fpos, ⟨fl.fpos, BKind.z, cfg.z_blocksize, zs⟩, rfl,
          storeAt_flush_new _ hwf rfl, rfl, hgrp, hhead, hrel1⟩
      have hfpz : fl.fpos <
          (fl.flush c ⟨fl.fpos, BKind.z, cfg.z_blocksize, zs⟩).fpos := by
        rw [Flusher.flush_fpos]
        show fl.fpos < fl.fpos + cfg.z_blocksize
        omega
      obtain ⟨ments, grpsF, slot', gS', restF, n', scan', vf', fl', flF,
        hflF, heqA, hpayA, htree, hwfF, hextF, hfleF, hfpF, hslotF, hZ',
        hmeas, hnoneC⟩ :=
        mzAccept c cfg hz2 hm2 hmzfit n0 scan1 (vf.flush vbn) rest grp k1
          fl.fpos (fl.flush c ⟨fl.fpos, BKind.z, cfg.z_blocksize, zs⟩) hZ1
          hwfz hgrp hleaf1 hfpz
      refine ⟨k1, fl'.fpos, grp ++ grpsF, slot', gS', restF, n', scan', vf',
        flF, ?_, fun h => hgrp (List.append_eq_nil.mp h).1, ?_,
        (Flusher.Ext.flush c fl _).trans hextF,
        le_trans (le_of_lt hfpz) hfleF, hwfF, htree, hfpF, hslotF, hZ',
        by show n' + slotCount slot' + 1 ≤ n0 + 1 + 0; omega, hnoneC⟩
      · rw [hpay, hpayA]
        exact (List.append_assoc _ _ _).symm
      · intro f hf
        obtain ⟨f1, rfl⟩ : ∃ f1, f = f1 + 1 := ⟨f - 1, by omega⟩
        rw [biterNext_mz_eq, mzNext_eq, mzLoop_first]
        have hpull : mzPull c cfg f1 none ⟨scan, fl, some vf⟩ =
            .ok (some ((k1, fl.fpos),
              ⟨scan1, fl.flush c ⟨fl.fpos, BKind.z, cfg.z_blocksize, zs⟩,
                some (vf.flush vbn)⟩)) := by
          simp only [mzPull]
          rw [heqz fl f1 (by omega)]
        rw [hpull]
        simp only [mzLoopBody, Option.getD_none, List.nil_append]
        have hnov : ¬ (1 + (c.encEntry (Entry.MZ k1 fl.fpos)).length >
            cfg.m_blocksize - 1) := by
          have h1 := hmzfit k1 fl.fpos
          have h2 := Nat.div_le_self (cfg.m_blocksize - 2) 2
          omega
        rw [if_neg hnov]
        rw [heqA f1 (by omega)]
        rw [hflF]

/-- A stream over a non-empty payload yields on its next call. -/
theorem MStr.progress (c : Codec) (cfg : Config) (h : Nat) :
    ∀ (n : Nat) (fl0 : Flusher) (it : BIter) (scan : BuildScan)
      (vf : VFlusher) (payload : List DbEntry),
    MStr c cfg h n fl0 it scan vf payload → payload ≠ [] →
    ∃ n', n' < n ∧
      ∀ (fl : Flusher), FlWF c cfg fl → fl0.Ext fl → fl0.fpos ≤ fl.fpos →
        ∃ grp rest k fp it' scan' vf' fl',
          payload = grp ++ rest ∧ grp ≠ [] ∧
          (∀ f, payload.length + 2 + h ≤ f →
            biterNext c cfg f it ⟨scan, fl, some vf⟩ =
              .ok (some ((k, fp), it', ⟨scan', fl', some vf'⟩))) ∧
          fl.Ext fl' ∧ fl.fpos ≤ fl'.fpos ∧ FlWF c cfg fl' ∧
          MTree c cfg fl' h (Entry.MM k fp) grp ∧ fp < fl'.fpos ∧
          MStr c cfg h n' fl' it' scan' vf' rest := by
  intro n
  induction n with
  | zero =>
    intro fl0 it scan vf payload hM hne
    simp only [MStr] at hM
    exact absurd hM.1 hne
  | succ n ih =>
    intro fl0 it scan vf payload hM hne
    simp only [MStr] at hM
    rcases hM with hM | hstep
    · obtain ⟨n', hlt, hrest⟩ := ih fl0 it scan vf payload hM hne
      exact ⟨n', by omega, hrest⟩
    · exact ⟨n, by omega, hstep⟩

/-- The `BuildMZ` level realizes a height-1 stream of at most
`n + slotCount slot` yields. -/
theorem mzStream (c : Codec) (cfg : Config) (hz2 : 2 ≤ cfg.z_blocksize)
    (hm2 : 2 ≤ cfg.m_blocksize)
    (hmzfit : ∀ k fp, (c.encEntry (Entry.MZ k fp)).length ≤
      (cfg.m_blocksize - 2) / 2) :
    ∀ (a : Nat) (n : Nat) (slot : Option (Nat × Nat)) (scan : BuildScan)
      (vf : VFlusher) (payload gS0 : List DbEntry) (fl : Flusher),
    n + slotCount slot ≤ a →
    ZStr c cfg n scan vf payload → SlotZ c cfg fl slot gS0 → FlWF c cfg fl →
    MStr c cfg 1 a fl (.mz slot) scan vf (gS0 ++ payload) := by
  intro a
  induction a with
  | zero =>
    intro n slot scan vf payload gS0 fl hcount hZ hslot hwf
    have hsn : slot = none := by
      cases slot with
      | none => rfl
      | some p =>
        simp [slotCount] at hcount
    subst hsn
    have hg0 : gS0 = [] := hslot
    subst hg0
    have hpay : payload = [] := by
      simp only [slotCount] at hcount
      have hn : n = 0 := by omega
      subst hn
      simp only [ZStr] at hZ
      exact hZ.1
    simp only [MStr]
    refine ⟨by simp [hpay], ?_⟩
    intro flA f hf
    exact (mzNext_call c cfg hz2 hm2 hmzfit n scan vf payload [] none fl
      hZ rfl hwf).1 (by simp [hpay]) flA f (by omega)
  | succ a ih =>
    intro n slot scan vf payload gS0 fl hcount hZ hslot hwf
    by_cases hne : gS0 ++ payload = []
    · have h0 : MStr c cfg 1 0 fl (.mz slot) scan vf (gS0 ++ payload) := by
        simp only [MStr]
        refine ⟨hne, ?_⟩
        intro flA f hf
        exact (mzNext_call c cfg hz2 hm2 hmzfit n scan vf payload gS0 slot fl
          hZ hslot hwf).1 hne flA f (by omega)
      exact MStr.mono_count c cfg 1 (a + 1) 0 (by omega) fl _ scan vf _ h0
    · simp only [MStr]
      refine Or.inr ?_
      intro fl1 hwf1 hext1 hfle1
      obtain ⟨k, fp, grpU, slot', gS', restF, n', scan', vf', flF, hsplit,
        hgrpU, heqY, hextY, hfleY, hwfY, htreeY, hfpY, hslotY, hZ', hmeasY,
        hnoneY⟩ :=
        (mzNext_call c cfg hz2 hm2 hmzfit n scan vf payload gS0 slot fl1
          hZ (hslot.zslot_ext hext1 hfle1) hwf1).2 hne
      refine ⟨grpU, gS' ++ restF, k, fp, .mz slot', scan', vf', flF, hsplit,
        hgrpU, ?_, hextY, hfleY, hwfY, htreeY, hfpY, ?_⟩
      · intro f hf
        exact heqY f (by omega)
      · exact ih n' slot' scan' vf' restF gS' flF (by omega) hZ' hslotY hwfY

/-- Total encoded length is bounded by a per-entry bound. -/
theorem encLen_le (c : Codec) (E : Nat) :
    ∀ (l : List Entry), (∀ e ∈ l, (c.encEntry e).length ≤ E) →
    encLen c l ≤ l.length * E := by
  intro l
  induction l with
  | nil => intro _; simp [encLen_nil]
  | cons x l ih =>
    intro hb
    rw [encLen_cons]
    have h1 := hb x (by simp)
    have h2 := ih (fun e he => hb e (by simp [he]))
    simp only [List.length_cons]
    calc (c.encEntry x).length + encLen c l ≤ E + l.length * E := by omega
    _ = (l.length + 1) * E := by ring

/-- First unfolding of the `BuildMM` pull loop. -/
theorem mmLoop_first (c : Codec) (cfg : Config)
    (nextB : BIter → BState →
      Except RErr (Option ((Nat × Nat) × BIter × BState)))
    (a : Nat) (slot : Option (Nat × Nat)) (below : BIter) (st : BState)
    (fk curr : Option Nat) (nn : Nat) (ment : List Entry) (mlen : Nat) :
    mmLoop c cfg nextB (a + 1) slot below st fk curr nn ment mlen =
      mmLoopBody c cfg (fun b s => mmLoop c cfg nextB a none b s) below st
        (mmPull nextB slot below st) fk curr nn ment mlen := rfl

/-- Unfolding of the tower iterator on a `BuildMM` level. -/
theorem biterNext_mm_eq (c : Codec) (cfg : Config) (f1 : Nat)
    (slot : Option (Nat × Nat)) (below : BIter) (st : BState) :
    biterNext c cfg (f1 + 1) (.mm slot below) st =
      match mmLoop c cfg (biterNext c cfg f1) (f1 + 1) slot below st none
          none 0 [] 1 with
      | .error e => .error e
      | .ok none => .ok none
      | .ok (some (fk, currFpos, n, mentries, slot', below', st')) =>
        if n > 1 then
          .ok (some ((fk, st'.iflush.fpos), .mm slot' below',
            ⟨st'.scan, st'.iflush.flush c
              ⟨st'.iflush.fpos, BKind.m, cfg.m_blocksize, mentries⟩,
              st'.vflush⟩))
        else
          match currFpos with
          | some fp => .ok (some ((fk, fp), .mm slot' below', st'))
          | none => .error .Panic := rfl

/-- Continuation of the `BuildMM` pull loop once the first key is fixed:
the loop drains lower-level yields into `MM` entries until the m-block
would overflow (pushing the offending pair into the slot) or the lower
stream is exhausted. -/
theorem mmLoop_cont (c : Codec) (cfg : Config) (h : Nat) :
    ∀ (n : Nat) (it : BIter) (scan : BuildScan) (vf : VFlusher)
      (payload : List DbEntry) (flb : Flusher),
    MStr c cfg h n flb it scan vf payload →
    ∀ (fl : Flusher), FlWF c cfg fl → flb.Ext fl → flb.fpos ≤ fl.fpos →
    ∀ (fk cf nn : Nat) (ment : List Entry) (mlen : Nat),
    mlen ≤ cfg.m_blocksize - 1 →
    ∃ (ents : List Entry) (grps : List (List DbEntry))
      (slot' : Option (Nat × Nat)) (gS restF : List DbEntry)
      (n' cnt : Nat) (curr' : Option Nat) (it' : BIter) (scan' : BuildScan)
      (vf' : VFlusher) (fl' : Flusher),
      (∀ (flow fuel : Nat), payload.length + 2 + h ≤ flow → n + 1 ≤ fuel →
        mmLoop c cfg (biterNext c cfg flow) fuel none it ⟨scan, fl, some vf⟩
          (some fk) (some cf) nn ment mlen =
          .ok (some (fk, curr', cnt, ment ++ ents, slot', it',
            ⟨scan', fl', some vf'⟩))) ∧
      cnt = nn + ents.length + slotCount slot' ∧
      payload = grps.flatten ++ (gS ++ restF) ∧
      List.Forall₂ (fun (e : Entry) (g : List DbEntry) => ∃ k1 fp1,
        e = Entry.MM k1 fp1 ∧ MTree c cfg fl' h (Entry.MM k1 fp1) g ∧
        fp1 < fl'.fpos) ents grps ∧
      (∀ e' ∈ ents, e'.fposOf < fl'.fpos) ∧
      (∀ e' ∈ ents, ∃ k1 fp1, e' = Entry.MM k1 fp1) ∧
      mlen + encLen c ents ≤ cfg.m_blocksize - 1 ∧
      fl.Ext fl' ∧ fl.fpos ≤ fl'.fpos ∧ FlWF c cfg fl' ∧
      grps.length + slotCount slot' + n' ≤ n ∧
      MStr c cfg h n' fl' it' scan' vf' restF ∧
      (slot' = none → gS = [] ∧ restF = [] ∧ n' = 0) ∧
      (slot' = none → ents = [] → curr' = some cf) ∧
      SlotM c cfg h fl' slot' gS ∧
      (∀ k1 fp1, slot' = some (k1, fp1) →
        mlen + encLen c ents + (c.encEntry (Entry.MM k1 fp1)).length >
          cfg.m_blocksize - 1) := by
  intro n
  induction n with
  | zero =>
    intro it scan vf payload flb hM fl hwf hextb hfleb fk cf nn ment mlen
      hmlen
    simp only [MStr] at hM
    obtain ⟨hpay, hnone⟩ := hM
    refine ⟨[], [], none, [], [], 0, nn, some cf, it, scan, vf, fl, ?_,
      by simp [slotCount], by simp [hpay], .nil,
      by intro e' he'; exact absurd he' (List.not_mem_nil e'),
      by intro e' he'; exact absurd he' (List.not_mem_nil e'),
      by simp [encLen_nil]; omega, Flusher.Ext.refl _, le_refl _, hwf,
      by simp [slotCount], ?_, fun _ => ⟨rfl, rfl, rfl⟩, fun _ _ => rfl,
      rfl, fun k1 fp1 hq => absurd hq (by simp)⟩
    · intro flow fuel hflow hfuel
      obtain ⟨a, rfl⟩ : ∃ a, fuel = a + 1 := ⟨fuel - 1, by omega⟩
      rw [mmLoop_first]
      have hpull : mmPull (biterNext c cfg flow) none it
          ⟨scan, fl, some vf⟩ = .ok none := hnone fl flow (by omega)
      rw [hpull]
      simp [mmLoopBody]
    · simp only [MStr]
      exact ⟨by simp, hnone⟩
  | succ n ih =>
    intro it scan vf payload flb hM fl hwf hextb hfleb fk cf nn ment mlen
      hmlen
    simp only [MStr] at hM
    rcases hM with hM' | hstep
    · obtain ⟨ents, grps, slot', gS, restF, n', cnt, curr', it', scan', vf',
        fl', heqR, hcntEq, hpayR, hrelR, hmemR, hformR, hszR, hextR, hfleR,
        hwfR, hcntR, hMR, hnoneR, hcurrR, hslotR, hovR⟩ :=
        ih it scan vf payload flb hM' fl hwf hextb hfleb fk cf nn ment mlen
          hmlen
      exact ⟨ents, grps, slot', gS, restF, n', cnt, curr', it', scan', vf',
        fl', fun flow fuel hflow hfuel => heqR flow fuel hflow (by omega),
        hcntEq, hpayR, hrelR, hmemR, hformR, hszR, hextR, hfleR, hwfR,
        by omega, hMR, hnoneR, hcurrR, hslotR, hovR⟩
    · obtain ⟨grp, rest, k1, fp1, it1, scan1, vf1, fl1, hpay, hgrp, heqY,
        hext1, hfle1, hwf1, htree1, hfp1, hM1⟩ := hstep fl hwf hextb hfleb
      have hgl : 1 ≤ grp.length := List.length_pos.mpr hgrp
      have hplen : payload.length = grp.length + rest.length := by
        rw [hpay]; simp
      by_cases hov : mlen + (c.encEntry (Entry.MM k1 fp1)).length >
          cfg.m_blocksize - 1
      · refine ⟨[], [], some (k1, fp1), grp, rest, n, nn + 1, some fp1, it1,
          scan1, vf1, fl1, ?_, by simp [slotCount], by simpa using hpay,
          .nil, by intro e' he'; exact absurd he' (List.not_mem_nil e'),
          by intro e' he'; exact absurd he' (List.not_mem_nil e'),
          by simp [encLen_nil]; omega, hext1, hfle1, hwf1,
          by show 0 + 1 + n ≤ n + 1; omega, hM1,
          by intro hq; exact absurd hq (by simp),
          by intro hq; exact absurd hq (by simp), ⟨hgrp, htree1, hfp1⟩, ?_⟩
        · intro flow fuel hflow hfuel
          obtain ⟨a, rfl⟩ : ∃ a, fuel = a + 1 := ⟨fuel - 1, by omega⟩
          rw [mmLoop_first]
          have hpull : mmPull (biterNext c cfg flow) none it
              ⟨scan, fl, some vf⟩ =
              .ok (some ((k1, fp1), it1, ⟨scan1, fl1, some vf1⟩)) :=
            heqY flow (by omega)
          rw [hpull]
          simp only [mmLoopBody, Option.getD_some]
          rw [if_pos hov]
          simp
        · intro k' fp' hq
          injection hq with hq'
          cases hq'
          simpa [encLen_nil] using hov
      · push_neg at hov
        obtain ⟨ents', grps', slot', gS, restF, n', cnt', curr', it', scan',
          vf', fl', heqR, hcntEq, hpayR, hrelR, hmemR, hformR, hszR, hextR,
          hfleR, hwfR, hcntR, hMR, hnoneR, hcurrR, hslotR, hovR⟩ :=
          ih it1 scan1 vf1 rest fl1 hM1 fl1 hwf1 (Flusher.Ext.refl _)
            (le_refl _) fk fp1 (nn + 1) (ment ++ [Entry.MM k1 fp1])
            (mlen + (c.encEntry (Entry.MM k1 fp1)).length) hov
        refine ⟨Entry.MM k1 fp1 :: ents', grp :: grps', slot', gS, restF,
          n', cnt', curr', it', scan', vf', fl', ?_,
          by simp only [List.length_cons]; omega, ?_, ?_, ?_, ?_, ?_,
          hext1.trans hextR, le_trans hfle1 hfleR, hwfR, ?_, hMR, hnoneR,
          ?_, hslotR, ?_⟩
        · intro flow fuel hflow hfuel
          obtain ⟨a, rfl⟩ : ∃ a, fuel = a + 1 := ⟨fuel - 1, by omega⟩
          rw [mmLoop_first]
          have hpull : mmPull (biterNext c cfg flow) none it
              ⟨scan, fl, some vf⟩ =
              .ok (some ((k1, fp1), it1, ⟨scan1, fl1, some vf1⟩)) :=
            heqY flow (by omega)
          rw [hpull]
          simp only [mmLoopBody, Option.getD_some]
          rw [if_neg (by omega)]
          rw [heqR flow a (by omega) (by omega)]
          simp
        · rw [hpay, hpayR]
          simp
        · exact List.Forall₂.cons
            ⟨k1, fp1, rfl, htree1.tree_ext hextR, lt_of_lt_of_le hfp1 hfleR⟩
            hrelR
        · intro e' he'
          rcases List.mem_cons.mp he' with hq | hq
          · subst hq
            simp only [Entry.fposOf]
            exact lt_of_lt_of_le hfp1 hfleR
          · exact hmemR e' hq
        · intro e' he'
          rcases List.mem_cons.mp he' with hq | hq
          · exact ⟨k1, fp1, hq⟩
          · exact hformR e' hq
        · rw [encLen_cons]
          omega
        · simp only [List.length_cons]
          omega
        · intro h1 h2
          exact absurd h2 (by simp)
        · intro k' fp' hq
          have := hovR k' fp' hq
          rw [encLen_cons]
          omega

/-- A stream over an empty payload answers `None` from any flusher, as
long as one well-formed extension of the base witnesses it. -/
theorem MStr.exhausted (c : Codec) (cfg : Config) (h : Nat) :
    ∀ (n : Nat) (flb : Flusher) (it : BIter) (scan : BuildScan)
      (vf : VFlusher),
    MStr c cfg h n flb it scan vf [] →
    ∀ (fl : Flusher), FlWF c cfg fl → flb.Ext fl → flb.fpos ≤ fl.fpos →
    ∀ (flA : Flusher) (f : Nat), 2 + h ≤ f →
      biterNext c cfg f it ⟨scan, flA, some vf⟩ = .ok none := by
  intro n
  induction n with
  | zero =>
    intro flb it scan vf hM fl hwf hext hfle flA f hf
    simp only [MStr] at hM
    exact hM.2 flA f hf
  | succ n ih =>
    intro flb it scan vf hM fl hwf hext hfle flA f hf
    simp only [MStr] at hM
    rcases hM with hM' | hstep
    · exact ih flb it scan vf hM' fl hwf hext hfle flA f hf
    · obtain ⟨grp, rest, k1, fp1, it1, scan1, vf1, fl1, hpay, hgrp, hrest⟩ :=
        hstep fl hwf hext hfle
      exact absurd (List.append_eq_nil.mp hpay.symm).1 hgrp

/-- A stream's yield-count bound can be shrunk to the payload length:
every yield consumes at least one payload entry. -/
theorem MStr.shrink (c : Codec) (cfg : Config) (h : Nat) :
    ∀ (n : Nat) (flb : Flusher) (it : BIter) (scan : BuildScan)
      (vf : VFlusher) (payload : List DbEntry),
    MStr c cfg h n flb it scan vf payload →
    ∀ (fl : Flusher), FlWF c cfg fl → flb.Ext fl → flb.fpos ≤ fl.fpos →
    MStr c cfg h (min n payload.length) flb it scan vf payload := by
  intro n
  induction n with
  | zero =>
    intro flb it scan vf payload hM fl hwf hext hfle
    rw [Nat.zero_min]
    exact hM
  | succ n ih =>
    intro flb it scan vf payload hM fl hwf hext hfle
    simp only [MStr] at hM
    rcases hM with hM' | hstep
    · have hs := ih flb it scan vf payload hM' fl hwf hext hfle
      exact MStr.mono_count c cfg h _ _ (by omega) flb it scan vf payload hs
    · have hne : payload ≠ [] := by
        obtain ⟨grp, rest, k1, fp1, it1, scan1, vf1, fl1, hpay, hgrp, hrest⟩ :=
          hstep fl hwf hext hfle
        rw [hpay]
        intro hq
        exact absurd (List.append_eq_nil.mp hq).1 hgrp
      have hL : 1 ≤ payload.length := List.length_pos.mpr hne
      have hmin : min (n + 1) payload.length =
          min n (payload.length - 1) + 1 := by omega
      rw [hmin]
      simp only [MStr]
      refine Or.inr ?_
      intro fl2 hwf2 hext2 hfle2
      obtain ⟨grp, rest, k1, fp1, it1, scan1, vf1, fl1, hpay, hgrp, heqY,
        hext1, hfle1, hwf1, htree1, hfp1, hM1⟩ := hstep fl2 hwf2 hext2 hfle2
      have hgl : 1 ≤ grp.length := List.length_pos.mpr hgrp
      have hplen : payload.length = grp.length + rest.length := by
        rw [hpay]; simp
      have hs1 := ih fl1 it1 scan1 vf1 rest hM1 fl1 hwf1
        (Flusher.Ext.refl _) (le_refl _)
      refine ⟨grp, rest, k1, fp1, it1, scan1, vf1, fl1, hpay, hgrp, heqY,
        hext1, hfle1, hwf1, htree1, hfp1, ?_⟩
      exact MStr.mono_count c cfg h _ _ (by omega) fl1 it1 scan1 vf1 rest hs1

/-- After `BuildMM` accepts a first pair `(k0, fp0)` covering `g0`, the
loop continuation packs a further greedy prefix of the lower stream; if
flushed, the resulting m-block's `MM` pointer covers `g0` and the drained
groups. -/
theorem mmAccept (c : Codec) (cfg : Config) (hm2 : 2 ≤ cfg.m_blocksize)
    (hmmfit : ∀ k fp, (c.encEntry (Entry.MM k fp)).length ≤
      (cfg.m_blocksize - 2) / 2) (h : Nat) :
    ∀ (nC : Nat) (it1 : BIter) (scan1 : BuildScan) (vf1 : VFlusher)
      (payC g0 : List DbEntry) (k0 fp0 : Nat) (fl1 : Flusher),
    MStr c cfg h nC fl1 it1 scan1 vf1 payC → FlWF c cfg fl1 → g0 ≠ [] →
    MTree c cfg fl1 h (Entry.MM k0 fp0) g0 → fp0 < fl1.fpos →
    ∃ (ments : List Entry) (grpsF : List DbEntry)
      (slot' : Option (Nat × Nat)) (gS' restF : List DbEntry)
      (n' cnt : Nat) (curr' : Option Nat) (it' : BIter) (scan' : BuildScan)
      (vf' : VFlusher) (fl' : Flusher),
      (∀ (flow fuel : Nat), payC.length + 2 + h ≤ flow →
        payC.length + 1 ≤ fuel →
        mmLoop c cfg (biterNext c cfg flow) fuel none it1
          ⟨scan1, fl1, some vf1⟩ (some k0) (some fp0) 1
          [Entry.MM k0 fp0] (1 + (c.encEntry (Entry.MM k0 fp0)).length) =
          .ok (some (k0, curr', cnt, Entry.MM k0 fp0 :: ments, slot', it',
            ⟨scan', fl', some vf'⟩))) ∧
      cnt = 1 + ments.length + slotCount slot' ∧
      payC = grpsF ++ (gS' ++ restF) ∧
      fl1.Ext fl' ∧ fl1.fpos ≤ fl'.fpos ∧ FlWF c cfg fl' ∧
      MStr c cfg h n' fl' it' scan' vf' restF ∧
      SlotM c cfg h fl' slot' gS' ∧
      ments.length + slotCount slot' + n' ≤ nC ∧
      (slot' = none → gS' = [] ∧ restF = [] ∧ n' = 0) ∧
      (slot' = none → ments = [] → curr' = some fp0) ∧
      (ments = [] → grpsF = []) ∧
      (∀ p, slot' = some p → 1 ≤ ments.length) ∧
      MTree c cfg (fl'.flush c ⟨fl'.fpos, BKind.m, cfg.m_blocksize,
        Entry.MM k0 fp0 :: ments⟩) (h + 1) (Entry.MM k0 fl'.fpos)
        (g0 ++ grpsF) ∧
      FlWF c cfg (fl'.flush c ⟨fl'.fpos, BKind.m, cfg.m_blocksize,
        Entry.MM k0 fp0 :: ments⟩) ∧
      fl'.fpos < (fl'.flush c ⟨fl'.fpos, BKind.m, cfg.m_blocksize,
        Entry.MM k0 fp0 :: ments⟩).fpos := by
  intro nC it1 scan1 vf1 payC g0 k0 fp0 fl1 hM hwf hg0 htree0 hfp0
  have he0 : (c.encEntry (Entry.MM k0 fp0)).length ≤ cfg.m_blocksize - 2 :=
    le_trans (hmmfit k0 fp0) (Nat.div_le_self _ _)
  have hM2 := MStr.shrink c cfg h nC fl1 it1 scan1 vf1 payC hM fl1 hwf
    (Flusher.Ext.refl _) (le_refl _)
  obtain ⟨ents, grps, slot', gS', restF, n', cnt, curr', it', scan', vf',
    fl', heqL, hcntEq, hpayL, hrelL, hmemL, hformL, hszL, hextL, hfleL,
    hwfL, hcntL, hML, hnoneL, hcurrL, hslotL, hovL⟩ :=
    mmLoop_cont c cfg h (min nC payC.length) it1 scan1 vf1 payC fl1 hM2 fl1
      hwf (Flusher.Ext.refl _) (le_refl _) k0 fp0 1 [Entry.MM k0 fp0]
      (1 + (c.encEntry (Entry.MM k0 fp0)).length) (by omega)
  have hentlen : encLen c ents ≤
      ents.length * ((cfg.m_blocksize - 2) / 2) := by
    apply encLen_le
    intro e' he'
    obtain ⟨k1, fp1, rfl⟩ := hformL e' he'
    exact hmmfit k1 fp1
  have hused : (⟨fl'.fpos, BKind.m, cfg.m_blocksize,
      Entry.MM k0 fp0 :: ents⟩ : FBlock).used c ≤ cfg.m_blocksize := by
    rw [FBlock.used_eq, encLen_cons]
    omega
  have hwfF : FlWF c cfg (fl'.flush c ⟨fl'.fpos, BKind.m, cfg.m_blocksize,
      Entry.MM k0 fp0 :: ents⟩) :=
    FlWF_flush hwfL rfl hused (by show 1 ≤ cfg.m_blocksize; omega)
      (fun hk => absurd (show BKind.m = BKind.z from hk) (by decide))
      (fun _ => rfl)
  have hextF : fl'.Ext (fl'.flush c ⟨fl'.fpos, BKind.m, cfg.m_blocksize,
      Entry.MM k0 fp0 :: ents⟩) := Flusher.Ext.flush c fl' _
  have hfleF : fl'.fpos < (fl'.flush c ⟨fl'.fpos, BKind.m, cfg.m_blocksize,
      Entry.MM k0 fp0 :: ents⟩).fpos := by
    rw [Flusher.flush_fpos]
    show fl'.fpos < fl'.fpos + cfg.m_blocksize
    omega
  have hstore : storeAt (fl'.flush c ⟨fl'.fpos, BKind.m, cfg.m_blocksize,
      Entry.MM k0 fp0 :: ents⟩) fl'.fpos =
      some ⟨fl'.fpos, BKind.m, cfg.m_blocksize, Entry.MM k0 fp0 :: ents⟩ :=
    storeAt_flush_new _ hwfL rfl
  have hleneq : ents.length = grps.length := List.Forall₂.length_eq hrelL
  refine ⟨ents, grps.flatten, slot', gS', restF, n', cnt, curr', it', scan',
    vf', fl',
    fun flow fuel hflow hfuel => heqL flow fuel hflow (by omega),
    hcntEq, hpayL, hextL, hfleL, hwfL, hML, hslotL, by omega, hnoneL,
    hcurrL, ?_, ?_, ?_, hwfF, hfleF⟩
  · intro hq
    subst hq
    rw [List.forall₂_nil_left_iff] at hrelL
    rw [hrelL]
    rfl
  · intro p hp
    obtain ⟨k1, q1⟩ := p
    have hovP := hovL k1 q1 hp
    have h1 := hmmfit k1 q1
    have h0 := hmmfit k0 fp0
    by_cases hle : ents.length = 0
    · rw [List.length_eq_zero] at hle
      subst hle
      rw [encLen_nil] at hovP
      omega
    · omega
  · have hforall : List.Forall₂ (MTree c cfg (fl'.flush c ⟨fl'.fpos,
        BKind.m, cfg.m_blocksize, Entry.MM k0 fp0 :: ents⟩) h)
        (Entry.MM k0 fp0 :: ents) (g0 :: grps) := by
      refine List.Forall₂.cons ?_ ?_
      · exact (htree0.tree_ext hextL).tree_ext hextF
      · refine hrelL.imp ?_
        rintro a b ⟨kx, fpx, rfl, ht, hlt⟩
        exact ht.tree_ext hextF
    have hmem : ∀ e' ∈ (Entry.MM k0 fp0 :: ents), e'.fposOf < fl'.fpos := by
      intro e' he'
      rcases List.mem_cons.mp he' with hq | hq
      · subst hq
        simp only [Entry.fposOf]
        exact lt_of_lt_of_le hfp0 hfleL
      · exact hmemL e' hq
    have htree := MTree.node (h := h) (k := k0) hstore rfl (by simp)
      (by simp [Entry.key]) hforall hmem
    simpa using htree

/-- Dispatch of a `BuildMM` level that packed more than one pair: the
m-block is flushed. -/
theorem biterNext_mm_flush (c : Codec) (cfg : Config) (f1 : Nat)
    (slot : Option (Nat × Nat)) (below : BIter) (st : BState)
    {fk : Nat} {curr : Option Nat} {cnt : Nat} {ments : List Entry}
    {slot' : Option (Nat × Nat)} {below' : BIter} {st' : BState}
    (hloop : mmLoop c cfg (biterNext c cfg f1) (f1 + 1) slot below st none
      none 0 [] 1 = .ok (some (fk, curr, cnt, ments, slot', below', st')))
    (hc1 : cnt > 1) :
    biterNext c cfg (f1 + 1) (.mm slot below) st =
      .ok (some ((fk, st'.iflush.fpos), .mm slot' below',
        ⟨st'.scan, st'.iflush.flush c
          ⟨st'.iflush.fpos, BKind.m, cfg.m_blocksize, ments⟩,
          st'.vflush⟩)) := by
  rw [biterNext_mm_eq]
  simp only [hloop]
  rw [if_pos hc1]

/-- Dispatch of a `BuildMM` level that pulled a single pair: the pair is
forwarded unflushed. -/
theorem biterNext_mm_forward (c : Codec) (cfg : Config) (f1 : Nat)
    (slot : Option (Nat × Nat)) (below : BIter) (st : BState)
    {fk : Nat} {fp : Nat} {cnt : Nat} {ments : List Entry}
    {slot' : Option (Nat × Nat)} {below' : BIter} {st' : BState}
    (hloop : mmLoop c cfg (biterNext c cfg f1) (f1 + 1) slot below st none
      none 0 [] 1 =
      .ok (some (fk, some fp, cnt, ments, slot', below', st')))
    (hc1 : ¬ cnt > 1) :
    biterNext c cfg (f1 + 1) (.mm slot below) st =
      .ok (some ((fk, fp), .mm slot' below', st')) := by
  rw [biterNext_mm_eq]
  simp only [hloop]
  rw [if_neg hc1]

/-- Dispatch of a `BuildMM` level on an exhausted loop. -/
theorem biterNext_mm_of_loop_none (c : Codec) (cfg : Config) (f1 : Nat)
    (slot : Option (Nat × Nat)) (below : BIter) (st : BState)
    (hloop : mmLoop c cfg (biterNext c cfg f1) (f1 + 1) slot below st none
      none 0 [] 1 = .ok none) :
    biterNext c cfg (f1 + 1) (.mm slot below) st = .ok none := by
  rw [biterNext_mm_eq]
  simp only [hloop]

/-- One full call of the tower iterator at a `BuildMM` level: on an
exhausted lower stream with an empty slot it yields nothing; otherwise it
either flushes an m-block of `MM` pointers (yielding a height `h + 1`
subtree pointer) or, having pulled exactly one pair, forwards that pair
unflushed. -/
theorem mmNext_call (c : Codec) (cfg : Config) (hm2 : 2 ≤ cfg.m_blocksize)
    (hmmfit : ∀ k fp, (c.encEntry (Entry.MM k fp)).length ≤
      (cfg.m_blocksize - 2) / 2) (h : Nat) :
    ∀ (n : Nat) (below : BIter) (scan : BuildScan) (vf : VFlusher)
      (payload gS0 : List DbEntry) (slot : Option (Nat × Nat))
      (flb fl : Flusher),
    MStr c cfg h n flb below scan vf payload →
    SlotM c cfg h fl slot gS0 → FlWF c cfg fl → flb.Ext fl →
    flb.fpos ≤ fl.fpos →
    (gS0 ++ payload = [] → ∀ (flA : Flusher) (f : Nat), 3 + h ≤ f →
      biterNext c cfg f (.mm slot below) ⟨scan, flA, some vf⟩ = .ok none) ∧
    (gS0 ++ payload ≠ [] →
      ∃ (k fp : Nat) (grpU : List DbEntry) (slot' : Option (Nat × Nat))
        (gS' restF : List DbEntry) (n' : Nat) (it' : BIter)
        (scan' : BuildScan) (vf' : VFlusher) (flF : Flusher),
        gS0 ++ payload = grpU ++ (gS' ++ restF) ∧ grpU ≠ [] ∧
        (∀ f, (gS0 ++ payload).length + 3 + h ≤ f →
          biterNext c cfg f (.mm slot below) ⟨scan, fl, some vf⟩ =
            .ok (some ((k, fp), .mm slot' it', ⟨scan', flF, some vf'⟩))) ∧
        fl.Ext flF ∧ fl.fpos ≤ flF.fpos ∧ FlWF c cfg flF ∧
        MTree c cfg flF (h + 1) (Entry.MM k fp) grpU ∧ fp < flF.fpos ∧
        SlotM c cfg h flF slot' gS' ∧
        MStr c cfg h n' flF it' scan' vf' restF ∧
        n' + slotCount slot' + 1 ≤ n + slotCount slot ∧
        (slot' = none → gS' = [] ∧ restF = [] ∧ n' = 0) ∧
        (∀ p, slot' = some p →
          n' + slotCount slot' + 2 ≤ n + slotCount slot)) := by
  intro n below scan vf payload gS0 slot flb fl hM hslot hwf hextb hfleb
  constructor
  · intro hemp flA f hf
    rw [List.append_eq_nil] at hemp
    obtain ⟨hg0, hpay0⟩ := hemp
    cases slot with
    | some p =>
      obtain ⟨k0, fp0⟩ := p
      exact absurd hg0 hslot.1
    | none =>
      subst hpay0
      have hnoneL := MStr.exhausted c cfg h n flb below scan vf hM fl hwf
        hextb hfleb
      obtain ⟨f1, rfl⟩ : ∃ f1, f = f1 + 1 := ⟨f - 1, by omega⟩
      apply biterNext_mm_of_loop_none
      rw [mmLoop_first]
      have hpull : mmPull (biterNext c cfg f1) none below
          ⟨scan, flA, some vf⟩ = .ok none := hnoneL flA f1 (by omega)
      rw [hpull]
      simp [mmLoopBody]
  · intro hne
    cases slot with
    | some p =>
      obtain ⟨k0, fp0⟩ := p
      obtain ⟨hg0ne, htree0, hfp0⟩ := hslot
      have hMb := MStr.base_ext c cfg h n flb fl below scan vf payload hextb
        hfleb hM
      obtain ⟨ments, grpsF, slot', gS', restF, n', cnt, curr', it', scan',
        vf', fl', heqA, hcntEq, hpayA, hextA, hfleA, hwfA, hMA, hslotA,
        hconsA, hnoneA, hcurrA, hgrpsA, hge1A, htreeA, hwfF, hfpF⟩ :=
        mmAccept c cfg hm2 hmmfit h n below scan vf payload gS0 k0 fp0 fl
          hMb hwf hg0ne htree0 hfp0
      have hg0l : 1 ≤ gS0.length := List.length_pos.mpr hg0ne
      have hlenU : (gS0 ++ payload).length = gS0.length + payload.length :=
        List.length_append _ _
      have hnov : ¬ (1 + (c.encEntry (Entry.MM k0 fp0)).length >
          cfg.m_blocksize - 1) := by
        have h1 := hmmfit k0 fp0
        have h2 := Nat.div_le_self (cfg.m_blocksize - 2) 2
        omega
      have hloop : ∀ f1, (gS0 ++ payload).length + 2 + h ≤ f1 →
          mmLoop c cfg (biterNext c cfg f1) (f1 + 1) (some (k0, fp0)) below
            ⟨scan, fl, some vf⟩ none none 0 [] 1 =
            .ok (some (k0, curr', cnt, Entry.MM k0 fp0 :: ments, slot', it',
              ⟨scan', fl', some vf'⟩)) := by
        intro f1 hf1
        rw [mmLoop_first]
        have hpull : mmPull (biterNext c cfg f1) (some (k0, fp0)) below
            ⟨scan, fl, some vf⟩ =
            .ok (some ((k0, fp0), below, ⟨scan, fl, some vf⟩)) := rfl
        rw [hpull]
        simp only [mmLoopBody, Option.getD_none, List.nil_append,
          Nat.zero_add]
        rw [if_neg hnov]
        exact heqA f1 f1 (by omega) (by omega)
      by_cases hc1 : cnt > 1
      · refine ⟨k0, fl'.fpos, gS0 ++ grpsF, slot', gS', restF, n', it',
          scan', vf',
          fl'.flush c ⟨fl'.fpos, BKind.m, cfg.m_blocksize,
            Entry.MM k0 fp0 :: ments⟩,
          ?_, fun hq => hg0ne (List.append_eq_nil.mp hq).1, ?_,
          hextA.trans (Flusher.Ext.flush c fl' _),
          le_trans hfleA (le_of_lt hfpF), hwfF, htreeA, hfpF,
          hslotA.mslot_ext (Flusher.Ext.flush c fl' _) (le_of_lt hfpF),
          MStr.base_ext c cfg h n' fl'
            (fl'.flush c ⟨fl'.fpos, BKind.m, cfg.m_blocksize,
              Entry.MM k0 fp0 :: ments⟩) it' scan' vf' restF
            (Flusher.Ext.flush c fl' _) (le_of_lt hfpF) hMA,
          by show n' + slotCount slot' + 1 ≤ n + 1; omega, hnoneA, ?_⟩
        · rw [hpayA]
          exact (List.append_assoc _ _ _).symm
        · intro f hf
          obtain ⟨f1, rfl⟩ : ∃ f1, f = f1 + 1 := ⟨f - 1, by omega⟩
          exact biterNext_mm_flush c cfg f1 _ _ _ (hloop f1 (by omega)) hc1
        · intro pq hpq
          have := hge1A pq hpq
          obtain ⟨kq, fq⟩ := pq
          have hsc : slotCount slot' = 1 := by rw [hpq]; rfl
          show n' + slotCount slot' + 2 ≤ n + 1
          omega
      · have hments : ments = [] := by
          cases hq : ments with
          | nil => rfl
          | cons x l =>
            rw [hq] at hcntEq
            simp only [List.length_cons] at hcntEq
            omega
        have hsn : slot' = none := by
          cases hq : slot' with
          | none => rfl
          | some pq =>
            rw [hq] at hcntEq
            simp only [slotCount] at hcntEq
            omega
        subst hments
        subst hsn
        obtain ⟨hgS, hrestF, hn'⟩ := hnoneA rfl
        subst hgS
        subst hrestF
        subst hn'
        have hcurr : curr' = some fp0 := hcurrA rfl rfl
        have hgrpsF : grpsF = [] := hgrpsA rfl
        subst hgrpsF
        subst hcurr
        have hpay0 : payload = [] := by simpa using hpayA
        refine ⟨k0, fp0, gS0, none, [], [], 0, it', scan', vf', fl', ?_,
          hg0ne, ?_, hextA, hfleA, hwfA, ?_, ?_, rfl, hMA,
          by show 0 + 0 + 1 ≤ n + 1; omega, fun _ => ⟨rfl, rfl, rfl⟩,
          fun pq hpq => absurd hpq (by simp)⟩
        · simp [hpay0]
        · intro f hf
          obtain ⟨f1, rfl⟩ : ∃ f1, f = f1 + 1 := ⟨f - 1, by omega⟩
          exact biterNext_mm_forward c cfg f1 _ _ _ (hloop f1 (by omega)) hc1
        · exact MTree.succ_of (htree0.tree_ext hextA)
        · exact lt_of_lt_of_le hfp0 hfleA
    | none =>
      have hg0 : gS0 = [] := hslot
      subst hg0
      simp only [List.nil_append] at hne ⊢
      obtain ⟨n1, hn1, hstep⟩ := MStr.progress c cfg h n flb below scan vf
        payload hM hne
      obtain ⟨grp, rest, k1, fp1, it1, scan1, vf1, fl1, hpay, hgrp, heqY,
        hext1, hfle1, hwf1, htree1, hfp1, hM1⟩ := hstep fl hwf hextb hfleb
      have hgl : 1 ≤ grp.length := List.length_pos.mpr hgrp
      have hplen : payload.length = grp.length + rest.length := by
        rw [hpay]; simp
      obtain ⟨ments, grpsF, slot', gS', restF, n', cnt, curr', it', scan',
        vf', fl', heqA, hcntEq, hpayA, hextA, hfleA, hwfA, hMA, hslotA,
        hconsA, hnoneA, hcurrA, hgrpsA, hge1A, htreeA, hwfF, hfpF⟩ :=
        mmAccept c cfg hm2 hmmfit h n1 it1 scan1 vf1 rest grp k1 fp1 fl1
          hM1 hwf1 hgrp htree1 hfp1
      have hnov : ¬ (1 + (c.encEntry (Entry.MM k1 fp1)).length >
          cfg.m_blocksize - 1) := by
        have h1 := hmmfit k1 fp1
        have h2 := Nat.div_le_self (cfg.m_blocksize - 2) 2
        omega
      have hloop : ∀ f1A, payload.length + 2 + h ≤ f1A →
          mmLoop c cfg (biterNext c cfg f1A) (f1A + 1) none below
            ⟨scan, fl, some vf⟩ none none 0 [] 1 =
            .ok (some (k1, curr', cnt, Entry.MM k1 fp1 :: ments, slot', it',
              ⟨scan', fl', some vf'⟩)) := by
        intro f1A hf1
        rw [mmLoop_first]
        have hpull : mmPull (biterNext c cfg f1A) none below
            ⟨scan, fl, some vf⟩ =
            .ok (some ((k1, fp1), it1, ⟨scan1, fl1, some vf1⟩)) :=
          heqY f1A (by omega)
        rw [hpull]
        simp only [mmLoopBody, Option.getD_none, List.nil_append,
          Nat.zero_add]
        rw [if_neg hnov]
        exact heqA f1A f1A (by omega) (by omega)
      by_cases hc1 : cnt > 1
      · refine ⟨k1, fl'.fpos, grp ++ grpsF, slot', gS', restF, n', it',
          scan', vf',
          fl'.flush c ⟨fl'.fpos, BKind.m, cfg.m_blocksize,
            Entry.MM k1 fp1 :: ments⟩,
          ?_, fun hq => hgrp (List.append_eq_nil.mp hq).1, ?_,
          (hext1.trans hextA).trans (Flusher.Ext.flush c fl' _),
          le_trans (le_trans hfle1 hfleA) (le_of_lt hfpF), hwfF, htreeA,
          hfpF,
          hslotA.mslot_ext (Flusher.Ext.flush c fl' _) (le_of_lt hfpF),
          MStr.base_ext c cfg h n' fl'
            (fl'.flush c ⟨fl'.fpos, BKind.m, cfg.m_blocksize,
              Entry.MM k1 fp1 :: ments⟩) it' scan' vf' restF
            (Flusher.Ext.flush c fl' _) (le_of_lt hfpF) hMA,
          by show n' + slotCount slot' + 1 ≤ n + 0; omega, hnoneA, ?_⟩
        · rw [hpay, hpayA]
          exact (List.append_assoc _ _ _).symm
        · intro f hf
          obtain ⟨f1A, rfl⟩ : ∃ f1A, f = f1A + 1 := ⟨f - 1, by omega⟩
          exact biterNext_mm_flush c cfg f1A _ _ _ (hloop f1A (by omega)) hc1
        · intro pq hpq
          have := hge1A pq hpq
          obtain ⟨kq, fq⟩ := pq
          have hsc : slotCount slot' = 1 := by rw [hpq]; rfl
          show n' + slotCount slot' + 2 ≤ n + 0
          omega
      · have hments : ments = [] := by
          cases hq : ments with
          | nil => rfl
          | cons x l =>
            rw [hq] at hcntEq
            simp only [List.length_cons] at hcntEq
            omega
        have hsn : slot' = none := by
          cases hq : slot' with
          | none => rfl
          | some pq =>
            rw [hq] at hcntEq
            simp only [slotCount] at hcntEq
            omega
        subst hments
        subst hsn
        obtain ⟨hgS, hrestF, hn'⟩ := hnoneA rfl
        subst hgS
        subst hrestF
        subst hn'
        have hcurr : curr' = some fp1 := hcurrA rfl rfl
        have hgrpsF : grpsF = [] := hgrpsA rfl
        subst hgrpsF
        subst hcurr
        have hrest0 : rest = [] := by simpa using hpayA
        refine ⟨k1, fp1, grp, none, [], [], 0, it', scan', vf', fl', ?_,
          hgrp, ?_, hext1.trans hextA, le_trans hfle1 hfleA, hwfA, ?_, ?_,
          rfl, hMA, by show 0 + 0 + 1 ≤ n + 0; omega,
          fun _ => ⟨rfl, rfl, rfl⟩, fun pq hpq => absurd hpq (by simp)⟩
        · simp [hpay, hrest0]
        · intro f hf
          obtain ⟨f1A, rfl⟩ : ∃ f1A, f = f1A + 1 := ⟨f - 1, by omega⟩
          exact biterNext_mm_forward c cfg f1A _ _ _ (hloop f1A (by omega)) hc1
        · exact MTree.succ_of (htree1.tree_ext hextA)
        · exact lt_of_lt_of_le hfp1 hfleA

/-- A `BuildMM` level over a lower stream of at most `a` pending pairs
(slot included) realizes a stream one level higher with at most
`(a + 1) / 2` yields: every flushed m-block consumes at least two pairs. -/
theorem mmStream (c : Codec) (cfg : Config) (hm2 : 2 ≤ cfg.m_blocksize)
    (hmmfit : ∀ k fp, (c.encEntry (Entry.MM k fp)).length ≤
      (cfg.m_blocksize - 2) / 2) (h : Nat) :
    ∀ (A : Nat) (a n : Nat) (slot : Option (Nat × Nat)) (below : BIter)
      (scan : BuildScan) (vf : VFlusher) (payload gS0 : List DbEntry)
      (flb fl : Flusher),
    a ≤ A → n + slotCount slot ≤ a →
    MStr c cfg h n flb below scan vf payload →
    SlotM c cfg h fl slot gS0 → FlWF c cfg fl → flb.Ext fl →
    flb.fpos ≤ fl.fpos →
    MStr c cfg (h + 1) ((a + 1) / 2) fl (.mm slot below) scan vf
      (gS0 ++ payload) := by
  intro A
  induction A with
  | zero =>
    intro a n slot below scan vf payload gS0 flb fl hA hcount hM hslot hwf
      hextb hfleb
    have hsn : slot = none := by
      cases slot with
      | none => rfl
      | some p => simp [slotCount] at hcount; omega
    subst hsn
    have hg0 : gS0 = [] := hslot
    subst hg0
    have hn : n = 0 := by simp only [slotCount] at hcount; omega
    subst hn
    have hpay : payload = [] := by
      simp only [MStr] at hM
      exact hM.1
    have ha0 : a = 0 := by omega
    subst ha0
    simp only [MStr]
    refine ⟨by simp [hpay], ?_⟩
    intro flA f hf
    exact (mmNext_call c cfg hm2 hmmfit h 0 below scan vf payload [] none
      flb fl hM rfl hwf hextb hfleb).1 (by simp [hpay]) flA f (by omega)
  | succ A ih =>
    intro a n slot below scan vf payload gS0 flb fl hA hcount hM hslot hwf
      hextb hfleb
    by_cases hne : gS0 ++ payload = []
    · have h0 : MStr c cfg (h + 1) 0 fl (.mm slot below) scan vf
          (gS0 ++ payload) := by
        simp only [MStr]
        refine ⟨hne, ?_⟩
        intro flA f hf
        exact (mmNext_call c cfg hm2 hmmfit h n below scan vf payload gS0
          slot flb fl hM hslot hwf hextb hfleb).1 hne flA f (by omega)
      exact MStr.mono_count c cfg (h + 1) _ 0 (by omega) fl _ scan vf _ h0
    · have hmge : 1 ≤ n + slotCount slot := by
        cases slot with
        | some p => simp [slotCount]
        | none =>
          have hg0 : gS0 = [] := hslot
          subst hg0
          simp only [List.nil_append] at hne
          cases n with
          | zero =>
            simp only [MStr] at hM
            exact absurd hM.1 hne
          | succ n0 => simp [slotCount]
      have ha1 : 1 ≤ a := by omega
      have hy : (a + 1) / 2 = ((a + 1) / 2 - 1) + 1 := by omega
      rw [hy]
      simp only [MStr]
      refine Or.inr ?_
      intro fl1 hwf1 hext1 hfle1
      obtain ⟨k, fp, grpU, slot', gS', restF, n', it', scan', vf', flF,
        hsplit, hgrpU, heqY, hextY, hfleY, hwfY, htreeY, hfpY, hslotY, hMY,
        hmeas1, hnoneY, hmeas2⟩ :=
        (mmNext_call c cfg hm2 hmmfit h n below scan vf payload gS0 slot flb
          fl1 hM (hslot.mslot_ext hext1 hfle1) hwf1 (hextb.trans hext1)
          (le_trans hfleb hfle1)).2 hne
      refine ⟨grpU, gS' ++ restF, k, fp, .mm slot' it', scan', vf', flF,
        hsplit, hgrpU, ?_, hextY, hfleY, hwfY, htreeY, hfpY, ?_⟩
      · intro f hf
        exact heqY f (by omega)
      · cases slot' with
        | none =>
          obtain ⟨hgS, hrestF, hn'⟩ := hnoneY rfl
          subst hgS
          subst hrestF
          subst hn'
          have h0 : MStr c cfg (h + 1) 0 flF (.mm none it') scan' vf'
              ([] ++ []) := by
            simp only [MStr]
            refine ⟨by simp, ?_⟩
            intro flA f hf
            exact (mmNext_call c cfg hm2 hmmfit h 0 it' scan' vf' [] [] none
              flF flF hMY rfl hwfY (Flusher.Ext.refl _) (le_refl _)).1
              (by simp) flA f (by omega)
          exact MStr.mono_count c cfg (h + 1) _ 0 (by omega) flF _ scan' vf'
            _ h0
        | some pq =>
          have hdrop := hmeas2 pq rfl
          have hscq : slotCount (some pq) = 1 := rfl
          have hrec := ih (a - 2) n' (some pq) it' scan' vf' restF gS' flF
            flF (by omega) (by omega) hMY hslotY hwfY (Flusher.Ext.refl _)
            (le_refl _)
          exact MStr.mono_count c cfg (h + 1) _ _ (by omega) flF _ scan' vf'
            _ hrec

theorem BuildScan.new_pending (src : List DbEntry) (sq : Nat) :
    (BuildScan.new src sq).pending = src := by
  simp [BuildScan.new, BuildScan.pending]

/-- Unfolding of `build_tree` under `delta_ok`. -/
theorem buildTree_eq (c : Codec) (cfg : Config) (src : List DbEntry)
    (hdelta : cfg.delta_ok = true) :
    buildTree c cfg src =
      match biterNext c cfg (src.length + 31) (initialTower 28)
        ⟨BuildScan.new src 0, ⟨0, []⟩, some ⟨0, []⟩⟩ with
      | .error e => .error e
      | .ok none => .error .Invalid
      | .ok (some ((_, root), _, st')) => .ok (root, st') := by
  unfold buildTree
  rw [hdelta]
  simp only [Bool.or_true, if_true]

/-- A build over a fitting source of at most `2 ^ 28` entries succeeds,
producing a well-formed store and a root m-block covering the whole
source. -/
theorem buildTree_spec (c : Codec) (cfg : Config)
    (hdelta : cfg.delta_ok = true) (hz2 : 2 ≤ cfg.z_blocksize)
    (hm2 : 2 ≤ cfg.m_blocksize)
    (hmzfit : ∀ k fp, (c.encEntry (Entry.MZ k fp)).length ≤
      (cfg.m_blocksize - 2) / 2)
    (hmmfit : ∀ k fp, (c.encEntry (Entry.MM k fp)).length ≤
      (cfg.m_blocksize - 2) / 2)
    (src : List DbEntry) (hzf : ∀ e ∈ src, zfit c cfg e)
    (hsrc : src.length ≤ 2 ^ 28) (hne : src ≠ []) :
    ∃ (k root : Nat) (scanF : BuildScan) (vfF : VFlusher) (flF : Flusher),
      buildTree c cfg src = .ok (root, ⟨scanF, flF, some vfF⟩) ∧
      MTree c cfg flF 29 (Entry.MM k root) src ∧
      FlWF c cfg flF ∧ root < flF.fpos := by
  have hwf0 : FlWF c cfg ⟨0, []⟩ := fun b hb => absurd hb (List.not_mem_nil b)
  obtain ⟨m0, hm0le, hm0pos, hZ⟩ := zzStream c cfg hdelta hz2 src.length
    (BuildScan.new src 0) ⟨0, []⟩
    (by rw [BuildScan.new_pending])
    (by rw [BuildScan.new_pending]; exact hzf)
  rw [BuildScan.new_pending] at hm0le hZ
  have hM1 : MStr c cfg 1 (2 ^ 28) ⟨0, []⟩ (.mz none) (BuildScan.new src 0)
      ⟨0, []⟩ src := by
    have hstep := mzStream c cfg hz2 hm2 hmzfit (2 ^ 28) m0 none
      (BuildScan.new src 0) ⟨0, []⟩ src [] ⟨0, []⟩
      (by simp [slotCount]; omega) hZ rfl hwf0
    simpa using hstep
  have htower : ∀ j : Nat, j ≤ 28 →
      MStr c cfg (1 + j) (2 ^ (28 - j)) ⟨0, []⟩ (initialTower j)
        (BuildScan.new src 0) ⟨0, []⟩ src := by
    intro j
    induction j with
    | zero =>
      intro _
      simp only [show initialTower 0 = BIter.mz none from rfl, Nat.add_zero,
        Nat.sub_zero]
      exact hM1
    | succ j ihj =>
      intro hj
      have hprev := ihj (by omega)
      have hstep := mmStream c cfg hm2 hmmfit (1 + j) (2 ^ (28 - j))
        (2 ^ (28 - j)) (2 ^ (28 - j)) none (initialTower j)
        (BuildScan.new src 0) ⟨0, []⟩ src [] ⟨0, []⟩ ⟨0, []⟩
        (le_refl _) (by simp [slotCount]) hprev rfl hwf0
        (Flusher.Ext.refl _) (le_refl _)
      have hpow : (2 ^ (28 - j) + 1) / 2 = 2 ^ (28 - (j + 1)) := by
        have h1 : 28 - j = (28 - (j + 1)) + 1 := by omega
        rw [h1, pow_succ]
        omega
      have hh : 1 + j + 1 = 1 + (j + 1) := by omega
      rw [hpow, hh] at hstep
      have hit : initialTower (j + 1) = .mm none (initialTower j) := rfl
      rw [hit]
      simpa using hstep
  have htop := htower 28 (le_refl _)
  norm_num at htop
  rw [show (1 : Nat) = 0 + 1 from rfl] at htop
  simp only [MStr] at htop
  rcases htop with htop0 | hstep
  · exact absurd htop0.1 hne
  · obtain ⟨grp, rest, k, fp, it', scan', vf', fl', hpay, hgrp, heqY, hext',
      hfle', hwf', htree', hfp', hM0⟩ :=
      hstep ⟨0, []⟩ hwf0 (Flusher.Ext.refl _) (le_refl _)
    have hrest : rest = [] := hM0.1
    subst hrest
    rw [List.append_nil] at hpay
    subst hpay
    refine ⟨k, fp, scan', vf', fl', ?_, htree', hwf', hfp'⟩
    rw [buildTree_eq c cfg src hdelta]
    rw [heqY (src.length + 31) (by omega)]

theorem length_filter_mono {α : Type _} (p q : α → Bool)
    (himp : ∀ x, p x = true → q x = true) :
    ∀ (l : List α), (l.filter p).length ≤ (l.filter q).length := by
  intro l
  induction l with
  | nil => simp
  | cons x xs ih =>
    simp only [List.filter_cons]
    by_cases hp : p x = true
    · rw [if_pos hp, if_pos (himp x hp)]
      simp only [List.length_cons]
      omega
    · rw [if_neg hp]
      by_cases hq : q x = true
      · rw [if_pos hq]
        simp only [List.length_cons]
        omega
      · rw [if_neg hq]
        exact ih

theorem length_filter_lt {α : Type _} (p q : α → Bool)
    (himp : ∀ x, p x = true → q x = true) :
    ∀ (l : List α) (b : α), b ∈ l → q b = true → p b = false →
    (l.filter p).length < (l.filter q).length := by
  intro l
  induction l with
  | nil =>
    intro b hb
    exact absurd hb (List.not_mem_nil b)
  | cons x xs ih =>
    intro b hb hqb hpb
    simp only [List.filter_cons]
    rcases List.mem_cons.mp hb with hbq | hbq
    · subst hbq
      rw [if_neg (by simp [hpb]), if_pos hqb]
      simp only [List.length_cons]
      have := length_filter_mono p q himp xs
      omega
    · by_cases hp : p x = true
      · rw [if_pos hp, if_pos (himp x hp)]
        simp only [List.length_cons]
        have := ih b hbq hqb hpb
        omega
      · rw [if_neg hp]
        by_cases hq : q x = true
        · rw [if_pos hq]
          simp only [List.length_cons]
          have := ih b hbq hqb hpb
          omega
        · rw [if_neg hq]
          exact ih b hbq hqb hpb

theorem IsLeafFor.block_bound {c : Codec} {cfg : Config} {fl : Flusher}
    {e : Entry} {grp : List DbEntry} (hleaf : IsLeafFor c cfg fl e grp) :
    1 ≤ (fl.blocks.filter fun b' => decide (b'.fpos ≤ e.fposOf)).length := by
  obtain ⟨k, fp, b, he, hstore, h1, h2, h3, h4⟩ := hleaf
  subst he
  have hb := storeAt_mem hstore
  have hbfp := storeAt_fpos hstore
  have hmem : b ∈ fl.blocks.filter
      fun b' => decide (b'.fpos ≤ (Entry.MZ k fp).fposOf) := by
    rw [List.mem_filter]
    refine ⟨hb, ?_⟩
    simp [Entry.fposOf, hbfp]
  have := List.length_pos.mpr (List.ne_nil_of_mem hmem)
  omega

/-- Choose a uniform height for a block's subtrees, witnessed by the
member achieving the maximum. -/
theorem forall₂_mtree_max (c : Codec) (cfg : Config) (fl : Flusher)
    (S : Nat → Nat) :
    ∀ (es : List Entry) (grps : List (List DbEntry)),
    List.Forall₂ (fun e g => ∃ h', MTree c cfg fl h' e g ∧
      h' + 1 ≤ S e.fposOf) es grps →
    ∃ H, List.Forall₂ (MTree c cfg fl H) es grps ∧ (es = [] → H = 0) ∧
      (es ≠ [] → ∃ e', e' ∈ es ∧ H + 1 ≤ S e'.fposOf) := by
  intro es
  induction es with
  | nil =>
    intro grps hf
    rw [List.forall₂_nil_left_iff] at hf
    subst hf
    exact ⟨0, .nil, fun _ => rfl, fun hq => absurd rfl hq⟩
  | cons e es ih =>
    intro grps hf
    rw [List.forall₂_cons_left_iff] at hf
    obtain ⟨g, gs, ⟨h0, ht0, hb0⟩, hrest, rfl⟩ := hf
    obtain ⟨H, hfa, hH0, hbd⟩ := ih gs hrest
    refine ⟨max h0 H, ?_, ?_, ?_⟩
    · exact .cons (ht0.mono (le_max_left _ _))
        (hfa.imp (fun a b hab => hab.mono (le_max_right _ _)))
    · intro hq
      exact absurd hq (List.cons_ne_nil e es)
    intro _
    by_cases hc : H ≤ h0
    · refine ⟨e, List.mem_cons_self _ _, ?_⟩
      rw [Nat.max_eq_left hc]
      exact hb0
    · push_neg at hc
      by_cases hes : es = []
      · rw [hH0 hes] at hc
        omega
      · obtain ⟨e', he', hbe'⟩ := hbd hes
        refine ⟨e', List.mem_cons_of_mem _ he', ?_⟩
        rw [Nat.max_eq_right (le_of_lt hc)]
        exact hbe'

/-- Height normalization: every subtree cover admits a height strictly
bounded by the number of blocks at or below its position — children sit at
strictly smaller positions, so the structural height cannot exceed the
store depth. -/
theorem MTree.normalize (c : Codec) (cfg : Config) (fl : Flusher) :
    ∀ (h : Nat) (e : Entry) (grp : List DbEntry), MTree c cfg fl h e grp →
    ∃ h', MTree c cfg fl h' e grp ∧
      h' + 1 ≤
        (fl.blocks.filter fun b' => decide (b'.fpos ≤ e.fposOf)).length := by
  intro h
  induction h with
  | zero =>
    intro e grp ht
    refine ⟨0, ht, ?_⟩
    have hleaf : IsLeafFor c cfg fl e grp := by simpa only [MTree] using ht
    exact hleaf.block_bound
  | succ h0 ih =>
    intro e grp ht
    simp only [MTree] at ht
    rcases ht with hleaf | ⟨k, fp, b, grps, he, hstore, hkind, hne, hhead,
      hflat, hsub, hdesc⟩
    · exact ⟨0, by simpa only [MTree] using hleaf, hleaf.block_bound⟩
    · subst he
      have hsub' := hsub.imp (fun a b hab => ih a b hab)
      obtain ⟨H, hfa, hH0, hbd⟩ := forall₂_mtree_max c cfg fl
        (fun x => (fl.blocks.filter fun b' => decide (b'.fpos ≤ x)).length)
        b.entries grps hsub'
      obtain ⟨e', he'mem, hbe'⟩ := hbd hne
      refine ⟨H + 1, ?_, ?_⟩
      · simp only [MTree]
        exact Or.inr ⟨k, fp, b, grps, rfl, hstore, hkind, hne, hhead, hflat,
          hfa, hdesc⟩
      · have hlt : e'.fposOf < fp := hdesc e' he'mem
        have hblock := storeAt_mem hstore
        have hbfp := storeAt_fpos hstore
        have hstrict := length_filter_lt
          (fun b' => decide (b'.fpos ≤ e'.fposOf))
          (fun b' => decide (b'.fpos ≤ fp))
          (fun x hx => by
            simp only [decide_eq_true_eq] at hx ⊢
            omega)
          fl.blocks b hblock (by simp [hbfp])
          (by simp only [hbfp, decide_eq_false_iff_not]; omega)
        simp only [Entry.fposOf]
        omega

/-! ### Reader descent: list search support -/

theorem forall₂_get {α β : Type _} {R : α → β → Prop} :
    ∀ (l1 : List α) (l2 : List β), List.Forall₂ R l1 l2 →
    ∀ (n : Nat) (a : α), l1.get? n = some a →
    ∃ b, l2.get? n = some b ∧ R a b := by
  intro l1
  induction l1 with
  | nil =>
    intro l2 _ n a ha
    simp at ha
  | cons x xs ih =>
    intro l2 hf n a ha
    rw [List.forall₂_cons_left_iff] at hf
    obtain ⟨b, l2t, hR, hF, rfl⟩ := hf
    cases n with
    | zero =>
      rw [List.get?_cons_zero] at ha
      have hx : x = a := by simpa using ha
      subst hx
      exact ⟨b, List.get?_cons_zero, hR⟩
    | succ n =>
      rw [List.get?_cons_succ] at ha
      simp only [List.get?_cons_succ]
      exact ih l2t hF n a ha

theorem get?_drop_cons {α : Type _} :
    ∀ (l : List α) (n : Nat) (a : α), l.get? n = some a →
    l.drop n = a :: l.drop (n + 1) := by
  intro l
  induction l with
  | nil =>
    intro n a ha
    simp at ha
  | cons x xs ih =>
    intro n a ha
    cases n with
    | zero =>
      rw [List.get?_cons_zero] at ha
      have hx : x = a := by simpa using ha
      subst hx
      rfl
    | succ n =>
      rw [List.get?_cons_succ] at ha
      simp only [List.drop_succ_cons]
      exact ih n a ha

/-- On a strictly sorted list, the count of elements below the query is an
insertion point: position `j` holds an element below `q` exactly when `j`
is below the count. -/
theorem sorted_countP (q : Nat) :
    ∀ (ks : List Nat), ks.Pairwise (fun a b => a < b) →
    ∀ (j : Nat) (k : Nat), ks.get? j = some k →
    (j < ks.countP (fun x => decide (x < q)) ↔ k < q) := by
  intro ks
  induction ks with
  | nil =>
    intro _ j k hk
    simp at hk
  | cons a l ih =>
    intro hp j k hk
    rw [List.pairwise_cons] at hp
    obtain ⟨ha, hl⟩ := hp
    rw [List.countP_cons]
    by_cases haq : a < q
    · rw [if_pos (decide_eq_true haq)]
      cases j with
      | zero =>
        have hx : a = k := by simpa using hk
        subst hx
        constructor
        · intro _
          exact haq
        · intro _
          omega
      | succ j =>
        rw [List.get?_cons_succ] at hk
        have hiff := ih hl j k hk
        constructor
        · intro h
          exact hiff.mp (by omega)
        · intro h
          have := hiff.mpr h
          omega
    · have hl0 : l.countP (fun x => decide (x < q)) = 0 := by
        rw [List.countP_eq_zero]
        intro b hb
        have := ha b hb
        simp only [decide_eq_true_eq]
        omega
      rw [if_neg (by simpa using haq), hl0]
      cases j with
      | zero =>
        have hx : a = k := by simpa using hk
        subst hx
        exact ⟨fun h => absurd h (by omega), fun h => absurd h haq⟩
      | succ j =>
        rw [List.get?_cons_succ] at hk
        have hkm : k ∈ l := List.get?_mem hk
        have := ha k hkm
        exact ⟨fun h => absurd h (by omega), fun h => absurd h (by omega)⟩

theorem pairwise_head_le {k : Nat} {ks : List Nat}
    (hp : (k :: ks).Pairwise (fun a b => a < b)) :
    ∀ x ∈ k :: ks, k ≤ x := by
  rw [List.pairwise_cons] at hp
  intro x hx
  rcases List.mem_cons.mp hx with rfl | hx
  · exact le_refl x
  · exact le_of_lt (hp.1 x hx)

theorem pairwise_get?_lt :
    ∀ (ks : List Nat), ks.Pairwise (fun a b => a < b) →
    ∀ (j j' : Nat) (a b : Nat), j < j' → ks.get? j = some a →
    ks.get? j' = some b → a < b := by
  intro ks
  induction ks with
  | nil =>
    intro _ j j' a b _ ha
    simp at ha
  | cons x xs ih =>
    intro hp j j' a b hjj ha hb
    rw [List.pairwise_cons] at hp
    cases j with
    | zero =>
      have hx : x = a := by simpa using ha
      subst hx
      obtain ⟨j2, rfl⟩ : ∃ j2, j' = j2 + 1 := ⟨j' - 1, by omega⟩
      rw [List.get?_cons_succ] at hb
      exact hp.1 b (List.get?_mem hb)
    | succ j =>
      obtain ⟨j2, rfl⟩ : ∃ j2, j' = j2 + 1 := ⟨j' - 1, by omega⟩
      rw [List.get?_cons_succ] at ha hb
      exact ih hp.2 j j2 a b (by omega) ha hb

theorem flatten_singletons {α : Type _} : ∀ (l : List α),
    (l.map fun a => [a]).flatten = l := by
  intro l
  induction l with
  | nil => rfl
  | cons x xs ih => simp [ih]

theorem find?_append_left_none {α : Type _} (p : α → Bool) :
    ∀ (l1 l2 : List α), l1.find? p = none → (l1 ++ l2).find? p = l2.find? p := by
  intro l1
  induction l1 with
  | nil =>
    intro l2 _
    rfl
  | cons a l ih =>
    intro l2 hn
    by_cases hp : p a = true
    · rw [List.find?_cons_of_pos _ hp] at hn
      exact absurd hn (by simp)
    · rw [List.find?_cons_of_neg _ (by simpa using hp)] at hn
      rw [List.cons_append, List.find?_cons_of_neg _ (by simpa using hp)]
      exact ih l2 hn

theorem find?_append_left_some {α : Type _} (p : α → Bool) :
    ∀ (l1 l2 : List α) (x : α), l1.find? p = some x →
    (l1 ++ l2).find? p = some x := by
  intro l1
  induction l1 with
  | nil =>
    intro l2 x h
    simp at h
  | cons a l ih =>
    intro l2 x h
    by_cases hp : p a = true
    · rw [List.find?_cons_of_pos _ hp] at h
      rw [List.cons_append, List.find?_cons_of_pos _ hp]
      exact h
    · rw [List.find?_cons_of_neg _ (by simpa using hp)] at h
      rw [List.cons_append, List.find?_cons_of_neg _ (by simpa using hp)]
      exact ih l2 x h

theorem forall₂_head_mem :
    ∀ (es : List Entry) (grps : List (List DbEntry)),
    List.Forall₂ (fun (e : Entry) (g : List DbEntry) =>
      g ≠ [] ∧ g.head?.map DbEntry.key = some e.key) es grps →
    ∀ e ∈ es, e.key ∈ grps.flatten.map DbEntry.key := by
  intro es
  induction es with
  | nil =>
    intro grps _ e he
    exact absurd he (List.not_mem_nil e)
  | cons x xs ih =>
    intro grps hf e he
    rw [List.forall₂_cons_left_iff] at hf
    obtain ⟨g, gs, ⟨hgne, hghead⟩, hrest, rfl⟩ := hf
    simp only [List.flatten_cons, List.map_append, List.mem_append]
    rcases List.mem_cons.mp he with rfl | he
    · left
      obtain ⟨a, gt, rfl⟩ := List.exists_cons_of_ne_nil hgne
      simp only [List.head?_cons, Option.map_some] at hghead
      have hax : a.key = e.key := by simpa using hghead
      rw [← hax]
      exact List.mem_map_of_mem DbEntry.key (List.mem_cons_self a gt)
    · right
      exact ih gs hrest e he

/-- The keys of the search entries (heads of their covered groups) inherit
strict ascending order from the flattened source segment. -/
theorem heads_sorted :
    ∀ (es : List Entry) (grps : List (List DbEntry)),
    List.Forall₂ (fun (e : Entry) (g : List DbEntry) =>
      g ≠ [] ∧ g.head?.map DbEntry.key = some e.key) es grps →
    (grps.flatten.map DbEntry.key).Pairwise (fun a b => a < b) →
    (es.map Entry.key).Pairwise (fun a b => a < b) := by
  intro es
  induction es with
  | nil =>
    intro grps _ _
    exact List.Pairwise.nil
  | cons x xs ih =>
    intro grps hf hs
    rw [List.forall₂_cons_left_iff] at hf
    obtain ⟨g, gs, ⟨hgne, hghead⟩, hrest, rfl⟩ := hf
    simp only [List.flatten_cons, List.map_append] at hs
    rw [List.pairwise_append] at hs
    obtain ⟨hg, hgs, hcross⟩ := hs
    simp only [List.map_cons]
    rw [List.pairwise_cons]
    constructor
    · intro b hb
      obtain ⟨e2, he2, rfl⟩ := List.mem_map.mp hb
      have hmem : e2.key ∈ gs.flatten.map DbEntry.key :=
        forall₂_head_mem xs gs hrest e2 he2
      obtain ⟨a, gt, rfl⟩ := List.exists_cons_of_ne_nil hgne
      simp only [List.head?_cons, Option.map_some] at hghead
      have hax : a.key = x.key := by simpa using hghead
      have := hcross a.key
        (List.mem_map_of_mem DbEntry.key (List.mem_cons_self a gt)) e2.key hmem
      rw [hax] at this
      exact this
    · exact ih gs hrest hgs

/-- The chosen child: when the search settles on offset `off` with a key at
most the target and the next key (if any) above it, every match of the
target in the flattened segment lies in group `off`. -/
theorem core_locate (q : Nat) (es : List Entry) (grps : List (List DbEntry))
    (hf : List.Forall₂ (fun (e : Entry) (g : List DbEntry) =>
      g ≠ [] ∧ g.head?.map DbEntry.key = some e.key) es grps)
    (hs : (grps.flatten.map DbEntry.key).Pairwise (fun a b => a < b))
    (off : Nat) (e : Entry) (he : es.get? off = some e)
    (hlow : e.key ≤ q)
    (hhigh : ∀ e1, es.get? (off + 1) = some e1 → q < e1.key) :
    ∃ g, grps.get? off = some g ∧
      grps.flatten.find? (fun e' => e'.key == q) =
        g.find? (fun e' => e'.key == q) := by
  obtain ⟨g, hg, hgne, hghead⟩ := forall₂_get es grps hf off e he
  refine ⟨g, hg, ?_⟩
  have hdrop := get?_drop_cons grps off g hg
  have hsplit : grps = grps.take off ++ g :: grps.drop (off + 1) := by
    conv_lhs => rw [← List.take_append_drop off grps]
    rw [hdrop]
  have hflat : grps.flatten =
      (grps.take off).flatten ++ (g ++ (grps.drop (off + 1)).flatten) := by
    conv_lhs => rw [hsplit]
    rw [List.flatten_append, List.flatten_cons]
  rw [hflat] at hs ⊢
  rw [List.map_append, List.pairwise_append] at hs
  obtain ⟨hsA, hsRest, hcrossA⟩ := hs
  have hA : (grps.take off).flatten.find? (fun e' => e'.key == q) = none := by
    rw [List.find?_eq_none]
    intro x hx
    simp only [beq_iff_eq]
    have hxk : x.key ∈ (grps.take off).flatten.map DbEntry.key :=
      List.mem_map_of_mem _ hx
    have hek : e.key ∈ (g ++ (grps.drop (off + 1)).flatten).map DbEntry.key := by
      obtain ⟨a, gt, rfl⟩ := List.exists_cons_of_ne_nil hgne
      simp only [List.head?_cons, Option.map_some] at hghead
      have hax : a.key = e.key := by simpa using hghead
      rw [← hax]
      exact List.mem_map_of_mem _ (by simp)
    have := hcrossA x.key hxk e.key hek
    omega
  have hD : (grps.drop (off + 1)).flatten.find? (fun e' => e'.key == q) = none := by
    rw [List.find?_eq_none]
    intro y hy
    simp only [beq_iff_eq]
    rcases hnext : es.get? (off + 1) with _ | e1
    · exfalso
      rw [List.get?_eq_none] at hnext
      have hlen := List.Forall₂.length_eq hf
      have hnil : grps.drop (off + 1) = [] := List.drop_eq_nil_of_le (by omega)
      rw [hnil] at hy
      simp at hy
    · obtain ⟨g1, hg1, hg1ne, hg1head⟩ := forall₂_get es grps hf (off + 1) e1 hnext
      have hq1 := hhigh e1 hnext
      have hdrop1 := get?_drop_cons grps (off + 1) g1 hg1
      obtain ⟨a1, g1t, rfl⟩ := List.exists_cons_of_ne_nil hg1ne
      simp only [List.head?_cons, Option.map_some] at hg1head
      have ha1 : a1.key = e1.key := by simpa using hg1head
      have hDflat : (grps.drop (off + 1)).flatten =
          a1 :: (g1t ++ (grps.drop (off + 2)).flatten) := by
        rw [hdrop1, List.flatten_cons]
        rfl
      rw [List.map_append, List.pairwise_append] at hsRest
      have hsD := hsRest.2.1
      rw [hDflat] at hy hsD
      simp only [List.map_cons] at hsD
      have hge := pairwise_head_le hsD y.key (List.mem_map_of_mem _ hy)
      omega
  rw [find?_append_left_none _ _ _ hA]
  cases hfg : g.find? (fun e' => e'.key == q) with
  | none =>
    rw [find?_append_left_none _ _ _ hfg]
    exact hD
  | some x =>
    exact find?_append_left_some _ _ _ _ hfg

/-- Reading back a flushed block with exactly its resize size succeeds and
returns its decoded entries. -/
theorem readBlockAt_store (c : Codec) (cfg : Config) (fl : Flusher)
    (fp : Nat) (b : FBlock) (hwf : FlWF c cfg fl)
    (hstore : storeAt fl fp = some b) :
    readBlockAt c fl fl.fpos fp b.bsize = .ok b.entries := by
  have hmem := storeAt_mem hstore
  have hfp := storeAt_fpos hstore
  obtain ⟨h1, h2, h3, _, _⟩ := hwf b hmem
  unfold readBlockAt
  rw [if_pos (by omega)]
  unfold storeAt at hstore
  rw [hstore]
  simp only [if_pos h2]

theorem binarySearchKey_eq (es : List Entry) (q : Nat) :
    binarySearchKey es q =
      ((match es.get? (es.countP fun e => decide (e.key < q)) with
        | some e => decide (e.key = q)
        | none => false),
       es.countP fun e => decide (e.key < q)) := by
  unfold binarySearchKey
  cases hgi : es.get? (es.countP fun e => decide (e.key < q)) <;>
    simp only [hgi]

/-- The step taken by the reader's binary search on one block: either no
offset is selected and the target misses the whole flattened segment, or
the selected offset's group contains every possible match. -/
theorem search_step (q : Nat) (es : List Entry) (grps : List (List DbEntry))
    (hf : List.Forall₂ (fun (e : Entry) (g : List DbEntry) =>
      g ≠ [] ∧ g.head?.map DbEntry.key = some e.key) es grps)
    (hs : (grps.flatten.map DbEntry.key).Pairwise (fun a b => a < b)) :
    ((if (binarySearchKey es q).1 then some (binarySearchKey es q).2
      else if (binarySearchKey es q).2 = 0 then none
      else some ((binarySearchKey es q).2 - 1) : Option Nat) = none →
      grps.flatten.find? (fun e' => e'.key == q) = none) ∧
    (∀ off, ((if (binarySearchKey es q).1 then some (binarySearchKey es q).2
      else if (binarySearchKey es q).2 = 0 then none
      else some ((binarySearchKey es q).2 - 1) : Option Nat) = some off) →
      ∃ e g, es.get? off = some e ∧ grps.get? off = some g ∧
        grps.flatten.find? (fun e' => e'.key == q) =
          g.find? (fun e' => e'.key == q)) := by
  have hsnd : (binarySearchKey es q).2 = es.countP fun e => decide (e.key < q) := by
    rw [binarySearchKey_eq]
  have hkeysorted := heads_sorted es grps hf hs
  have hcnt : (es.map Entry.key).countP (fun x => decide (x < q)) =
      es.countP fun e => decide (e.key < q) := by
    rw [List.countP_map]
    rfl
  have hlt : ∀ (j : Nat) (e : Entry), es.get? j = some e →
      (j < es.countP (fun e => decide (e.key < q)) ↔ e.key < q) := by
    intro j e hj
    have hm : (es.map Entry.key).get? j = some e.key := by
      rw [List.get?_map, hj]
      rfl
    have := sorted_countP q (es.map Entry.key) hkeysorted j e.key hm
    rwa [hcnt] at this
  constructor
  · intro hopt
    by_cases hfst : (binarySearchKey es q).1 = true
    · rw [if_pos hfst] at hopt
      exact absurd hopt (by simp)
    · rw [if_neg hfst] at hopt
      by_cases hi0 : (binarySearchKey es q).2 = 0
      · rw [hsnd] at hi0
        rw [List.find?_eq_none]
        intro x hx
        simp only [beq_iff_eq]
        cases hes : es with
        | nil =>
          rw [hes] at hf
          rw [List.forall₂_nil_left_iff] at hf
          rw [hf] at hx
          simp at hx
        | cons e0 est =>
          have h0 : es.get? 0 = some e0 := by
            rw [hes]
            rfl
          have hq0 : ¬ e0.key < q := by
            intro hc
            have := (hlt 0 e0 h0).mpr hc
            omega
          have hgi : es.get? (es.countP fun e => decide (e.key < q)) = some e0 := by
            rw [hi0]
            exact h0
          have hfe : (binarySearchKey es q).1 = decide (e0.key = q) := by
            rw [binarySearchKey_eq]
            simp only [hgi]
          rw [hfe] at hfst
          have hne : e0.key ≠ q := by simpa using hfst
          rw [hes] at hf
          rw [List.forall₂_cons_left_iff] at hf
          obtain ⟨g0, gs, ⟨hg0ne, hg0head⟩, hrest, rfl⟩ := hf
          obtain ⟨a0, g0t, rfl⟩ := List.exists_cons_of_ne_nil hg0ne
          have hflat : ((a0 :: g0t) :: gs).flatten =
              a0 :: (g0t ++ gs.flatten) := by
            rw [List.flatten_cons]
            rfl
          rw [hflat] at hs hx
          simp only [List.map_cons] at hs
          have hle := pairwise_head_le hs x.key (List.mem_map_of_mem _ hx)
          simp only [List.head?_cons, Option.map_some] at hg0head
          have ha0 : a0.key = e0.key := by simpa using hg0head
          omega
      · rw [if_neg hi0] at hopt
        exact absurd hopt (by simp)
  · intro off hopt
    by_cases hfst : (binarySearchKey es q).1 = true
    · rw [if_pos hfst] at hopt
      have hoffeq : (binarySearchKey es q).2 = off := Option.some_inj.mp hopt
      rw [hsnd] at hoffeq
      rcases hgi : es.get? (es.countP fun e => decide (e.key < q)) with _ | e
      · have : (binarySearchKey es q).1 = false := by
          rw [binarySearchKey_eq]
          simp only [hgi]
        rw [this] at hfst
        simp at hfst
      · have hfe : (binarySearchKey es q).1 = decide (e.key = q) := by
          rw [binarySearchKey_eq]
          simp only [hgi]
        rw [hfe] at hfst
        have hkey : e.key = q := by simpa using hfst
        rw [hoffeq] at hgi
        have hhigh : ∀ e1, es.get? (off + 1) = some e1 → q < e1.key := by
          intro e1 h1
          have hge : ¬ e1.key < q := by
            intro hc
            have := (hlt (off + 1) e1 h1).mpr hc
            omega
          have hmo : (es.map Entry.key).get? off = some e.key := by
            rw [List.get?_map, hgi]
            rfl
          have hm1 : (es.map Entry.key).get? (off + 1) = some e1.key := by
            rw [List.get?_map, h1]
            rfl
          have := pairwise_get?_lt _ hkeysorted off (off + 1) e.key e1.key
            (by omega) hmo hm1
          omega
        obtain ⟨g, hg, hfind⟩ := core_locate q es grps hf hs off e hgi
          (by omega) hhigh
        exact ⟨e, g, hgi, hg, hfind⟩
    · rw [if_neg hfst] at hopt
      by_cases hi0 : (binarySearchKey es q).2 = 0
      · rw [if_pos hi0] at hopt
        exact absurd hopt (by simp)
      · rw [if_neg hi0] at hopt
        have hoffeq : (binarySearchKey es q).2 - 1 = off := Option.some_inj.mp hopt
        rw [hsnd] at hoffeq hi0
        have hle : es.countP (fun e => decide (e.key < q)) ≤ es.length :=
          List.countP_le_length _
        have hget : es.get? off ≠ none := by
          intro hcon
          have := List.get?_eq_none.mp hcon
          omega
        rcases hgo : es.get? off with _ | e
        · exact absurd hgo hget
        have hlow : e.key ≤ q := by
          have := (hlt off e hgo).mp (by omega)
          omega
        have hhigh : ∀ e1, es.get? (off + 1) = some e1 → q < e1.key := by
          intro e1 h1
          have hge : ¬ e1.key < q := by
            intro hc
            have := (hlt (off + 1) e1 h1).mpr hc
            omega
          have h1c : es.get? (es.countP fun e => decide (e.key < q)) = some e1 := by
            rw [show (es.countP fun e => decide (e.key < q)) = off + 1 by omega]
            exact h1
          have hfe : (binarySearchKey es q).1 = decide (e1.key = q) := by
            rw [binarySearchKey_eq]
            simp only [h1c]
          rw [hfe] at hfst
          have hne : e1.key ≠ q := by simpa using hfst
          omega
        obtain ⟨g, hg, hfind⟩ := core_locate q es grps hf hs off e hgo hlow hhigh
        exact ⟨e, g, rfl, hg, hfind⟩

/-- One `Reader::get` step on a decoded leaf block: with no value-log open
and native values, the result is exactly the matching source entry with its
deltas drained, or `KeyNotFound`. -/
theorem getLoop_zz (c : Codec) (cfg : Config) (rd : Reader) (q : Nat)
    (versions : Bool) (hvv : cfg.value_in_vlog = false) (hvlog : rd.vlog = none)
    (grp : List DbEntry) (zs : List Entry)
    (hrel : List.Forall₂ (LeafEntryFor cfg c) grp zs)
    (hsorted : (grp.map DbEntry.key).Pairwise (fun a b => a < b)) :
    ∀ (fuel : Nat), 1 ≤ fuel →
    Reader.getLoop c rd q versions fuel zs =
      (match grp.find? (fun e' => e'.key == q) with
      | some e => .ok (.ZZ e.key
          (.N e.value.value e.value.seqno e.value.deleted) [])
      | none => .error .KeyNotFound) := by
  intro fuel hfuel
  obtain ⟨f, rfl⟩ : ∃ f, fuel = f + 1 := ⟨fuel - 1, by omega⟩
  have hf2 : List.Forall₂ (fun (z : Entry) (g : List DbEntry) =>
      g ≠ [] ∧ g.head?.map DbEntry.key = some z.key) zs
      (grp.map fun a => [a]) := by
    rw [List.forall₂_map_right_iff]
    refine hrel.flip.imp ?_
    intro z a hza
    have hza' : LeafEntryFor cfg c a z := hza
    refine ⟨by simp, ?_⟩
    simp [hza'.key_eq]
  have hstep := search_step q zs (grp.map fun a => [a]) hf2
    (by rw [flatten_singletons]; exact hsorted)
  simp only [Reader.getLoop]
  rcases hopt : (if (binarySearchKey zs q).1 then some (binarySearchKey zs q).2
      else if (binarySearchKey zs q).2 = 0 then none
      else some ((binarySearchKey zs q).2 - 1) : Option Nat) with _ | off
  · have hnone := hstep.1 hopt
    rw [flatten_singletons] at hnone
    simp only [hopt, hnone]
  · obtain ⟨z, g, hz, hg, hfind⟩ := hstep.2 off hopt
    rw [List.get?_map] at hg
    rcases ha : grp.get? off with _ | a
    · rw [ha] at hg
      simp at hg
    · rw [ha] at hg
      have hga : g = [a] := by
        have := Option.some_inj.mp hg
        exact this.symm
      subst hga
      obtain ⟨a2, ha2, hza⟩ := forall₂_get zs grp hrel.flip off z hz
      rw [ha] at ha2
      have haa : a = a2 := Option.some_inj.mp ha2
      subst haa
      have hlz : LeafEntryFor cfg c a z := hza
      obtain ⟨ds, hzeq⟩ := LeafEntryFor.shape hvv hlz
      subst hzeq
      rw [flatten_singletons] at hfind
      rw [hfind]
      simp only [hopt, hz]
      by_cases hk : a.key = q
      · rw [if_pos hk]
        have hfa : ([a].find? fun e' => e'.key == q) = some a := by
          simp [hk]
        simp only [hfa, hvlog, Entry.drain_deltas]
      · rw [if_neg hk]
        have hfa : ([a].find? fun e' => e'.key == q) = none := by
          simp [hk]
        simp only [hfa]

/-- The full reader descent: starting from a decoded block whose entries
cover the groups `grps` at uniform height `H`, `Reader::get`'s loop finds
exactly the source entry with the target key (deltas drained) or fails
with `KeyNotFound`. -/
theorem getLoop_block (c : Codec) (cfg : Config) (rd : Reader) (q : Nat)
    (versions : Bool) (hvv : cfg.value_in_vlog = false)
    (hwf : FlWF c cfg rd.iflush) (hflen : rd.flen = rd.iflush.fpos)
    (hm : rd.m_blocksize = cfg.m_blocksize)
    (hz : rd.z_blocksize = cfg.z_blocksize) (hvlog : rd.vlog = none) :
    ∀ (H : Nat) (fuel : Nat), H + 2 ≤ fuel →
    ∀ (es : List Entry) (grps : List (List DbEntry)),
    List.Forall₂ (MTree c cfg rd.iflush H) es grps →
    (grps.flatten.map DbEntry.key).Pairwise (fun a b => a < b) →
    Reader.getLoop c rd q versions fuel es =
      (match grps.flatten.find? (fun e' => e'.key == q) with
      | some e => .ok (.ZZ e.key
          (.N e.value.value e.value.seqno e.value.deleted) [])
      | none => .error .KeyNotFound) := by
  intro H
  induction H with
  | zero =>
    intro fuel hfuel es grps hf hs
    obtain ⟨f, rfl⟩ : ∃ f, fuel = f + 1 := ⟨fuel - 1, by omega⟩
    have hf2 := hf.imp (fun a b hab => And.intro hab.tree_nonempty hab.tree_head_key)
    have hstep := search_step q es grps hf2 hs
    simp only [Reader.getLoop]
    rcases hopt : (if (binarySearchKey es q).1 then some (binarySearchKey es q).2
        else if (binarySearchKey es q).2 = 0 then none
        else some ((binarySearchKey es q).2 - 1) : Option Nat) with _ | off
    · have hnone := hstep.1 hopt
      simp only [hopt, hnone]
    · obtain ⟨e, g, he, hg, hfind⟩ := hstep.2 off hopt
      obtain ⟨g2, hg2, hmt⟩ := forall₂_get es grps hf off e he
      rw [hg] at hg2
      obtain rfl : g = g2 := Option.some_inj.mp hg2
      simp only [MTree] at hmt
      obtain ⟨k, fp, b, he', hstore, hkind, hne, hhead, hents⟩ := hmt
      subst he'
      rw [hfind]
      simp only [hopt, he]
      have hb := hwf b (storeAt_mem hstore)
      have hbz : b.bsize = cfg.z_blocksize := hb.2.2.2.1 hkind
      have hread : readBlockAt c rd.iflush rd.flen fp rd.z_blocksize =
          .ok b.entries := by
        rw [hflen, hz, ← hbz]
        exact readBlockAt_store c cfg rd.iflush fp b hwf hstore
      simp only [hread]
      have hgmem : g ∈ grps := List.get?_mem hg
      have hsub : g.Sublist grps.flatten := List.sublist_flatten_of_mem hgmem
      have hsg : (g.map DbEntry.key).Pairwise (fun a b => a < b) :=
        List.Pairwise.sublist (hsub.map DbEntry.key) hs
      exact getLoop_zz c cfg rd q versions hvv hvlog g b.entries hents hsg f
        (by omega)
  | succ h ih =>
    intro fuel hfuel es grps hf hs
    obtain ⟨f, rfl⟩ : ∃ f, fuel = f + 1 := ⟨fuel - 1, by omega⟩
    have hf2 := hf.imp (fun a b hab => And.intro hab.tree_nonempty hab.tree_head_key)
    have hstep := search_step q es grps hf2 hs
    simp only [Reader.getLoop]
    rcases hopt : (if (binarySearchKey es q).1 then some (binarySearchKey es q).2
        else if (binarySearchKey es q).2 = 0 then none
        else some ((binarySearchKey es q).2 - 1) : Option Nat) with _ | off
    · have hnone := hstep.1 hopt
      simp only [hopt, hnone]
    · obtain ⟨e, g, he, hg, hfind⟩ := hstep.2 off hopt
      obtain ⟨g2, hg2, hmt⟩ := forall₂_get es grps hf off e he
      rw [hg] at hg2
      obtain rfl : g = g2 := Option.some_inj.mp hg2
      have hgmem : g ∈ grps := List.get?_mem hg
      have hsub : g.Sublist grps.flatten := List.sublist_flatten_of_mem hgmem
      have hsg : (g.map DbEntry.key).Pairwise (fun a b => a < b) :=
        List.Pairwise.sublist (hsub.map DbEntry.key) hs
      simp only [MTree] at hmt
      rcases hmt with hleaf | ⟨k, fp, b, grps2, he', hstore, hkind, hne2,
        hhead2, hflat2, hsub2, hdesc⟩
      · obtain ⟨k, fp, b, he', hstore, hkind, hne, hhead, hents⟩ := hleaf
        subst he'
        rw [hfind]
        simp only [hopt, he]
        have hb := hwf b (storeAt_mem hstore)
        have hbz : b.bsize = cfg.z_blocksize := hb.2.2.2.1 hkind
        have hread : readBlockAt c rd.iflush rd.flen fp rd.z_blocksize =
            .ok b.entries := by
          rw [hflen, hz, ← hbz]
          exact readBlockAt_store c cfg rd.iflush fp b hwf hstore
        simp only [hread]
        exact getLoop_zz c cfg rd q versions hvv hvlog g b.entries hents hsg f
          (by omega)
      · subst he'
        rw [hfind]
        simp only [hopt, he]
        have hb := hwf b (storeAt_mem hstore)
        have hbm : b.bsize = cfg.m_blocksize := hb.2.2.2.2 hkind
        have hread : readBlockAt c rd.iflush rd.flen fp rd.m_blocksize =
            .ok b.entries := by
          rw [hflen, hm, ← hbm]
          exact readBlockAt_store c cfg rd.iflush fp b hwf hstore
        simp only [hread]
        rw [hflat2]
        rw [hflat2] at hsg
        exact ih f (by omega) b.entries grps2 hsub2 hsg

theorem sorted_find?_unique (src : List DbEntry)
    (hsorted : (src.map DbEntry.key).Pairwise (fun a b => a < b))
    (q : Nat) (e : DbEntry) (he : e ∈ src) (hk : e.key = q) :
    src.find? (fun x => x.key == q) = some e := by
  rcases hf : src.find? (fun x => x.key == q) with _ | x
  · rw [List.find?_eq_none] at hf
    have := hf e he
    simp [hk] at this
  · have hx : x ∈ src := List.mem_of_find?_eq_some hf
    have hxq : x.key = q := by
      have := List.find?_some hf
      simpa using this
    have hp : src.Pairwise (fun a b => a.key ≠ b.key) := by
      have := List.pairwise_map.mp hsorted
      exact this.imp (fun h => Nat.ne_of_lt h)
    by_cases hex : e = x
    · rw [hex]
      exact hf
    · exfalso
      exact hp.forall (fun _ _ h => Ne.symm h) he hx hex (hk.trans hxq.symm)

theorem before_first_absent (src : List DbEntry)
    (hsorted : (src.map DbEntry.key).Pairwise (fun a b => a < b))
    (e0 : DbEntry) (hhead : src.head? = some e0) (q : Nat)
    (hq : q < e0.key) : ∀ e ∈ src, e.key ≠ q := by
  cases src with
  | nil => simp at hhead
  | cons a rest =>
    have ha : a = e0 := by simpa using hhead
    subst ha
    intro e he
    simp only [List.map_cons] at hsorted
    have := pairwise_head_le hsorted e.key (List.mem_map_of_mem _ he)
    omega

theorem MTree_succ_iff (c : Codec) (cfg : Config) (fl : Flusher) (h : Nat)
    (e : Entry) (grp : List DbEntry) :
    MTree c cfg fl (h + 1) e grp ↔
      (IsLeafFor c cfg fl e grp ∨
       ∃ k fp b grps, e = .MM k fp ∧ storeAt fl fp = some b ∧ b.kind = .m ∧
         b.entries ≠ [] ∧ b.entries.head?.map Entry.key = some k ∧
         grp = grps.flatten ∧ List.Forall₂ (MTree c cfg fl h) b.entries grps ∧
         ∀ e' ∈ b.entries, e'.fposOf < fp) := Iff.rfl

theorem toDb_native (e : DbEntry) :
    Entry.toDb (.ZZ e.key (.N e.value.value e.value.seqno e.value.deleted) []) =
      some e.drain_deltas := rfl

/-- Claim C1 — an index built (through the full z/mz/mm tower) from a
non-empty, strictly-ascending source whose entries fit their blocks, opened
at its root, resolves every source key to the stored entry (deltas
drained), returns `KeyNotFound` for every key absent from the source, and
in particular for every target sorting before the first entry.  The blocks
are packed greedily, so the sizes are constrained only by the fit
hypotheses: each leaf entry encodes within `z_blocksize - 2` and pointer
entries within half of `m_blocksize - 2` (a sufficient condition for a
single root after 28 intermediate levels holding at most `2^28` entries). -/
theorem build_get_correct (c : Codec) (cfg : Config) (s : Stats)
    (hdelta : cfg.delta_ok = true) (hvv : cfg.value_in_vlog = false)
    (hz2 : 2 ≤ cfg.z_blocksize) (hm2 : 2 ≤ cfg.m_blocksize)
    (hsm : s.m_blocksize = cfg.m_blocksize)
    (hsz : s.z_blocksize = cfg.z_blocksize)
    (hmzfit : ∀ k fp, (c.encEntry (Entry.MZ k fp)).length ≤
      (cfg.m_blocksize - 2) / 2)
    (hmmfit : ∀ k fp, (c.encEntry (Entry.MM k fp)).length ≤
      (cfg.m_blocksize - 2) / 2)
    (src : List DbEntry) (hzf : ∀ e ∈ src, zfit c cfg e)
    (hsrc : src.length ≤ 2 ^ 28) (hne : src ≠ [])
    (hsorted : (src.map DbEntry.key).Pairwise (fun a b => a < b)) :
    ∃ (root : Nat) (st : BState) (rd : Reader),
      buildTree c cfg src = .ok (root, st) ∧
      Reader.from_root c root s st.iflush st.iflush.fpos none = .ok rd ∧
      (∀ (q : Nat) (e : DbEntry) (versions : Bool), e ∈ src → e.key = q →
        Reader.get c rd q versions = .ok (.ZZ e.key
          (.N e.value.value e.value.seqno e.value.deleted) [])) ∧
      (∀ (q : Nat) (e : DbEntry), e ∈ src → e.key = q →
        Index.get c rd q = .ok e.drain_deltas) ∧
      (∀ (q : Nat) (versions : Bool), (∀ e ∈ src, e.key ≠ q) →
        Reader.get c rd q versions = .error .KeyNotFound ∧
        Index.get c rd q = .error .KeyNotFound) ∧
      (∀ (q : Nat) (e0 : DbEntry), src.head? = some e0 → q < e0.key →
        Reader.get c rd q false = .error .KeyNotFound ∧
        Index.get c rd q = .error .KeyNotFound) := by
  obtain ⟨k, root, scanF, vfF, flF, hbuild, htree, hwf, hroot⟩ :=
    buildTree_spec c cfg hdelta hz2 hm2 hmzfit hmmfit src hzf hsrc hne
  rw [show (29 : Nat) = 28 + 1 from rfl, MTree_succ_iff] at htree
  rcases htree with hleaf | ⟨k2, fp2, b, grps, heq, hstore, hkind, hbne,
    hbhead, hflat, hsubs, hdesc⟩
  · obtain ⟨k3, fp3, b3, habs, _⟩ := hleaf
    exact Entry.noConfusion habs
  · injection heq with hk2 hfp2
    subst hk2
    subst hfp2
    have hb := hwf b (storeAt_mem hstore)
    have hbm : b.bsize = cfg.m_blocksize := hb.2.2.2.2 hkind
    have hread : readBlockAt c flF flF.fpos root s.m_blocksize =
        .ok b.entries := by
      rw [hsm, ← hbm]
      exact readBlockAt_store c cfg flF root b hwf hstore
    have hget : ∀ (q : Nat) (versions : Bool),
        Reader.get c ⟨s.m_blocksize, s.z_blocksize, b.entries, flF,
          flF.fpos, none⟩ q versions =
          (match src.find? (fun x => x.key == q) with
           | some e => .ok (.ZZ e.key
               (.N e.value.value e.value.seqno e.value.deleted) [])
           | none => .error .KeyNotFound) := by
      intro q versions
      have hsub' := hsubs.imp
        (fun a g hab => MTree.normalize c cfg flF 28 a g hab)
      obtain ⟨H, hfa, hH0, hbd⟩ := forall₂_mtree_max c cfg flF
        (fun x => (flF.blocks.filter fun b' => decide (b'.fpos ≤ x)).length)
        b.entries grps hsub'
      obtain ⟨e', he'mem, hbe'⟩ := hbd hbne
      have hSle : (flF.blocks.filter fun b' =>
          decide (b'.fpos ≤ e'.fposOf)).length ≤ flF.blocks.length :=
        List.length_filter_le _ _
      have hsflat : (grps.flatten.map DbEntry.key).Pairwise
          (fun a b => a < b) := by
        rw [← hflat]
        exact hsorted
      have hmain := getLoop_block c cfg ⟨s.m_blocksize, s.z_blocksize,
          b.entries, flF, flF.fpos, none⟩ q versions hvv hwf rfl hsm hsz rfl
        H (flF.blocks.length + 1) (by omega) b.entries grps hfa hsflat
      unfold Reader.get
      rw [← hflat] at hmain
      exact hmain
    refine ⟨root, ⟨scanF, flF, some vfF⟩,
      ⟨s.m_blocksize, s.z_blocksize, b.entries, flF, flF.fpos, none⟩,
      hbuild, ?_, ?_, ?_, ?_, ?_⟩
    · show Reader.from_root c root s flF flF.fpos none = _
      unfold Reader.from_root
      rw [hread]
    · intro q e versions hmem hkey
      rw [hget q versions, sorted_find?_unique src hsorted q e hmem hkey]
    · intro q e hmem hkey
      unfold Index.get
      rw [hget q false, sorted_find?_unique src hsorted q e hmem hkey]
      simp only [toDb_native]
    · intro q versions habs
      have hfind : src.find? (fun x => x.key == q) = none := by
        rw [List.find?_eq_none]
        intro x hx
        simpa using habs x hx
      constructor
      · rw [hget q versions, hfind]
      · unfold Index.get
        rw [hget q false, hfind]
    · intro q e0 hhead hql
      have habs := before_first_absent src hsorted e0 hhead q hql
      have hfind : src.find? (fun x => x.key == q) = none := by
        rw [List.find?_eq_none]
        intro x hx
        simpa using habs x hx
      constructor
      · rw [hget q false, hfind]
      · unfold Index.get
        rw [hget q false, hfind]

/-- A concrete constant-length codec and configuration exercising the full
build/read pipeline on a one-entry source. -/
def wCodec : Codec :=
  ⟨fun _ => [0], fun _ => [0], fun _ => [0], fun _ => some 0, fun _ => some 0⟩

def wCfg : Config := ⟨4, 4, 4, true, false⟩

def wStats : Stats := ⟨[], 4, 4, 4, true, false, none, 1, 0, 1, 0, 0, 0⟩

def wSrc : List DbEntry := [⟨1, ⟨10, 1, false⟩, []⟩]

theorem build_get_correct_witness :
    ∃ (root : Nat) (st : BState) (rd : Reader),
      buildTree wCodec wCfg wSrc = .ok (root, st) ∧
      Reader.from_root wCodec root wStats st.iflush st.iflush.fpos none =
        .ok rd ∧
      (∀ (q : Nat) (e : DbEntry) (versions : Bool), e ∈ wSrc → e.key = q →
        Reader.get wCodec rd q versions = .ok (.ZZ e.key
          (.N e.value.value e.value.seqno e.value.deleted) [])) ∧
      (∀ (q : Nat) (e : DbEntry), e ∈ wSrc → e.key = q →
        Index.get wCodec rd q = .ok e.drain_deltas) ∧
      (∀ (q : Nat) (versions : Bool), (∀ e ∈ wSrc, e.key ≠ q) →
        Reader.get wCodec rd q versions = .error .KeyNotFound ∧
        Index.get wCodec rd q = .error .KeyNotFound) ∧
      (∀ (q : Nat) (e0 : DbEntry), wSrc.head? = some e0 → q < e0.key →
        Reader.get wCodec rd q false = .error .KeyNotFound ∧
        Index.get wCodec rd q = .error .KeyNotFound) :=
  build_get_correct wCodec wCfg wStats rfl rfl (by decide) (by decide) rfl rfl
    (fun k fp => Nat.le_refl 1) (fun k fp => Nat.le_refl 1) wSrc
    (fun e he p => Nat.le_succ 1) (by decide) (by decide) (by simp [wSrc])

/-- Claim C3 — every block posted to the index flusher during a successful
tower build has byte length exactly the configured size for its kind
(`z_blocksize` for leaf blocks, `m_blocksize` for intermediate blocks), and
its bytes are the encoded content (header byte, encoded entries, break
byte) followed by zero padding.  The claim's fit proviso is the same fit
hypotheses as the build theorem: leaf entries within `z_blocksize - 2`,
pointer entries within half of `m_blocksize - 2`. -/
theorem build_block_sizes (c : Codec) (cfg : Config)
    (hdelta : cfg.delta_ok = true) (hz2 : 2 ≤ cfg.z_blocksize)
    (hm2 : 2 ≤ cfg.m_blocksize)
    (hmzfit : ∀ k fp, (c.encEntry (Entry.MZ k fp)).length ≤
      (cfg.m_blocksize - 2) / 2)
    (hmmfit : ∀ k fp, (c.encEntry (Entry.MM k fp)).length ≤
      (cfg.m_blocksize - 2) / 2)
    (src : List DbEntry) (hzf : ∀ e ∈ src, zfit c cfg e)
    (hsrc : src.length ≤ 2 ^ 28) (hne : src ≠ []) :
    ∃ (root : Nat) (st : BState),
      buildTree c cfg src = .ok (root, st) ∧
      ∀ b ∈ st.iflush.blocks,
        (b.kind = .z → (b.bytes c).length = cfg.z_blocksize) ∧
        (b.kind = .m → (b.bytes c).length = cfg.m_blocksize) ∧
        b.bytes c = (159 :: ((b.entries.map c.encEntry).flatten ++ [255])) ++
          List.replicate (b.bsize - b.used c) 0 := by
  obtain ⟨k, root, scanF, vfF, flF, hbuild, htree, hwf, hroot⟩ :=
    buildTree_spec c cfg hdelta hz2 hm2 hmzfit hmmfit src hzf hsrc hne
  refine ⟨root, ⟨scanF, flF, some vfF⟩, hbuild, ?_⟩
  intro b hb
  obtain ⟨h1, h2, h3, hkz, hkm⟩ := hwf b hb
  refine ⟨fun hk => ?_, fun hk => ?_, ?_⟩
  · rw [FBlock.bytes_length]
    exact hkz hk
  · rw [FBlock.bytes_length]
    exact hkm hk
  · have hlen : (159 :: ((b.entries.map c.encEntry).flatten ++ [255])).length =
        b.used c := by
      simp [FBlock.used, List.length_flatten]
      omega
    unfold FBlock.bytes resizeVec
    rw [List.take_all_of_le (by rw [hlen]; exact h2)]
    rw [hlen]

theorem build_block_sizes_witness :
    ∃ (root : Nat) (st : BState),
      buildTree wCodec wCfg wSrc = .ok (root, st) ∧
      ∀ b ∈ st.iflush.blocks,
        (b.kind = .z → (b.bytes wCodec).length = wCfg.z_blocksize) ∧
        (b.kind = .m → (b.bytes wCodec).length = wCfg.m_blocksize) ∧
        b.bytes wCodec =
          (159 :: ((b.entries.map wCodec.encEntry).flatten ++ [255])) ++
          List.replicate (b.bsize - b.used wCodec) 0 :=
  build_block_sizes wCodec wCfg rfl (by decide) (by decide)
    (fun k fp => Nat.le_refl 1) (fun k fp => Nat.le_refl 1) wSrc
    (fun e he p => Nat.le_succ 1) (by decide) (by decide)

/-! ## Claim C8: the iterator (src/reader.rs lines 288-416) -/

/-- `std::ops::Bound<K>` on keys. -/
inductive RBound where
  | unbounded
  | included (k : Nat)
  | excluded (k : Nat)
deriving DecidableEq, Repr

/-- `reader::Iter` (src/reader.rs lines 288-297): the stack of pending
blocks (top of stack at the head), direction, version flag, the one-slot
pushed-back entry and the terminating bound. -/
structure IterState where
  stack : List (List Entry)
  reverse : Bool
  versions : Bool
  entry : Option DbEntry
  bound : RBound
deriving DecidableEq, Repr

/-- `Iter::till` (src/reader.rs lines 325-352): yield the entry while it is
inside the bound, otherwise drain the stack and stop. -/
def Iter.till (st : IterState) (e : DbEntry) :
    Option (Except RErr DbEntry) × IterState :=
  if st.reverse then
    match st.bound with
    | .unbounded => (some (.ok e), st)
    | .included t => if t ≤ e.key then (some (.ok e), st)
        else (none, { st with stack := [] })
    | .excluded t => if t < e.key then (some (.ok e), st)
        else (none, { st with stack := [] })
  else
    match st.bound with
    | .unbounded => (some (.ok e), st)
    | .included t => if e.key ≤ t then (some (.ok e), st)
        else (none, { st with stack := [] })
    | .excluded t => if e.key < t then (some (.ok e), st)
        else (none, { st with stack := [] })

/-- `Iter::fetchzz` (src/reader.rs lines 354-371): with a value-log open,
resolve references (draining the deltas first unless `versions`); without
one, just drain the deltas. -/
def fetchzz (c : Codec) (vlog : Option (List Nat)) (versions : Bool)
    (entry : Entry) : Except RErr Entry :=
  match vlog with
  | some vf =>
    if versions then entry.into_native c vf versions
    else (entry.drain_deltas).into_native c vf versions
  | none => .ok entry.drain_deltas

/-- `Iterator::next for Iter` (src/reader.rs lines 381-416): deliver a
pushed-back entry, else pop the top block; a `ZZ` head is fetched and
bounded by `till`, a pointer head is read — with `m_blocksize` for both
`MM` and `MZ` children — decoded, reversed when iterating backwards, and
pushed.  The unbounded Rust recursion is given fuel. -/
def iterNext (c : Codec) (rd : Reader) :
    Nat → IterState → Option (Except RErr DbEntry) × IterState
  | 0, st => (some (.error .FuelOut), st)
  | fuel + 1, st =>
    match st.entry with
    | some e => (some (.ok e), { st with entry := none })
    | none =>
      match st.stack with
      | [] => (none, st)
      | block :: rest =>
        match block with
        | [] => iterNext c rd fuel { st with stack := rest }
        | e :: blockt =>
          match e with
          | .ZZ k v ds =>
            match fetchzz c rd.vlog st.versions (.ZZ k v ds) with
            | .error er => (some (.error er),
                { st with stack := blockt :: rest })
            | .ok e2 =>
              match e2.toDb with
              | none => (some (.error .Panic),
                  { st with stack := blockt :: rest })
              | some de => Iter.till { st with stack := blockt :: rest } de
          | .MM _ fpos =>
            match readBlockAt c rd.iflush rd.flen fpos rd.m_blocksize with
            | .error er => (some (.error er),
                { st with stack := blockt :: rest })
            | .ok entries =>
              iterNext c rd fuel { st with stack :=
                (if st.reverse then entries.reverse else entries) ::
                  blockt :: rest }
          | .MZ _ fpos =>
            match readBlockAt c rd.iflush rd.flen fpos rd.m_blocksize with
            | .error er => (some (.error er),
                { st with stack := blockt :: rest })
            | .ok entries =>
              iterNext c rd fuel { st with stack :=
                (if st.reverse then entries.reverse else entries) ::
                  blockt :: rest }

theorem into_native_false_deltas (c : Codec) (vf : List Nat) (e e2 : Entry)
    (h : Entry.into_native c vf false e = .ok e2) :
    ∀ k v ds, e2 = .ZZ k v ds → ds = [] := by
  cases e with
  | MM k1 f1 =>
    simp only [Entry.into_native] at h
    injection h with hh
    intro k v ds hds
    rw [← hh] at hds
    exact absurd hds (by simp)
  | MZ k1 f1 =>
    simp only [Entry.into_native] at h
    injection h with hh
    intro k v ds hds
    rw [← hh] at hds
    exact absurd hds (by simp)
  | ZZ k1 v1 ds1 =>
    simp only [Entry.into_native] at h
    rw [if_neg (by simp)] at h
    rcases hvn : VValue.into_native c vf v1 with er | v2
    · rw [hvn] at h
      exact Except.noConfusion h
    · rw [hvn] at h
      injection h with hh
      intro k v ds hds
      rw [← hh] at hds
      injection hds with h1 h2 h3
      exact h3.symm

theorem drain_deltas_deltas (e : Entry) :
    ∀ k v ds, e.drain_deltas = .ZZ k v ds → ds = [] := by
  cases e with
  | MM k1 f1 =>
    intro k v ds hds
    exact absurd hds (by simp [Entry.drain_deltas])
  | MZ k1 f1 =>
    intro k v ds hds
    exact absurd hds (by simp [Entry.drain_deltas])
  | ZZ k1 v1 ds1 =>
    intro k v ds hds
    simp only [Entry.drain_deltas] at hds
    injection hds with h1 h2 h3
    exact h3.symm

theorem fetchzz_false_deltas (c : Codec) (vlog : Option (List Nat))
    (e e2 : Entry) (h : fetchzz c vlog false e = .ok e2) :
    ∀ k v ds, e2 = .ZZ k v ds → ds = [] := by
  cases vlog with
  | none =>
    simp only [fetchzz] at h
    injection h with hh
    rw [← hh]
    exact drain_deltas_deltas e
  | some vf =>
    simp only [fetchzz] at h
    rw [if_neg (by simp)] at h
    exact into_native_false_deltas c vf e.drain_deltas e2 h

theorem toDb_deltas_of_empty (e2 : Entry) (de : DbEntry)
    (h : e2.toDb = some de)
    (hds : ∀ k v ds, e2 = .ZZ k v ds → ds = []) : de.deltas = [] := by
  cases e2 with
  | MM k f => simp [Entry.toDb] at h
  | MZ k f => simp [Entry.toDb] at h
  | ZZ k v ds =>
    obtain rfl : ds = [] := hds k v ds rfl
    cases v with
    | N a b c2 =>
      simp only [Entry.toDb, List.mapM_nil] at h
      injection h with hh
      rw [← hh]
    | R a b c2 d2 =>
      simp [Entry.toDb] at h

theorem getLoop_false_deltas (c : Codec) (rd : Reader) (q : Nat) :
    ∀ (fuel : Nat) (es : List Entry) (e2 : Entry),
    Reader.getLoop c rd q false fuel es = .ok e2 →
    ∀ k v ds, e2 = .ZZ k v ds → ds = [] := by
  intro fuel
  induction fuel with
  | zero =>
    intro es e2 heq
    exact Except.noConfusion heq
  | succ f ih =>
    intro es e2 heq
    simp only [Reader.getLoop] at heq
    rcases hopt : (if (binarySearchKey es q).1 then
        some (binarySearchKey es q).2
        else if (binarySearchKey es q).2 = 0 then none
        else some ((binarySearchKey es q).2 - 1) : Option Nat) with _ | off
    · simp only [hopt] at heq
      exact Except.noConfusion heq
    · simp only [hopt] at heq
      rcases hge : es.get? off with _ | e0
      · simp only [hge] at heq
        exact Except.noConfusion heq
      · simp only [hge] at heq
        cases e0 with
        | MM k1 f1 =>
          rcases hrb : readBlockAt c rd.iflush rd.flen f1 rd.m_blocksize
            with er | es2
          · simp only [hrb] at heq
            exact Except.noConfusion heq
          · simp only [hrb] at heq
            exact ih es2 e2 heq
        | MZ k1 f1 =>
          rcases hrb : readBlockAt c rd.iflush rd.flen f1 rd.z_blocksize
            with er | es2
          · simp only [hrb] at heq
            exact Except.noConfusion heq
          · simp only [hrb] at heq
            exact ih es2 e2 heq
        | ZZ k1 v1 ds1 =>
          simp only [] at heq
          by_cases hk : k1 = q
          · rw [if_pos hk] at heq
            rcases hv : rd.vlog with _ | vf
            · simp only [hv] at heq
              injection heq with hh
              rw [← hh]
              exact drain_deltas_deltas _
            · simp only [hv] at heq
              exact into_native_false_deltas c vf _ e2 heq
          · rw [if_neg hk] at heq
            exact Except.noConfusion heq

/-- Claim C8 — the non-versioned read paths always deliver entries with an
empty delta list, whether or not a value-log is open: `into_native` with
`versions = false` drops deltas, `Reader::get`/`Index::get` with
`versions = false` drop them on both the vlog and no-vlog paths, and every
entry yielded by the iterator with `versions = false` has no deltas. -/
theorem nonversioned_drops_deltas (c : Codec) (rd : Reader) :
    (∀ (vf : List Nat) (e e2 : Entry),
      Entry.into_native c vf false e = .ok e2 →
      ∀ k v ds, e2 = .ZZ k v ds → ds = []) ∧
    (∀ (q : Nat) (e2 : Entry), Reader.get c rd q false = .ok e2 →
      ∀ k v ds, e2 = .ZZ k v ds → ds = []) ∧
    (∀ (q : Nat) (de : DbEntry), Index.get c rd q = .ok de →
      de.deltas = []) ∧
    (∀ (fuel : Nat) (st st2 : IterState) (de : DbEntry),
      st.versions = false → st.entry = none →
      iterNext c rd fuel st = (some (.ok de), st2) → de.deltas = []) := by
  refine ⟨into_native_false_deltas c, ?_, ?_, ?_⟩
  · intro q e2 heq
    exact getLoop_false_deltas c rd q _ rd.root e2 heq
  · intro q de heq
    unfold Index.get at heq
    rcases hg : Reader.get c rd q false with er | e2
    · simp only [hg] at heq
      exact Except.noConfusion heq
    · simp only [hg] at heq
      rcases hdb : e2.toDb with _ | de2
      · simp only [hdb] at heq
        exact Except.noConfusion heq
      · simp only [hdb] at heq
        injection heq with hh
        rw [← hh]
        exact toDb_deltas_of_empty e2 de2 hdb
          (getLoop_false_deltas c rd q _ rd.root e2 hg)
  · intro fuel
    induction fuel with
    | zero =>
      intro st st2 de hver hent heq
      simp only [iterNext] at heq
      exact absurd (congrArg Prod.fst heq) (by simp)
    | succ f ih =>
      intro st st2 de hver hent heq
      simp only [iterNext] at heq
      simp only [hent] at heq
      rcases hstk : st.stack with _ | ⟨block, rest⟩
      · simp only [hstk] at heq
        exact absurd (congrArg Prod.fst heq) (by simp)
      · simp only [hstk] at heq
        cases block with
        | nil =>
          exact ih ⟨rest, st.reverse, st.versions, none, st.bound⟩ st2 de
            hver rfl heq
        | cons e blockt =>
          cases e with
          | ZZ k v ds =>
            simp only [] at heq
            rcases hfz : fetchzz c rd.vlog st.versions (.ZZ k v ds)
              with er | e2
            · simp only [hfz] at heq
              exact absurd (congrArg Prod.fst heq) (by simp)
            · simp only [hfz] at heq
              rcases hdb : e2.toDb with _ | de2
              · simp only [hdb] at heq
                exact absurd (congrArg Prod.fst heq) (by simp)
              · simp only [hdb] at heq
                rw [hver] at hfz
                have hds := toDb_deltas_of_empty e2 de2 hdb
                  (fetchzz_false_deltas c rd.vlog _ e2 hfz)
                unfold Iter.till at heq
                simp only [] at heq
                have hde : de = de2 := by
                  by_cases hrev : st.reverse = true
                  · rw [if_pos hrev] at heq
                    rcases hbd : st.bound with _ | t | t
                    all_goals simp only [hbd] at heq
                    · have := congrArg Prod.fst heq
                      simpa using this.symm
                    · by_cases hc : t ≤ de2.key
                      · rw [if_pos hc] at heq
                        have := congrArg Prod.fst heq
                        simpa using this.symm
                      · rw [if_neg hc] at heq
                        exact absurd (congrArg Prod.fst heq) (by simp)
                    · by_cases hc : t < de2.key
                      · rw [if_pos hc] at heq
                        have := congrArg Prod.fst heq
                        simpa using this.symm
                      · rw [if_neg hc] at heq
                        exact absurd (congrArg Prod.fst heq) (by simp)
                  · rw [if_neg hrev] at heq
                    rcases hbd : st.bound with _ | t | t
                    all_goals simp only [hbd] at heq
                    · have := congrArg Prod.fst heq
                      simpa using this.symm
                    · by_cases hc : de2.key ≤ t
                      · rw [if_pos hc] at heq
                        have := congrArg Prod.fst heq
                        simpa using this.symm
                      · rw [if_neg hc] at heq
                        exact absurd (congrArg Prod.fst heq) (by simp)
                    · by_cases hc : de2.key < t
                      · rw [if_pos hc] at heq
                        have := congrArg Prod.fst heq
                        simpa using this.symm
                      · rw [if_neg hc] at heq
                        exact absurd (congrArg Prod.fst heq) (by simp)
                rw [hde]
                exact hds
          | MM k fpos =>
            simp only [] at heq
            rcases hrb : readBlockAt c rd.iflush rd.flen fpos rd.m_blocksize
              with er | entries
            · simp only [hrb] at heq
              exact absurd (congrArg Prod.fst heq) (by simp)
            · simp only [hrb] at heq
              exact ih ⟨(if st.reverse = true then entries.reverse else
                entries) :: blockt :: rest, st.reverse, st.versions, none,
                st.bound⟩ st2 de hver rfl heq
          | MZ k fpos =>
            simp only [] at heq
            rcases hrb : readBlockAt c rd.iflush rd.flen fpos rd.m_blocksize
              with er | entries
            · simp only [hrb] at heq
              exact absurd (congrArg Prod.fst heq) (by simp)
            · simp only [hrb] at heq
              exact ih ⟨(if st.reverse = true then entries.reverse else
                entries) :: blockt :: rest, st.reverse, st.versions, none,
                st.bound⟩ st2 de hver rfl heq

/-- A one-block in-memory reader whose root leaf entry carries a delta. -/
def wRd : Reader :=
  ⟨4, 4, [.ZZ 1 (.N 10 1 false) [.N 7 1 false]], ⟨0, []⟩, 0, none⟩

theorem nonversioned_drops_deltas_witness :
    (⟨1, ⟨10, 1, false⟩, []⟩ : DbEntry).deltas = [] ∧
    (⟨2, ⟨20, 2, false⟩, []⟩ : DbEntry).deltas = [] :=
  ⟨(nonversioned_drops_deltas wCodec wRd).2.2.1 1 ⟨1, ⟨10, 1, false⟩, []⟩ rfl,
   (nonversioned_drops_deltas wCodec wRd).2.2.2 2
     ⟨[[.ZZ 2 (.N 20 2 false) [.N 9 1 false]]], false, false, none,
       .unbounded⟩
     ⟨[[]], false, false, none, .unbounded⟩ ⟨2, ⟨20, 2, false⟩, []⟩
     rfl rfl rfl⟩

/-! ## Claim C10: range iteration block sizes (src/reader.rs lines 178-224,
398-410) -/

/-- The documented result of `binary_search_by` with the comparator
`fcmp(e.borrow_key(), sk)` (src/reader.rs lines 419-427): with an unbounded
start every comparison is `Greater`, so the search lands at insertion
point 0; with a bounded start it is the plain key search. -/
def fwdSearch (es : List Entry) (sk : Option Nat) : Bool × Nat :=
  match sk with
  | none => (false, 0)
  | some q => binarySearchKey es q

/-- `Reader::fwd_stack` (src/reader.rs lines 178-224).  The function binds
`let z_blocksize = self.m_blocksize;`, so both `MM` and `MZ` children are
read with `m_blocksize` bytes.  The unbounded Rust recursion is given
fuel; the `unreachable!()` arm and an out-of-range index are `Panic`. -/
def fwdStack (c : Codec) (rd : Reader) (sk : Option Nat) :
    Nat → List Entry → Except RErr (List (List Entry))
  | 0, _ => .error .FuelOut
  | fuel + 1, block =>
    match block.head?.map Entry.is_zblock with
    | none => .ok []
    | some true => .ok [block.drop (fwdSearch block sk).2]
    | some false =>
      let off := if (fwdSearch block sk).1 then (fwdSearch block sk).2
        else (fwdSearch block sk).2 - 1
      match block.get? off with
      | none => .error .Panic
      | some (.MM _ fpos) =>
        match readBlockAt c rd.iflush rd.flen fpos rd.m_blocksize with
        | .error er => .error er
        | .ok entries =>
          match fwdStack c rd sk fuel entries with
          | .error er => .error er
          | .ok stack => .ok (block.drop (off + 1) :: stack)
      | some (.MZ _ fpos) =>
        match readBlockAt c rd.iflush rd.flen fpos rd.m_blocksize with
        | .error er => .error er
        | .ok entries =>
          match fwdStack c rd sk fuel entries with
          | .error er => .error er
          | .ok stack => .ok (block.drop (off + 1) :: stack)
      | some (.ZZ _ _ _) => .error .Panic

/-- Reading a stored block back with at least its resize size succeeds (the
size check is `used ≤ rsize`). -/
theorem readBlockAt_larger (c : Codec) (cfg : Config) (fl : Flusher)
    (flen fp M : Nat) (b : FBlock) (hwf : FlWF c cfg fl)
    (hstore : storeAt fl fp = some b) (hM : b.bsize ≤ M)
    (hflen : fp + M ≤ flen) :
    readBlockAt c fl flen fp M = .ok b.entries := by
  have hmem := storeAt_mem hstore
  obtain ⟨h1, h2, h3, _, _⟩ := hwf b hmem
  unfold readBlockAt
  rw [if_pos hflen]
  unfold storeAt at hstore
  rw [hstore]
  simp only [if_pos (Nat.le_trans h2 hM)]

/-- The oversized-leaf store: a leaf z-block of 5 used bytes in 6, and a
root m-block of size 4 pointing at it — `z_blocksize > m_blocksize`. -/
def wBz : FBlock :=
  ⟨0, .z, 6, [.ZZ 1 (.N 10 1 false) [], .ZZ 2 (.N 20 2 false) [],
    .ZZ 3 (.N 30 3 false) []]⟩

def wBm : FBlock := ⟨6, .m, 4, [.MZ 1 0]⟩

def wFl : Flusher := ⟨10, [wBz, wBm]⟩

def wRdX : Reader := ⟨4, 6, [.MZ 1 0], wFl, 10, none⟩

/-- Claim C10 — point lookup reads an `MZ` child with `z_blocksize`, but
`fwd_stack` and `Iter::next` read every child — `MZ` included — with
`m_blocksize`; a stored z-block therefore reads back under the iterator's
size exactly when it fits `m_blocksize` (so `z_blocksize ≤ m_blocksize`
suffices away from the file tail), and on a concrete index with
`z_blocksize = 6 > m_blocksize = 4` the same key that `Reader::get`
resolves makes both iteration paths fail. -/
theorem iter_reads_children_with_m_blocksize :
    (∀ (c : Codec) (rd : Reader) (fuel k fpos : Nat) (versions : Bool),
      Reader.getLoop c rd k versions (fuel + 1) [Entry.MZ k fpos] =
        (match readBlockAt c rd.iflush rd.flen fpos rd.z_blocksize with
         | .error er => .error er
         | .ok entries => Reader.getLoop c rd k versions fuel entries)) ∧
    (∀ (c : Codec) (rd : Reader) (fuel k fpos : Nat),
      fwdStack c rd none (fuel + 1) [Entry.MZ k fpos] =
        (match readBlockAt c rd.iflush rd.flen fpos rd.m_blocksize with
         | .error er => .error er
         | .ok entries =>
           match fwdStack c rd none fuel entries with
           | .error er => .error er
           | .ok stack => .ok ([] :: stack))) ∧
    (∀ (c : Codec) (rd : Reader) (fuel k fpos : Nat) (vers : Bool)
       (rest : List (List Entry)) (bd : RBound),
      iterNext c rd (fuel + 1) ⟨[Entry.MZ k fpos] :: rest, false, vers,
          none, bd⟩ =
        (match readBlockAt c rd.iflush rd.flen fpos rd.m_blocksize with
         | .error er => (some (.error er), ⟨[] :: rest, false, vers,
             none, bd⟩)
         | .ok entries => iterNext c rd fuel ⟨entries :: [] :: rest, false,
             vers, none, bd⟩)) ∧
    (∀ (c : Codec) (cfg : Config) (fl : Flusher) (flen fp : Nat)
       (b : FBlock), FlWF c cfg fl → storeAt fl fp = some b →
      b.kind = .z → cfg.z_blocksize ≤ cfg.m_blocksize →
      fp + cfg.m_blocksize ≤ flen →
      readBlockAt c fl flen fp cfg.m_blocksize = .ok b.entries) ∧
    (wRdX.z_blocksize = 6 ∧ wRdX.m_blocksize = 4 ∧
      Reader.get wCodec wRdX 2 false = .ok (.ZZ 2 (.N 20 2 false) []) ∧
      fwdStack wCodec wRdX none 2 wRdX.root = .error .FailCbor ∧
      iterNext wCodec wRdX 1 ⟨[wRdX.root], false, false, none,
          .unbounded⟩ =
        (some (.error .FailCbor), ⟨[[]], false, false, none,
          .unbounded⟩)) := by
  refine ⟨?_, ?_, ?_, ?_, rfl, rfl, rfl, rfl, rfl⟩
  · intro c rd fuel k fpos versions
    have h0 : ([Entry.MZ k fpos].countP fun e => decide (e.key < k)) = 0 := by
      simp [Entry.key, Nat.lt_irrefl]
    have hbs : binarySearchKey [Entry.MZ k fpos] k = (true, 0) := by
      rw [binarySearchKey_eq, h0]
      simp [Entry.key]
    simp only [Reader.getLoop]
    rw [hbs]
    rfl
  · intro c rd fuel k fpos
    rfl
  · intro c rd fuel k fpos vers rest bd
    rfl
  · intro c cfg fl flen fp b hwf hstore hkind hzm hflen
    have hb := hwf b (storeAt_mem hstore)
    have hbz : b.bsize = cfg.z_blocksize := hb.2.2.2.1 hkind
    exact readBlockAt_larger c cfg fl flen fp cfg.m_blocksize b hwf hstore
      (by omega) hflen

theorem iter_reads_children_with_m_blocksize_witness :
    readBlockAt wCodec ⟨4, [⟨0, .z, 4, [.ZZ 1 (.N 10 1 false) []]⟩]⟩ 10 0
      (⟨4, 6, 4, true, false⟩ : Config).m_blocksize =
      .ok [.ZZ 1 (.N 10 1 false) []] :=
  iter_reads_children_with_m_blocksize.2.2.2.1 wCodec ⟨4, 6, 4, true, false⟩
    ⟨4, [⟨0, .z, 4, [.ZZ 1 (.N 10 1 false) []]⟩]⟩ 10 0
    ⟨0, .z, 4, [.ZZ 1 (.N 10 1 false) []]⟩
    (by
      intro b hb
      simp only [List.mem_singleton] at hb
      subst hb
      exact ⟨by decide, by decide, by decide, fun _ => rfl,
        fun h => nomatch h⟩)
    rfl rfl (by decide) (by decide)

end Robt
